import Mathlib

/-!
Verification of the graph-algorithms engine: shallow embedding of
`graph_algorithms/{dijkstra,kruskal,dfs,bfs,floyd_warshall}.py` and the
`data_structures/{stack,queue}.py` containers, with theorems checking the
specification's claims against the code.

Conventions of the embedding:
* A weighted graph (Python dict `{vertex: [(neighbor, weight), ...]}`) is an
  association list `List (V × List (V × Int))`; an unweighted graph is
  `List (V × List V)`.  Python dict keys are unique; lookup takes the first
  match, which coincides with dict lookup on well-formed graphs.
* Python sets are modelled as lists in insertion order; only membership and
  iteration order matter to the algorithms.
* `float('inf')` and finite numeric distances are modelled by `Option Int`
  (`none` = infinity); edge weights are integers.
* Python loops are modelled by fuel-indexed recursion; the top-level entry
  points supply fuel that provably exceeds the number of iterations the
  Python loop can perform, so the embedding computes by reduction.
-/

namespace Algorithms

variable {V : Type} [DecidableEq V]

/-- Insertion into an insertion-ordered set (Python `set.add`). -/
def insertNew (xs : List V) (x : V) : List V :=
  if x ∈ xs then xs else xs ++ [x]

/-- `graph.get(v, [])` on a weighted adjacency dict. -/
def adjW (g : List (V × List (V × Int))) (v : V) : List (V × Int) :=
  (g.lookup v).getD []

/-- `graph.get(v, [])` on an unweighted adjacency dict. -/
def adjU (g : List (V × List V)) (v : V) : List V :=
  (g.lookup v).getD []

/-- The vertex set collected by the Python pattern
`vertices = set(graph.keys()); for ns in graph.values(): for (n, _) in ns: vertices.add(n)`,
kept in insertion order. -/
def wVertices (g : List (V × List (V × Int))) : List V :=
  g.foldl (fun acc p => p.2.foldl (fun a q => insertNew a q.1) acc)
    (g.foldl (fun acc p => insertNew acc p.1) [])

/-- Same vertex collection for an unweighted graph. -/
def uVertices (g : List (V × List V)) : List V :=
  g.foldl (fun acc p => p.2.foldl (fun a q => insertNew a q) acc)
    (g.foldl (fun acc p => insertNew acc p.1) [])

/-- `a < b` on distances where `none` is `float('inf')`. -/
def oLt : Option Int → Option Int → Bool
  | some a, some b => a < b
  | some _, none => true
  | none, _ => false

/-- Addition on distances where `none` is `float('inf')`. -/
def oAdd : Option Int → Option Int → Option Int
  | some a, some b => some (a + b)
  | _, _ => none

/-! ## Dijkstra, array-scan variant (`dijkstra.py::dijkstra`) -/

/-- The linear scan
`for vertex in unvisited: if distances[vertex] < min_distance: ...`,
returning the selected vertex (`current`) and its distance (`min_distance`).
`current is None` is `none` in the first component. -/
def scanMin (d : V → Option Int) (l : List V) : Option V × Option Int :=
  l.foldl (fun acc v => if oLt (d v) acc.2 then (some v, d v) else acc) (none, none)

/-- The neighbor-relaxation loop of the array-scan variant:
`for neighbor, weight in graph.get(current, []): if neighbor in unvisited: ...`. -/
def relaxArray (g : List (V × List (V × Int))) (current : V) (unvisited : List V)
    (dp : (V → Option Int) × (V → Option V)) :
    (V → Option Int) × (V → Option V) :=
  (adjW g current).foldl
    (fun dp nw =>
      if nw.1 ∈ unvisited then
        let nd := oAdd (dp.1 current) (some nw.2)
        if oLt nd (dp.1 nw.1) then
          (fun v => if v = nw.1 then nd else dp.1 v,
           fun v => if v = nw.1 then some current else dp.2 v)
        else dp
      else dp)
    dp

/-- The `while unvisited:` loop of the array-scan variant.  Each iteration
removes one vertex from `unvisited`, so fuel `unvisited.length` suffices. -/
def dijkstraLoop (g : List (V × List (V × Int))) :
    Nat → List V → (V → Option Int) × (V → Option V) →
    (V → Option Int) × (V → Option V)
  | 0, _, dp => dp
  | fuel + 1, unvisited, dp =>
    if unvisited.isEmpty then dp
    else
      match scanMin dp.1 unvisited with
      | (none, _) => dp
      | (some current, _) =>
        let unvisited' := unvisited.erase current
        dijkstraLoop g fuel unvisited' (relaxArray g current unvisited' dp)

/-- `dijkstra(graph, start)` (array-scan variant): returns the
`(distances, previous)` pair as functions; `none` encodes `float('inf')`
in the first and Python `None` in the second. -/
def dijkstra (g : List (V × List (V × Int))) (start : V) :
    (V → Option Int) × (V → Option V) :=
  let vs := wVertices g
  let dist0 : V → Option Int := fun v => if v = start then some 0 else none
  let prev0 : V → Option V := fun _ => none
  dijkstraLoop g vs.length vs (dist0, prev0)

/-- Key set of the returned dictionaries: the collected vertices plus `start`
(which `distances[start] = 0` inserts even when absent from the graph). -/
def dijkstraKeys (g : List (V × List (V × Int))) (start : V) : List V :=
  insertNew (wVertices g) start

/-! ## Dijkstra, priority-queue variant (`dijkstra.py::dijkstra_priority_queue`)

The Python code keeps entries `(distance, vertex)` in a `heapq` binary heap;
`heappop` returns the lexicographically smallest entry.  No two entries in the
heap are ever equal (a vertex is re-pushed only with a strictly smaller
distance), so the pop sequence is fully determined by the heap contract and
the heap is modelled as a lexicographically sorted list: push inserts in
order, pop takes the head. -/

/-- Lexicographic order on heap entries `(distance, vertex)` as used by
Python tuple comparison. -/
def entryLt [LinearOrder V] (a b : Int × V) : Bool :=
  a.1 < b.1 || (a.1 = b.1 && a.2 < b.2)

/-- `heapq.heappush`: insert keeping the queue sorted (stable for ties). -/
def pqPush [LinearOrder V] (e : Int × V) : List (Int × V) → List (Int × V)
  | [] => [e]
  | x :: xs => if entryLt e x then e :: x :: xs else x :: pqPush e xs

/-- The relaxation loop of the priority-queue variant:
`for neighbor, weight in graph.get(current, []): if neighbor not in visited: ...`.
Returns the updated `(distances, previous, priority_queue)`. -/
def pqRelax [LinearOrder V] (current : V) (cd : Int) (visited : List V)
    (ns : List (V × Int))
    (s : ((V → Option Int) × (V → Option V)) × List (Int × V)) :
    ((V → Option Int) × (V → Option V)) × List (Int × V) :=
  ns.foldl
    (fun s nw =>
      if nw.1 ∈ visited then s
      else
        let nd := cd + nw.2
        if oLt (some nd) (s.1.1 nw.1) then
          ((fun v => if v = nw.1 then some nd else s.1.1 v,
            fun v => if v = nw.1 then some current else s.1.2 v),
           pqPush (nd, nw.1) s.2)
        else s)
    s

/-- The `while priority_queue:` loop of the priority-queue variant. -/
def pqLoop [LinearOrder V] (g : List (V × List (V × Int))) :
    Nat → List (Int × V) → List V → (V → Option Int) × (V → Option V) →
    (V → Option Int) × (V → Option V)
  | 0, _, _, dp => dp
  | _ + 1, [], _, dp => dp
  | fuel + 1, (cd, current) :: rest, visited, dp =>
    if current ∈ visited then pqLoop g fuel rest visited dp
    else
      let s := pqRelax current cd (current :: visited) (adjW g current) (dp, rest)
      pqLoop g fuel s.2 (current :: visited) s.1

/-- Total length of all adjacency lists (an upper bound on the number of
`heappush` calls the Python loop can perform). -/
def totalAdj (g : List (V × List (V × Int))) : Nat :=
  (g.map (fun p => p.2.length)).sum

/-- Fuel that provably exceeds the number of iterations of the
priority-queue loop: each iteration pops one entry, and at most
`1 + totalAdj g` entries are ever pushed. -/
def pqFuel (g : List (V × List (V × Int))) : Nat :=
  (wVertices g).length + totalAdj g + 2

/-- `dijkstra_priority_queue(graph, start)`. -/
def dijkstra_priority_queue [LinearOrder V] (g : List (V × List (V × Int)))
    (start : V) : (V → Option Int) × (V → Option V) :=
  let dist0 : V → Option Int := fun v => if v = start then some 0 else none
  let prev0 : V → Option V := fun _ => none
  pqLoop g (pqFuel g) [(0, start)] [] (dist0, prev0)

/-! ## BFS family (`bfs.py`)

The `Queue` consumed by the code (`data_structures/queue.py`) is a plain
FIFO list: `enqueue` appends at the rear, `dequeue` removes the front.  It is
modelled directly by a Lean list (front = head).  Python's visited sets are
lists used for membership only. -/

/-- Total adjacency length of an unweighted graph. -/
def totalAdjU (g : List (V × List V)) : Nat :=
  (g.map (fun p => p.2.length)).sum

/-- Fuel exceeding the number of iterations any of the BFS/DFS worklist
loops can perform (each loop pops one element per iteration and pushes at
most `1 + totalAdjU g` elements over the whole run). -/
def uFuel (g : List (V × List V)) : Nat :=
  (uVertices g).length + totalAdjU g + 2

/-- Neighbor loop of `bfs`: mark-and-enqueue each unvisited neighbor. -/
def bfsEnq (ns : List V) (s : List V × List V) : List V × List V :=
  ns.foldl (fun s n => if n ∈ s.1 then s else (s.1 ++ [n], s.2 ++ [n])) s

/-- The `while not queue.is_empty():` loop of `bfs`;
state is `(visited, queue, traversal_order)`. -/
def bfsLoop (g : List (V × List V)) :
    Nat → List V → List V → List V → List V
  | 0, _, _, order => order
  | _ + 1, _, [], order => order
  | fuel + 1, visited, current :: rest, order =>
    let s := bfsEnq (adjU g current) (visited, rest)
    bfsLoop g fuel s.1 s.2 (order ++ [current])

/-- `bfs(graph, start)`: traversal order. -/
def bfs (g : List (V × List V)) (start : V) : List V :=
  bfsLoop g (uFuel g) [start] [start] []

/-- Walk the `parent` dictionary from `cur` (Python
`while current is not None: path.append(current); current = parent[current]`),
then reverse.  The chain provably ends within the fuel supplied by callers. -/
def parentWalk : Nat → (V → Option V) → V → List V
  | 0, _, cur => [cur]
  | fuel + 1, parent, cur =>
    match parent cur with
    | none => [cur]
    | some nxt => parentWalk fuel parent nxt ++ [cur]

/-- Neighbor loop of `bfs_shortest_path`: mark, record parent, enqueue. -/
def bfsSpEnq (current : V) (ns : List V)
    (s : List V × List V × (V → Option V)) :
    List V × List V × (V → Option V) :=
  ns.foldl
    (fun s n =>
      if n ∈ s.1 then s
      else (s.1 ++ [n], s.2.1 ++ [n],
            fun v => if v = n then some current else s.2.2 v))
    s

/-- Main loop of `bfs_shortest_path`; state `(visited, queue, parent)`. -/
def bfsSpLoop (g : List (V × List V)) (en : V) :
    Nat → List V → List V → (V → Option V) → Option (List V)
  | 0, _, _, _ => none
  | _ + 1, _, [], _ => none
  | fuel + 1, visited, current :: rest, parent =>
    if current = en then some (parentWalk (uFuel g) parent current)
    else
      let s := bfsSpEnq current (adjU g current) (visited, rest, parent)
      bfsSpLoop g en fuel s.1 s.2.1 s.2.2

/-- `bfs_shortest_path(graph, start, end)`; `none` is Python `None`. -/
def bfs_shortest_path (g : List (V × List V)) (start en : V) :
    Option (List V) :=
  if start = en then some [start]
  else bfsSpLoop g en (uFuel g) [start] [start] (fun _ => none)

/-- Neighbor loop of `bfs_distance`: `if neighbor == target: return distance + 1`
short-circuits, otherwise mark-and-enqueue.  `Sum.inl` is the early return. -/
def bfsDistEnq (target : V) (dd : Int) (ns : List V)
    (s : List V × List (V × Int)) : Sum Int (List V × List (V × Int)) :=
  ns.foldl
    (fun acc n =>
      match acc with
      | Sum.inl r => Sum.inl r
      | Sum.inr s =>
        if n = target then Sum.inl (dd + 1)
        else if n ∈ s.1 then Sum.inr s
        else Sum.inr (s.1 ++ [n], s.2 ++ [(n, dd + 1)]))
    (Sum.inr s)

/-- Main loop of `bfs_distance`; queue holds `(vertex, distance)` pairs. -/
def bfsDistLoop (g : List (V × List V)) (target : V) :
    Nat → List V → List (V × Int) → Int
  | 0, _, _ => -1
  | _ + 1, _, [] => -1
  | fuel + 1, visited, (vertex, dd) :: rest =>
    match bfsDistEnq target dd (adjU g vertex) (visited, rest) with
    | Sum.inl r => r
    | Sum.inr s => bfsDistLoop g target fuel s.1 s.2

/-- `bfs_distance(graph, start, target)`; `-1` means unreachable. -/
def bfs_distance (g : List (V × List V)) (start target : V) : Int :=
  if start = target then 0
  else bfsDistLoop g target (uFuel g) [start] [(start, 0)]

/-! Bidirectional BFS.  Both frontier expansions call `graph.get(current, [])`
on the same graph (the backward search also follows edges forward). -/

/-- State of one search direction: `(visited, queue, parent)`. -/
structure BiSide (V : Type) where
  visited : List V
  queue : List V
  parent : V → Option V

/-- Inner neighbor loop of one layer step: mark/record/enqueue fresh
neighbors, and `break` with a meeting point the moment a fresh neighbor is
already visited by the other side. -/
def biNbrs (other : List V) (current : V) :
    List V → BiSide V → BiSide V × Option V
  | [], s => (s, none)
  | n :: ns, s =>
    if n ∈ s.visited then biNbrs other current ns s
    else
      let s' : BiSide V :=
        ⟨s.visited ++ [n], s.queue ++ [n],
         fun v => if v = n then some current else s.parent v⟩
      if n ∈ other then (s', some n)
      else biNbrs other current ns s'

/-- One full-layer expansion (`for _ in range(size)`), stopping early when a
meeting point is found; `k` is the saved layer size. -/
def biLayer (g : List (V × List V)) (other : List V) :
    Nat → BiSide V → BiSide V × Option V
  | 0, s => (s, none)
  | k + 1, s =>
    match s.queue with
    | [] => (s, none)
    | current :: rest =>
      match biNbrs other current (adjU g current) ⟨s.visited, rest, s.parent⟩ with
      | (s', none) => biLayer g other k s'
      | (s', some m) => (s', some m)

/-- The outer `while` loop of `bfs_bidirectional`. -/
def biLoop (g : List (V × List V)) :
    Nat → BiSide V → BiSide V → Option (V × BiSide V × BiSide V)
  | 0, _, _ => none
  | fuel + 1, fs, bs =>
    if fs.queue.isEmpty || bs.queue.isEmpty then none
    else
      match biLayer g bs.visited fs.queue.length fs with
      | (fs', some m) => some (m, fs', bs)
      | (fs', none) =>
        match biLayer g fs'.visited bs.queue.length bs with
        | (bs', some m) => some (m, fs', bs')
        | (bs', none) => biLoop g fuel fs' bs'

/-- `bfs_bidirectional(graph, start, end)`.  On success the path is
`forward-walk reversed ++ backward-walk minus the duplicated meeting point`;
`parentWalk` already produces the forward walk in start-to-meeting order, so
the backward half is its unreversed counterpart. -/
def bfs_bidirectional (g : List (V × List V)) (start en : V) :
    Option (List V) :=
  if start = en then some [start]
  else
    match biLoop g (uFuel g)
        ⟨[start], [start], fun _ => none⟩ ⟨[en], [en], fun _ => none⟩ with
    | none => none
    | some (m, fs, bs) =>
      some (parentWalk (uFuel g) fs.parent m ++
            (parentWalk (uFuel g) bs.parent m).reverse.tail)

/-! ## DFS family (`dfs.py`)

The `Stack` consumed by the iterative `dfs` (`data_structures/stack.py`) is a
LIFO list; it is modelled by a Lean list with push = cons, pop = head. -/

/-- The push loop of the iterative `dfs`:
`for neighbor in reversed(graph.get(current, [])): if neighbor not in visited: stack.push(neighbor)`. -/
def dfsPush (ns : List V) (visited stack : List V) : List V :=
  ns.reverse.foldl (fun st n => if n ∈ visited then st else n :: st) stack

/-- Main loop of the iterative `dfs`; state `(stack, visited, order)`. -/
def dfsLoop (g : List (V × List V)) :
    Nat → List V → List V → List V → List V
  | 0, _, _, order => order
  | _ + 1, [], _, order => order
  | fuel + 1, current :: rest, visited, order =>
    if current ∈ visited then dfsLoop g fuel rest visited order
    else
      let visited' := visited ++ [current]
      dfsLoop g fuel (dfsPush (adjU g current) visited' rest) visited'
        (order ++ [current])

/-- `dfs(graph, start)` (iterative, explicit stack). -/
def dfs (g : List (V × List V)) (start : V) : List V :=
  dfsLoop g (uFuel g) [start] [] []

/-- `dfs_recursive(graph, start, visited, traversal_order)`: returns the
updated `(visited, traversal_order)`.  Recursion depth grows the visited set
by at least one per level, so fuel `uFuel g` suffices for the initial call. -/
def dfsRec (g : List (V × List V)) :
    Nat → V → List V → List V → List V × List V
  | 0, _, visited, order => (visited, order)
  | fuel + 1, v, visited, order =>
    (adjU g v).foldl
      (fun st n => if n ∈ st.1 then st else dfsRec g fuel n st.1 st.2)
      (visited ++ [v], order ++ [v])

/-- `dfs_recursive(graph, start)` with the default empty accumulators. -/
def dfs_recursive (g : List (V × List V)) (start : V) : List V :=
  (dfsRec g (uFuel g) start [] []).2

/-! ## Topological sort (`dfs.py::topological_sort`) -/

/-- State of the topological sort: Python's `visited` set,
`recursion_stack` set and `result` list. -/
structure TopoState (V : Type) where
  visited : List V
  stack : List V
  result : List V

/-- One step of `dfs_helper`'s neighbor loop: `rec` is the recursive call
at the next fuel level; `none` threads an already-reported `False`. -/
def topoStep (rec : V → TopoState V → Option (TopoState V))
    (acc : Option (TopoState V)) (n : V) : Option (TopoState V) :=
  match acc with
  | none => none
  | some st =>
    if n ∉ st.visited then rec n st
    else if n ∈ st.stack then none
    else some st

/-- `dfs_helper(vertex)` of `topological_sort`: `none` models returning
`False` (cycle detected); the fold over the neighbor list threads the
mutable state and aborts on the first `False`. -/
def topoVisit (g : List (V × List V)) : Nat → V → TopoState V → Option (TopoState V)
  | 0, _, _ => none
  | fuel + 1, v, st =>
    match (adjU g v).foldl (topoStep (topoVisit g fuel))
        (some ⟨st.visited ++ [v], st.stack ++ [v], st.result⟩) with
    | none => none
    | some st2 => some ⟨st2.visited, st2.stack.erase v, st2.result ++ [v]⟩

/-- The `for vertex in graph:` driver loop of `topological_sort`. -/
def topoDriver (g : List (V × List V)) :
    List V → TopoState V → Option (TopoState V)
  | [], st => some st
  | v :: vs, st =>
    if v ∉ st.visited then
      match topoVisit g (uFuel g) v st with
      | none => none
      | some st' => topoDriver g vs st'
    else topoDriver g vs st

/-- `topological_sort(graph)`: `none` models the Python `None` ("graph has a
cycle"); otherwise the finish list reversed. -/
def topological_sort (g : List (V × List V)) : Option (List V) :=
  match topoDriver g (g.map Prod.fst) ⟨[], [], []⟩ with
  | none => none
  | some st => some st.result.reverse

/-! ## Union-Find and Kruskal (`kruskal.py`)

`UnionFind` holds `self.parent` and `self.rank` dicts over the vertex set;
they are modelled as total functions (initialisation `parent[v] = v`,
`rank[v] = 0` becomes the identity / constant-zero function).  `find`'s
path-compression recursion is fuel-indexed; parent chains stay inside the
vertex set, so the fuel supplied by `kruskal_mst` covers them. -/

structure UF (V : Type) where
  parent : V → V
  rank : V → Nat

/-- `UnionFind.find(vertex)` with path compression: returns the root and the
updated parent map. -/
def ufFind : Nat → (V → V) → V → V × (V → V)
  | 0, p, v => (v, p)
  | fuel + 1, p, v =>
    if p v = v then (v, p)
    else
      let r := ufFind fuel p (p v)
      (r.1, fun x => if x = v then r.1 else r.2 x)

/-- `UnionFind.union(vertex1, vertex2)` with union by rank: returns
`(performed?, updated structure)`. -/
def ufUnion (fuel : Nat) (u : UF V) (a b : V) : Bool × UF V :=
  let fa := ufFind fuel u.parent a
  let fb := ufFind fuel fa.2 b
  let root1 := fa.1
  let root2 := fb.1
  if root1 = root2 then (false, ⟨fb.2, u.rank⟩)
  else if u.rank root1 < u.rank root2 then
    (true, ⟨fun x => if x = root1 then root2 else fb.2 x, u.rank⟩)
  else if u.rank root2 < u.rank root1 then
    (true, ⟨fun x => if x = root2 then root1 else fb.2 x, u.rank⟩)
  else
    (true, ⟨fun x => if x = root2 then root1 else fb.2 x,
            fun x => if x = root1 then u.rank root1 + 1 else u.rank x⟩)

/-- Edge collection of `kruskal_mst`: append `(vertex, neighbor, weight)`
unless the reversed triple is already present, while also accumulating the
vertex set.  Returns `(edges, vertices)`. -/
def kruskalCollect (g : List (V × List (V × Int))) :
    List (V × V × Int) × List V :=
  g.foldl
    (fun acc p =>
      p.2.foldl
        (fun acc q =>
          ((if (q.1, p.1, q.2) ∈ acc.1 then acc.1 else acc.1 ++ [(p.1, q.1, q.2)]),
           insertNew acc.2 q.1))
        acc)
    ([], g.foldl (fun acc p => insertNew acc p.1) [])

/-- One step of the stable sort `edges.sort(key=lambda x: x[2])`: insert
after all entries of weight ≤ the new entry's weight. -/
def sortedInsertW (e : V × V × Int) : List (V × V × Int) → List (V × V × Int)
  | [] => [e]
  | x :: xs => if e.2.2 < x.2.2 then e :: x :: xs else x :: sortedInsertW e xs

/-- Stable sort by weight (Python list.sort is stable; any two stable sorts
by the same key agree). -/
def sortByWeight (l : List (V × V × Int)) : List (V × V × Int) :=
  l.foldl (fun acc e => sortedInsertW e acc) []

/-- The accept/reject loop of `kruskal_mst` with the `len == |V|-1` early
break; state `(union-find, mst_edges, total_weight)`. -/
def kruskalLoop (nv fuel : Nat) :
    List (V × V × Int) → UF V → List (V × V × Int) → Int →
    List (V × V × Int) × Int
  | [], _, mst, tw => (mst, tw)
  | e :: es, u, mst, tw =>
    let r := ufUnion fuel u e.1 e.2.1
    if r.1 then
      let mst' := mst ++ [e]
      let tw' := tw + e.2.2
      if mst'.length = nv - 1 then (mst', tw')
      else kruskalLoop nv fuel es r.2 mst' tw'
    else kruskalLoop nv fuel es r.2 mst tw

/-- `kruskal_mst(graph)`: the MST edge list and its total weight. -/
def kruskal_mst (g : List (V × List (V × Int))) : List (V × V × Int) × Int :=
  let c := kruskalCollect g
  kruskalLoop c.2.length (c.2.length + 1) (sortByWeight c.1)
    ⟨fun v => v, fun _ => 0⟩ [] 0

/-- The inner recursive `dfs` of `kruskal_check_connectivity`. -/
def kccDfs (g : List (V × List (V × Int))) :
    Nat → V → List V → List V
  | 0, _, visited => visited
  | fuel + 1, v, visited =>
    (adjW g v).foldl
      (fun vis q => if q.1 ∈ vis then vis else kccDfs g fuel q.1 vis)
      (visited ++ [v])

/-- `kruskal_check_connectivity(graph)`. -/
def kruskal_check_connectivity (g : List (V × List (V × Int))) : Bool :=
  match g with
  | [] => true
  | p :: _ =>
    (kccDfs g ((wVertices g).length + 2) p.1 []).length = (wVertices g).length

/-- The result dict of `kruskal_mst_complete`. -/
structure KruskalResult (V : Type) where
  success : Bool
  mst_edges : Option (List (V × V × Int))
  total_weight : Option Int
  error : Option String
deriving DecidableEq

/-- `kruskal_mst_complete(graph)`: connectivity-checked Kruskal. -/
def kruskal_mst_complete (g : List (V × List (V × Int))) : KruskalResult V :=
  if g.isEmpty then ⟨false, none, none, some "Empty graph"⟩
  else if kruskal_check_connectivity g = false then
    ⟨false, none, none, some "Graph is not connected - MST cannot be formed"⟩
  else
    let r := kruskal_mst g
    ⟨true, some r.1, some r.2, none⟩

/-! ## Floyd-Warshall (`floyd_warshall.py`) -/

/-- Initial matrices: all-infinity distance with 0 diagonal and self next
hops (Python fills `inf`/`None` dicts, then sets the diagonal). -/
def fwBase : (V → V → Option Int) × (V → V → Option V) :=
  ((fun i j => if i = j then some 0 else none),
   (fun i j => if i = j then some i else none))

/-- Direct-edge initialisation: keep the minimum over parallel edges
(`if weight < dist[source][dest]`). -/
def fwEdges (g : List (V × List (V × Int)))
    (s : (V → V → Option Int) × (V → V → Option V)) :
    (V → V → Option Int) × (V → V → Option V) :=
  g.foldl
    (fun s p =>
      p.2.foldl
        (fun s q =>
          if oLt (some q.2) (s.1 p.1 q.1) then
            ((fun i j => if i = p.1 ∧ j = q.1 then some q.2 else s.1 i j),
             (fun i j => if i = p.1 ∧ j = q.1 then some q.1 else s.2 i j))
          else s)
        s)
    s

/-- The relaxation for one intermediate vertex `k` (the two inner loops). -/
def fwRelaxK (vs : List V) (k : V)
    (s : (V → V → Option Int) × (V → V → Option V)) :
    (V → V → Option Int) × (V → V → Option V) :=
  vs.foldl
    (fun s i =>
      vs.foldl
        (fun s j =>
          match s.1 i k, s.1 k j with
          | some dik, some dkj =>
            if oLt (some (dik + dkj)) (s.1 i j) then
              ((fun a b => if a = i ∧ b = j then some (dik + dkj) else s.1 a b),
               (fun a b => if a = i ∧ b = j then s.2 i k else s.2 a b))
            else s
          | _, _ => s)
        s)
    s

/-- `floyd_warshall(graph)`: the distance and next-hop matrices. -/
def floyd_warshall (g : List (V × List (V × Int))) :
    (V → V → Option Int) × (V → V → Option V) :=
  let vs := wVertices g
  vs.foldl (fun s k => fwRelaxK vs k s) (fwEdges g fwBase)

/-- `floyd_warshall_detect_negative_cycles(graph)`: `(bool, vertices with
negative diagonal)`. -/
def floyd_warshall_detect_negative_cycles (g : List (V × List (V × Int))) :
    Bool × List V :=
  let d := (floyd_warshall g).1
  let negs := (wVertices g).filter (fun v => oLt (d v v) (some 0))
  (negs.length > 0, negs)

/-! ## `bfs_level_order` and `dfs_find_path` (needed by the import claim) -/

/-- `levels.setdefault`-style append used by `bfs_level_order`. -/
def levelsAdd (levels : List (Nat × List V)) (k : Nat) (n : V) :
    List (Nat × List V) :=
  if (levels.lookup k).isSome then
    levels.map (fun p => if p.1 = k then (p.1, p.2 ++ [n]) else p)
  else levels ++ [(k, [n])]

/-- Main loop of `bfs_level_order`; queue holds `(vertex, level)`. -/
def bfsLevLoop (g : List (V × List V)) :
    Nat → List V → List (V × Nat) → List (Nat × List V) → List (Nat × List V)
  | 0, _, _, levels => levels
  | _ + 1, _, [], levels => levels
  | fuel + 1, visited, (vertex, level) :: rest, levels =>
    let s := (adjU g vertex).foldl
      (fun s n =>
        if n ∈ s.1 then s
        else (s.1 ++ [n], s.2.1 ++ [(n, level + 1)], levelsAdd s.2.2 (level + 1) n))
      (visited, rest, levels)
    bfsLevLoop g fuel s.1 s.2.1 s.2.2

/-- `bfs_level_order(graph, start)`. -/
def bfs_level_order (g : List (V × List V)) (start : V) :
    List (Nat × List V) :=
  bfsLevLoop g (uFuel g) [start] [(start, 0)] [(0, [start])]

/-- Main loop of `dfs_find_path`; state `(stack, visited, parent)`;
visited is marked at push time. -/
def dfsFpLoop (g : List (V × List V)) (en : V) :
    Nat → List V → List V → (V → Option V) → Option (List V)
  | 0, _, _, _ => none
  | _ + 1, [], _, _ => none
  | fuel + 1, current :: rest, visited, parent =>
    if current = en then some (parentWalk (uFuel g) parent current)
    else
      let s := (adjU g current).reverse.foldl
        (fun (s : List V × List V × (V → Option V)) n =>
          if n ∈ s.2.1 then s
          else (n :: s.1, s.2.1 ++ [n],
                fun v => if v = n then some current else s.2.2 v))
        (rest, visited, parent)
      dfsFpLoop g en fuel s.1 s.2.1 s.2.2

/-- `dfs_find_path(graph, start, end)`. -/
def dfs_find_path (g : List (V × List V)) (start en : V) : Option (List V) :=
  if start = en then some [start]
  else dfsFpLoop g en (uFuel g) [start] [start] (fun _ => none)

/-! ## Module layout of the packages (for the import claim)

The `graph_algorithms` package directory contains only the modules listed
below (its `__init__.py` plus the five algorithm files); `queue.py` and
`stack.py` exist only in the `data_structures` package.  A function body
executing `from .queue import Queue` resolves `queue` against the containing
package and raises `ModuleNotFoundError` (a subclass of `ImportError`) when
no such module exists; the wrappers below model a call as that import
followed by the pure computation. -/

def graph_algorithms_modules : List String :=
  ["__init__", "bfs", "dfs", "dijkstra", "floyd_warshall", "kruskal"]

def data_structures_modules : List String :=
  ["__init__", "linked_list", "queue", "stack"]

/-- Relative import `from .<m> import ...` inside a package. -/
def importFrom (pkg : List String) (m : String) : Except String Unit :=
  if m ∈ pkg then Except.ok () else Except.error ("ModuleNotFoundError: " ++ m)

/-- A call to `bfs` as executed: its body first runs `from .queue import Queue`. -/
def bfs_call (g : List (V × List V)) (start : V) : Except String (List V) :=
  (importFrom graph_algorithms_modules "queue").map (fun _ => bfs g start)

/-- A call to `bfs_shortest_path` as executed. -/
def bfs_shortest_path_call (g : List (V × List V)) (start en : V) :
    Except String (Option (List V)) :=
  (importFrom graph_algorithms_modules "queue").map
    (fun _ => bfs_shortest_path g start en)

/-- A call to `bfs_level_order` as executed. -/
def bfs_level_order_call (g : List (V × List V)) (start : V) :
    Except String (List (Nat × List V)) :=
  (importFrom graph_algorithms_modules "queue").map (fun _ => bfs_level_order g start)

/-- A call to `bfs_distance` as executed. -/
def bfs_distance_call (g : List (V × List V)) (start target : V) :
    Except String Int :=
  (importFrom graph_algorithms_modules "queue").map
    (fun _ => bfs_distance g start target)

/-- A call to `bfs_bidirectional` as executed. -/
def bfs_bidirectional_call (g : List (V × List V)) (start en : V) :
    Except String (Option (List V)) :=
  (importFrom graph_algorithms_modules "queue").map
    (fun _ => bfs_bidirectional g start en)

/-- A call to the iterative `dfs` as executed: its body first runs
`from .stack import Stack`. -/
def dfs_call (g : List (V × List V)) (start : V) : Except String (List V) :=
  (importFrom graph_algorithms_modules "stack").map (fun _ => dfs g start)

/-- A call to `dfs_find_path` as executed. -/
def dfs_find_path_call (g : List (V × List V)) (start en : V) :
    Except String (Option (List V)) :=
  (importFrom graph_algorithms_modules "stack").map
    (fun _ => dfs_find_path g start en)

/-! ## Concrete graphs named by the claims -/

/-- The weighted graph of the Dijkstra example in the spec and in
`dijkstra.py`'s `__main__` block.  The string labels `A..F` are encoded as
`0..5`; the encoding preserves the order `heapq` uses to compare labels on
equal distances. -/
def dijkstraExampleGraph : List (Nat × List (Nat × Int)) :=
  [(0, [(1, 4), (2, 2)]),
   (1, [(2, 5), (3, 10)]),
   (2, [(4, 3)]),
   (3, [(5, 11)]),
   (4, [(1, 4), (3, 4)]),
   (5, [])]

/-- A graph with two equally short routes to `D`; the two Dijkstra variants
break the tie between `B` and `C` differently.  Labels `A B C D` are encoded
as `0 1 2 3` (order-preserving). -/
def dijkstraTieGraph : List (Nat × List (Nat × Int)) :=
  [(0, [(2, 1), (1, 1)]),
   (2, [(3, 1)]),
   (1, [(3, 1)]),
   (3, [])]

/-- The disconnected graph named by the Kruskal error-handling claim. -/
def disconnectedGraph : List (String × List (String × Int)) :=
  [("A", [("B", 1)]), ("B", [("A", 1)]), ("C", [("D", 2)]), ("D", [("C", 2)])]

/-- A directed graph on which the two ends of a bidirectional search meet at
`B` although no directed path `A → C` exists (`bfs_bidirectional` expands the
backward frontier along forward edges). -/
def biDirectedGraph : List (String × List String) :=
  [("A", ["B"]), ("C", ["B"]), ("B", [])]

/-! ## Specification-side notions for Union-Find

A `UnionFind` instance built over a vertex set `dom` keeps a parent map whose
chains stay inside `dom` and terminate: following parents `|dom|` times
reaches a fixed point.  `pIter` iterates the parent map, `rootOf` is the
canonical representative. -/

/-- Iterate a parent map `k` times. -/
def pIter (p : V → V) : Nat → V → V
  | 0, v => v
  | k + 1, v => p (pIter p k v)

/-- The parent map's chains stay inside the element set. -/
def UFClosed (dom : List V) (p : V → V) : Prop :=
  ∀ v ∈ dom, p v ∈ dom

/-- Every chain reaches a fixed point within `|dom|` steps. -/
def UFStab (dom : List V) (p : V → V) : Prop :=
  ∀ v ∈ dom, p (pIter p dom.length v) = pIter p dom.length v

/-- Well-formedness of a Union-Find parent map over `dom`. -/
def UFInv (dom : List V) (p : V → V) : Prop :=
  UFClosed dom p ∧ UFStab dom p

/-- The canonical representative of `v`'s set. -/
def rootOf (dom : List V) (p : V → V) (v : V) : V :=
  pIter p dom.length v

end Algorithms


namespace Algorithms

/-! # Theorems about the claims -/

/-- C6 counterexample: on the spec's example graph with source `A`, the
array-scan `dijkstra` does not return the distance map claimed by the spec:
the computed distance to `D` is `9`, not `13` (and to `F` it is `20`, not
`24`); the priority-queue variant agrees with `9`/`20` as well. -/
theorem C6_counterexample :
    (dijkstra dijkstraExampleGraph 0).1 3 = some 9 ∧
    (dijkstra dijkstraExampleGraph 0).1 5 = some 20 ∧
    (dijkstra_priority_queue dijkstraExampleGraph 0).1 3 = some 9 ∧
    (dijkstra_priority_queue dijkstraExampleGraph 0).1 5 = some 20 ∧
    (some (9 : Int) ≠ some 13) ∧ (some (20 : Int) ≠ some 24) := by
  refine ⟨rfl, rfl, rfl, rfl, by decide, by decide⟩

/-- C6 (amended): on the graph
`{A:[(B,4),(C,2)], B:[(C,5),(D,10)], C:[(E,3)], D:[(F,11)], E:[(B,4),(D,4)], F:[]}`
(labels `A..F` encoded as `0..5`) with source `A`, both Dijkstra variants
return exactly the distance map `{A:0, B:4, C:2, D:9, E:5, F:20}`. -/
theorem C6_theorem :
    (dijkstraKeys dijkstraExampleGraph 0).map
        (fun v => (v, (dijkstra dijkstraExampleGraph 0).1 v)) =
      [(0, some 0), (1, some 4), (2, some 2), (3, some 9),
       (4, some 5), (5, some 20)] ∧
    (dijkstraKeys dijkstraExampleGraph 0).map
        (fun v => (v, (dijkstra_priority_queue dijkstraExampleGraph 0).1 v)) =
      [(0, some 0), (1, some 4), (2, some 2), (3, some 9),
       (4, some 5), (5, some 20)] := ⟨rfl, rfl⟩

/-- C5 counterexample: on the disconnected graph
`{A:[(B,1)], B:[(A,1)], C:[(D,2)], D:[(C,2)]}` the plain `kruskal_mst`
does not report any failure: it silently returns the 2-edge list
`[(A,B,1), (C,D,2)]` with total weight `3`, although the graph has 4
vertices (so a spanning tree would need 3 edges). -/
theorem C5_counterexample :
    kruskal_mst disconnectedGraph = ([("A", "B", 1), ("C", "D", 2)], 3) ∧
    (kruskal_mst disconnectedGraph).1.length = 2 ∧
    (wVertices disconnectedGraph).length = 4 := ⟨rfl, rfl, rfl⟩

/-- C5 (amended): only the checked wrapper `kruskal_mst_complete` reports the
explicit "graph not connected" failure on the disconnected graph: it returns
`success = False` with error
`"Graph is not connected - MST cannot be formed"` and no edge list, while
`kruskal_mst` itself silently returns a 2-edge list. -/
theorem C5_theorem :
    kruskal_mst_complete disconnectedGraph =
      ⟨false, none, none, some "Graph is not connected - MST cannot be formed"⟩ ∧
    (kruskal_mst disconnectedGraph).1.length + 1 <
      (wVertices disconnectedGraph).length := ⟨rfl, by decide⟩

/-- C1 counterexample: on `{A:[(C,1),(B,1)], C:[(D,1)], B:[(D,1)], D:[]}`
(labels `A B C D` as `0 1 2 3`, non-negative weights) the two Dijkstra
variants return different predecessor maps: the array scan reaches `D` via
`C` (the first minimum in set-iteration order) while the priority queue
reaches `D` via `B` (the smallest heap entry `(1, B)`). -/
theorem C1_counterexample :
    (dijkstra dijkstraTieGraph 0).2 3 = some 2 ∧
    (dijkstra_priority_queue dijkstraTieGraph 0).2 3 = some 1 ∧
    (dijkstra dijkstraTieGraph 0).2 3 ≠
      (dijkstra_priority_queue dijkstraTieGraph 0).2 3 := by
  refine ⟨rfl, rfl, by decide⟩

/-- C7 counterexample: on the directed graph `{A:[B], C:[B], B:[]}` with
`start = A`, `end = C` there is no path, and `bfs_shortest_path` returns
`None` and `bfs_distance` returns `-1`, but `bfs_bidirectional` returns the
spurious 2-edge "path" `[A, B, C]` (its backward frontier follows forward
edges), so the three do not agree. -/
theorem C7_counterexample :
    bfs_shortest_path biDirectedGraph "A" "C" = none ∧
    bfs_distance biDirectedGraph "A" "C" = -1 ∧
    bfs_bidirectional biDirectedGraph "A" "C" = some ["A", "B", "C"] := by
  refine ⟨rfl, rfl, rfl⟩

/-- C10: every call to `bfs`, `bfs_shortest_path`, `bfs_level_order`,
`bfs_distance`, `bfs_bidirectional`, the iterative `dfs` and
`dfs_find_path` fails with a module-not-found import error before doing any
graph work: their bodies begin with `from .queue import Queue` or
`from .stack import Stack`, but the `graph_algorithms` package has no
`queue` or `stack` module — those modules exist only in the separate
`data_structures` package. -/
theorem C10_theorem :
    ("queue" ∉ graph_algorithms_modules ∧ "stack" ∉ graph_algorithms_modules ∧
     "queue" ∈ data_structures_modules ∧ "stack" ∈ data_structures_modules) ∧
    (∀ (V : Type) (_i : DecidableEq V) (g : List (V × List V)) (s e : V),
      bfs_call g s = Except.error "ModuleNotFoundError: queue" ∧
      bfs_shortest_path_call g s e = Except.error "ModuleNotFoundError: queue" ∧
      bfs_level_order_call g s = Except.error "ModuleNotFoundError: queue" ∧
      bfs_distance_call g s e = Except.error "ModuleNotFoundError: queue" ∧
      bfs_bidirectional_call g s e = Except.error "ModuleNotFoundError: queue" ∧
      dfs_call g s = Except.error "ModuleNotFoundError: stack" ∧
      dfs_find_path_call g s e = Except.error "ModuleNotFoundError: stack") := by
  refine ⟨⟨by decide, by decide, by decide, by decide⟩, ?_⟩
  intro V _i g s e
  exact ⟨rfl, rfl, rfl, rfl, rfl, rfl, rfl⟩

end Algorithms

namespace Algorithms

/-! ## Union-Find chain theory (towards C9) -/

variable {V : Type} [DecidableEq V]

theorem pIter_add (p : V → V) (a b : Nat) (v : V) :
    pIter p (a + b) v = pIter p b (pIter p a v) := by
  induction b with
  | zero => rfl
  | succ b ih => simp [pIter, ih, Nat.add_succ]

theorem pIter_out (p : V → V) (k : Nat) (v : V) :
    pIter p (k + 1) v = pIter p k (p v) := by
  have h := pIter_add p 1 k v
  simpa [Nat.add_comm, pIter] using h

theorem pIter_of_fix {p : V → V} {v : V} (h : p v = v) (k : Nat) :
    pIter p k v = v := by
  induction k with
  | zero => rfl
  | succ k ih => simp [pIter, ih, h]

theorem pIter_mem {dom : List V} {p : V → V} (hc : UFClosed dom p)
    {v : V} (hv : v ∈ dom) (k : Nat) : pIter p k v ∈ dom := by
  induction k with
  | zero => exact hv
  | succ k ih => exact hc _ ih

theorem pIter_stab_ge {dom : List V} {p : V → V} (hs : UFStab dom p)
    {v : V} (hv : v ∈ dom) {k : Nat} (hk : dom.length ≤ k) :
    pIter p k v = rootOf dom p v := by
  obtain ⟨t, rfl⟩ := Nat.exists_eq_add_of_le hk
  induction t with
  | zero => rfl
  | succ t ih =>
    have : dom.length + (t + 1) = (dom.length + t) + 1 := rfl
    rw [this, pIter]
    rw [ih (Nat.le_add_right _ _)]
    exact hs v hv

theorem rootOf_fix {dom : List V} {p : V → V} (hs : UFStab dom p)
    {v : V} (hv : v ∈ dom) : p (rootOf dom p v) = rootOf dom p v :=
  hs v hv

theorem rootOf_of_fix {dom : List V} {p : V → V} {v : V} (h : p v = v) :
    rootOf dom p v = v := pIter_of_fix h _

theorem rootOf_parent {dom : List V} {p : V → V} (hs : UFStab dom p)
    {v : V} (hv : v ∈ dom) : rootOf dom p (p v) = rootOf dom p v := by
  have h1 : rootOf dom p (p v) = pIter p (dom.length + 1) v := by
    rw [pIter_out]; rfl
  rw [h1]
  exact pIter_stab_ge hs hv (Nat.le_succ_of_le (Nat.le_refl _))

theorem rootOf_root {dom : List V} {p : V → V} (hs : UFStab dom p)
    {v : V} (hv : v ∈ dom) :
    rootOf dom p (rootOf dom p v) = rootOf dom p v :=
  rootOf_of_fix (rootOf_fix hs hv)

/-- `p'` arises from `p` by re-parenting some elements of `dom` directly to
their root (what path compression does). -/
def Compress (dom : List V) (p p' : V → V) : Prop :=
  ∀ x, p' x = p x ∨ (p' x = rootOf dom p x ∧ x ∈ dom)

theorem compress_refl (dom : List V) (p : V → V) : Compress dom p p :=
  fun _ => Or.inl rfl

/-- Core specification of `find`: given that `v`'s chain reaches a fixed
point within `fuel` steps, `find` returns the canonical root and the updated
parent map is a compression of the old one. -/
theorem ufFind_spec {dom : List V} :
    ∀ (fuel : Nat) (p : V → V) (v : V), UFClosed dom p → UFStab dom p →
    v ∈ dom → p (pIter p fuel v) = pIter p fuel v →
    (ufFind fuel p v).1 = rootOf dom p v ∧ Compress dom p (ufFind fuel p v).2
  | 0, p, v, _, _, _, hfix => by
    refine ⟨?_, compress_refl dom p⟩
    simpa [ufFind] using (rootOf_of_fix hfix).symm
  | fuel + 1, p, v, hc, hs, hv, hfix => by
    by_cases hpv : p v = v
    · refine ⟨?_, ?_⟩
      · simpa [ufFind, hpv] using (rootOf_of_fix hpv).symm
      · simpa [ufFind, hpv] using compress_refl dom p
    · have hfix' : p (pIter p fuel (p v)) = pIter p fuel (p v) := by
        rw [← pIter_out]; exact hfix
      have ih := ufFind_spec fuel p (p v) hc hs (hc v hv) hfix'
      constructor
      · show (if p v = v then ((v, p) : V × (V → V))
          else
            let r := ufFind fuel p (p v)
            (r.1, fun x => if x = v then r.1 else r.2 x)).1 = rootOf dom p v
        rw [if_neg hpv]
        show (ufFind fuel p (p v)).1 = rootOf dom p v
        rw [ih.1]
        exact rootOf_parent hs hv
      · show Compress dom p
          (if p v = v then ((v, p) : V × (V → V))
           else
             let r := ufFind fuel p (p v)
             (r.1, fun x => if x = v then r.1 else r.2 x)).2
        rw [if_neg hpv]
        intro x
        by_cases hx : x = v
        · subst hx
          refine Or.inr ⟨?_, hv⟩
          show (if x = x then (ufFind fuel p (p x)).1
                else (ufFind fuel p (p x)).2 x) = rootOf dom p x
          rw [if_pos rfl, ih.1]
          exact rootOf_parent hs hv
        · have := ih.2 x
          simpa [hx] using this

theorem compress_closed {dom : List V} {p p' : V → V} (hc : UFClosed dom p)
    (h : Compress dom p p') : UFClosed dom p' := by
  intro v hv
  rcases h v with h1 | ⟨h1, _⟩
  · rw [h1]; exact hc v hv
  · rw [h1]; exact pIter_mem hc hv _

theorem compress_fix {dom : List V} {p p' : V → V} (h : Compress dom p p')
    {z : V} (hz : p z = z) : p' z = z := by
  rcases h z with h1 | ⟨h1, _⟩
  · rw [h1, hz]
  · rw [h1]; exact rootOf_of_fix hz

theorem compress_chain_root {dom : List V} {p p' : V → V}
    (hc : UFClosed dom p) (hs : UFStab dom p) (h : Compress dom p p')
    {x : V} (hx : x ∈ dom) : ∀ k,
    rootOf dom p (pIter p' k x) = rootOf dom p x ∧ pIter p' k x ∈ dom := by
  intro k
  induction k with
  | zero => exact ⟨rfl, hx⟩
  | succ k ih =>
    rcases ih with ⟨ihr, ihm⟩
    have hy := h (pIter p' k x)
    rcases hy with h1 | ⟨h1, _⟩
    · constructor
      · show rootOf dom p (p' (pIter p' k x)) = rootOf dom p x
        rw [h1, rootOf_parent hs ihm, ihr]
      · show p' (pIter p' k x) ∈ dom
        rw [h1]; exact hc _ ihm
    · constructor
      · show rootOf dom p (p' (pIter p' k x)) = rootOf dom p x
        rw [h1, rootOf_root hs ihm, ihr]
      · show p' (pIter p' k x) ∈ dom
        rw [h1]; exact pIter_mem hc ihm _

theorem compress_progress {dom : List V} {p p' : V → V}
    (hc : UFClosed dom p) (hs : UFStab dom p) (h : Compress dom p p') :
    ∀ (k : Nat) (x : V), x ∈ dom → p (pIter p k x) = pIter p k x →
    p' (pIter p' k x) = pIter p' k x := by
  intro k
  induction k with
  | zero => intro x _ hfix; exact compress_fix h hfix
  | succ k ih =>
    intro x hx hfix
    rcases h x with h1 | ⟨h1, _⟩
    · rw [pIter_out, h1]
      refine ih (p x) (hc x hx) ?_
      rw [← pIter_out]
      exact hfix
    · rw [pIter_out, h1]
      have hfixR : p' (rootOf dom p x) = rootOf dom p x :=
        compress_fix h (rootOf_fix hs hx)
      rw [pIter_of_fix hfixR]
      exact hfixR

theorem compress_stab {dom : List V} {p p' : V → V}
    (hc : UFClosed dom p) (hs : UFStab dom p) (h : Compress dom p p') :
    UFStab dom p' := by
  intro v hv
  exact compress_progress hc hs h dom.length v hv (hs v hv)

theorem compress_rootOf_eq {dom : List V} {p p' : V → V}
    (hc : UFClosed dom p) (hs : UFStab dom p) (h : Compress dom p p')
    {x : V} (hx : x ∈ dom) : rootOf dom p' x = rootOf dom p x := by
  have hA := compress_chain_root hc hs h hx dom.length
  have hz : p' (rootOf dom p' x) = rootOf dom p' x :=
    compress_stab hc hs h x hx
  have hzp : p (rootOf dom p' x) = rootOf dom p' x := by
    rcases h (rootOf dom p' x) with h1 | ⟨h1, _⟩
    · rw [← h1]; exact hz
    · have : rootOf dom p' x = rootOf dom p (rootOf dom p' x) := by
        rw [← h1]; exact hz.symm
      calc p (rootOf dom p' x)
          = p (rootOf dom p (rootOf dom p' x)) := by rw [← this]
        _ = rootOf dom p (rootOf dom p' x) := rootOf_fix hs hA.2
        _ = rootOf dom p' x := this.symm
  have h2 : rootOf dom p (rootOf dom p' x) = rootOf dom p x := hA.1
  rw [rootOf_of_fix hzp] at h2
  exact h2

/-- `find` with enough fuel: returns the canonical root, preserves the
invariant and preserves every element's root. -/
theorem ufFind_full {dom : List V} {p : V → V} {v : V} {fuel : Nat}
    (hinv : UFInv dom p) (hv : v ∈ dom) (hf : dom.length ≤ fuel) :
    (ufFind fuel p v).1 = rootOf dom p v ∧
    UFInv dom (ufFind fuel p v).2 ∧
    (∀ x ∈ dom, rootOf dom (ufFind fuel p v).2 x = rootOf dom p x) := by
  obtain ⟨hc, hs⟩ := hinv
  have hfix : p (pIter p fuel v) = pIter p fuel v := by
    rw [pIter_stab_ge hs hv hf]
    exact rootOf_fix hs hv
  obtain ⟨h1, h2⟩ := ufFind_spec fuel p v hc hs hv hfix
  exact ⟨h1, ⟨compress_closed hc h2, compress_stab hc hs h2⟩,
    fun x hx => compress_rootOf_eq hc hs h2 hx⟩

end Algorithms

namespace Algorithms

variable {V : Type} [DecidableEq V]

theorem pIter_shift {p : V → V} {v : V} {i j : Nat}
    (h : pIter p i v = pIter p j v) :
    ∀ t, pIter p (i + t) v = pIter p (j + t) v := by
  intro t
  induction t with
  | zero => exact h
  | succ t ih =>
    rw [Nat.add_succ, Nat.add_succ, pIter, pIter, ih]

/-- With `|dom|` distinct elements, every terminating chain already reaches
its fixed point after `|dom| - 1` steps (so one extra re-parenting step at
the root still stabilises within `|dom|` steps). -/
theorem reach_pred {dom : List V} {p : V → V} (hnd : dom.Nodup)
    (hc : UFClosed dom p) (hs : UFStab dom p) {v : V} (hv : v ∈ dom) :
    pIter p (dom.length - 1) v = rootOf dom p v := by
  classical
  set n := dom.length with hn
  have hn0 : 0 < n := List.length_pos.mpr (List.ne_nil_of_mem hv)
  -- pigeonhole: the n+1 values pIter 0..n all lie in dom, which has n
  -- distinct elements
  have hmap : ∀ i ∈ Finset.range (n + 1), pIter p i v ∈ dom.toFinset := by
    intro i _
    rw [List.mem_toFinset]
    exact pIter_mem hc hv i
  have hcard : dom.toFinset.card < (Finset.range (n + 1)).card := by
    rw [Finset.card_range, List.toFinset_card_of_nodup hnd]
    exact Nat.lt_succ_self n
  obtain ⟨i, hi, j, hj, hij, heq⟩ :=
    Finset.exists_ne_map_eq_of_card_lt_of_maps_to hcard hmap
  rcases Nat.lt_or_ge i j with hlt | hge
  · -- i < j ≤ n, pIter i v = pIter j v
    have hid : i ≤ n - 1 := by
      have : j ≤ n := Nat.lt_succ_iff.mp (Finset.mem_range.mp hj)
      omega
    have h1 : pIter p (n - 1) v = pIter p (n - 1 + (j - i)) v := by
      have := pIter_shift heq (n - 1 - i)
      have e1 : i + (n - 1 - i) = n - 1 := by omega
      have e2 : j + (n - 1 - i) = n - 1 + (j - i) := by omega
      rw [e1, e2] at this
      exact this
    rw [h1]
    exact pIter_stab_ge hs hv (by omega)
  · have hlt : j < i := by
      rcases Nat.lt_or_ge j i with h | h
      · exact h
      · exact absurd (Nat.le_antisymm hge h) (Ne.symm hij)
    have hid : j ≤ n - 1 := by
      have : i ≤ n := Nat.lt_succ_iff.mp (Finset.mem_range.mp hi)
      omega
    have h1 : pIter p (n - 1) v = pIter p (n - 1 + (i - j)) v := by
      have := pIter_shift heq.symm (n - 1 - j)
      have e1 : j + (n - 1 - j) = n - 1 := by omega
      have e2 : i + (n - 1 - j) = n - 1 + (i - j) := by omega
      rw [e1, e2] at this
      exact this
    rw [h1]
    exact pIter_stab_ge hs hv (by omega)

/-- The fixed point of a chain that passes through a fixed point `r` is `r`
itself. -/
theorem rootOf_of_chain_hits {dom : List V} {p : V → V} (hs : UFStab dom p)
    {x r : V} (hx : x ∈ dom) (hr : p r = r) {k : Nat}
    (hk : pIter p k x = r) : rootOf dom p x = r := by
  rcases Nat.le_total k dom.length with h | h
  · have e : k + (dom.length - k) = dom.length := by omega
    have : rootOf dom p x = pIter p (dom.length - k) (pIter p k x) := by
      show pIter p dom.length x = _
      rw [← pIter_add, e]
    rw [this, hk, pIter_of_fix hr]
  · have := pIter_stab_ge hs hx h
    rw [hk] at this
    exact this.symm

/-- Re-parenting one root `rA` of a well-formed map to another root `rB`
keeps the map well-formed and sends the roots of `rA`'s class to `rB`. -/
theorem link_spec {dom : List V} {p : V → V} (hnd : dom.Nodup)
    (hc : UFClosed dom p) (hs : UFStab dom p) {rA rB : V}
    (hrA : p rA = rA) (hrB : p rB = rB) (hAB : rA ≠ rB) (hBdom : rB ∈ dom) :
    UFInv dom (fun x => if x = rA then rB else p x) ∧
    (∀ x ∈ dom, rootOf dom (fun x => if x = rA then rB else p x) x =
      (if rootOf dom p x = rA then rB else rootOf dom p x)) := by
  classical
  set p' : V → V := (fun x => if x = rA then rB else p x) with hp'
  have hp'B : p' rB = rB := by
    simp only [hp']
    rw [if_neg (Ne.symm hAB)]
    exact hrB
  have hclosed : UFClosed dom p' := by
    intro v hv
    simp only [hp']
    by_cases h : v = rA
    · rw [if_pos h]; exact hBdom
    · rw [if_neg h]; exact hc v hv
  -- when x's class is not rA's, the whole chain avoids rA and is unchanged
  have claimF : ∀ (x : V), x ∈ dom → rootOf dom p x ≠ rA →
      ∀ k, pIter p' k x = pIter p k x := by
    intro x hx hroot k
    induction k with
    | zero => rfl
    | succ k ih =>
      have hne : pIter p k x ≠ rA := by
        intro hhit
        exact hroot (rootOf_of_chain_hits hs hx hrA hhit)
      show p' (pIter p' k x) = p (pIter p k x)
      rw [ih]
      simp only [hp']
      rw [if_neg hne]
  -- when x's class is rA's, the chain of p' jumps to rB and stays there
  have claimE : ∀ (k : Nat) (x : V),
      pIter p' k x = pIter p k x ∨ pIter p' k x = rB := by
    intro k
    induction k with
    | zero => intro x; exact Or.inl rfl
    | succ k ih =>
      intro x
      rcases ih x with h1 | h1
      · by_cases hA : pIter p k x = rA
        · refine Or.inr ?_
          show p' (pIter p' k x) = rB
          rw [h1, hA]
          simp [hp']
        · refine Or.inl ?_
          show p' (pIter p' k x) = p (pIter p k x)
          rw [h1]
          simp only [hp']
          rw [if_neg hA]
      · refine Or.inr ?_
        show p' (pIter p' k x) = rB
        rw [h1, hp'B]
  have hstep : ∀ x ∈ dom, p' (pIter p' dom.length x) = pIter p' dom.length x ∧
      pIter p' dom.length x =
        (if rootOf dom p x = rA then rB else rootOf dom p x) := by
    intro x hx
    by_cases hA : rootOf dom p x = rA
    · -- the p chain is at rA from step n-1 on, so the p' chain is at rB
      -- from step n on
      have hreach : pIter p (dom.length - 1) x = rootOf dom p x :=
        reach_pred hnd hc hs hx
      have hsucc : dom.length - 1 + 1 = dom.length :=
        Nat.succ_pred_eq_of_pos (List.length_pos.mpr (List.ne_nil_of_mem hx))
      have h2 : pIter p' dom.length x = rB := by
        rcases claimE (dom.length - 1) x with h1 | h1
        · rw [← hsucc]
          show p' (pIter p' (dom.length - 1) x) = rB
          rw [h1, hreach, hA]
          simp [hp']
        · rw [← hsucc]
          show p' (pIter p' (dom.length - 1) x) = rB
          rw [h1, hp'B]
      rw [h2, if_pos hA]
      exact ⟨hp'B, rfl⟩
    · have h2 : pIter p' dom.length x = rootOf dom p x :=
        claimF x hx hA dom.length
      rw [h2, if_neg hA]
      refine ⟨?_, rfl⟩
      simp only [hp']
      rw [if_neg hA]
      exact rootOf_fix hs hx
  have hstab : UFStab dom p' := fun v hv => (hstep v hv).1
  refine ⟨⟨hclosed, hstab⟩, ?_⟩
  intro x hx
  exact (hstep x hx).2

end Algorithms

namespace Algorithms

variable {V : Type} [DecidableEq V]

/-- Full specification of `union`: it returns `False` exactly when the two
canonical roots already coincide, preserves well-formedness, and on success
makes the two roots coincide. -/
theorem ufUnion_spec {dom : List V} {u : UF V} {a b : V} {fuel : Nat}
    (hnd : dom.Nodup) (hinv : UFInv dom u.parent) (ha : a ∈ dom)
    (hb : b ∈ dom) (hf : dom.length ≤ fuel) :
    ((ufUnion fuel u a b).1 = false ↔
      rootOf dom u.parent a = rootOf dom u.parent b) ∧
    UFInv dom (ufUnion fuel u a b).2.parent ∧
    ((ufUnion fuel u a b).1 = true →
      rootOf dom (ufUnion fuel u a b).2.parent a =
        rootOf dom (ufUnion fuel u a b).2.parent b) := by
  classical
  obtain ⟨hfa1, hfa2, hfa3⟩ := ufFind_full (p := u.parent) hinv ha hf
  set p1 := (ufFind fuel u.parent a).2 with hp1
  obtain ⟨hfb1, hfb2, hfb3⟩ := ufFind_full (p := p1) hfa2 hb hf
  set p2 := (ufFind fuel p1 b).2 with hp2
  set r1 := (ufFind fuel u.parent a).1 with hr1
  set r2 := (ufFind fuel p1 b).1 with hr2
  have hr1v : r1 = rootOf dom u.parent a := hfa1
  have hr2v : r2 = rootOf dom u.parent b := by
    rw [hfb1]
    exact hfa3 b hb
  have hroot2a : rootOf dom p2 a = r1 := by
    rw [hfb3 a ha, hfa3 a ha, hr1v]
  have hroot2b : rootOf dom p2 b = r2 := by
    rw [hfb3 b hb, ← hfb1]
  have hr1fix : p2 r1 = r1 := by
    have : rootOf dom p2 a = r1 := hroot2a
    rw [← this]
    exact rootOf_fix hfb2.2 ha
  have hr2fix : p2 r2 = r2 := by
    rw [← hroot2b]
    exact rootOf_fix hfb2.2 hb
  have hr1mem : r1 ∈ dom := by
    rw [← hroot2a]
    exact pIter_mem hfb2.1 ha _
  have hr2mem : r2 ∈ dom := by
    rw [← hroot2b]
    exact pIter_mem hfb2.1 hb _
  by_cases heq : r1 = r2
  · have hval : ufUnion fuel u a b = (false, ⟨p2, u.rank⟩) := by
      simp only [ufUnion, ← hp1, ← hp2, ← hr1, ← hr2, if_pos heq]
    rw [hval]
    refine ⟨⟨fun _ => ?_, fun _ => rfl⟩, hfb2, fun h => absurd h (by simp)⟩
    rw [← hr1v, ← hr2v, heq]
  · have hlink := fun (hAB : r1 ≠ r2) =>
      link_spec (p := p2) hnd hfb2.1 hfb2.2 hr1fix hr2fix hAB hr2mem
    have hlink' := fun (hBA : r2 ≠ r1) =>
      link_spec (p := p2) hnd hfb2.1 hfb2.2 hr2fix hr1fix hBA hr1mem
    by_cases hrank : u.rank r1 < u.rank r2
    · have hval : ufUnion fuel u a b =
          (true, ⟨fun x => if x = r1 then r2 else p2 x, u.rank⟩) := by
        simp only [ufUnion, ← hp1, ← hp2, ← hr1, ← hr2, if_neg heq, if_pos hrank]
      rw [hval]
      obtain ⟨hinv', hroots'⟩ := hlink heq
      refine ⟨⟨fun h => by simp at h, fun h => absurd (hr1v ▸ hr2v ▸ h) heq⟩,
        hinv', fun _ => ?_⟩
      show rootOf dom (fun x => if x = r1 then r2 else p2 x) a =
        rootOf dom (fun x => if x = r1 then r2 else p2 x) b
      rw [hroots' a ha, hroots' b hb, hroot2a, hroot2b]
      rw [if_pos rfl, if_neg (Ne.symm heq)]
    · by_cases hrank2 : u.rank r2 < u.rank r1
      · have hval : ufUnion fuel u a b =
            (true, ⟨fun x => if x = r2 then r1 else p2 x, u.rank⟩) := by
          simp only [ufUnion, ← hp1, ← hp2, ← hr1, ← hr2, if_neg heq,
            if_neg hrank, if_pos hrank2]
        rw [hval]
        obtain ⟨hinv', hroots'⟩ := hlink' (Ne.symm heq)
        refine ⟨⟨fun h => by simp at h, fun h => absurd (hr1v ▸ hr2v ▸ h) heq⟩,
          hinv', fun _ => ?_⟩
        show rootOf dom (fun x => if x = r2 then r1 else p2 x) a =
          rootOf dom (fun x => if x = r2 then r1 else p2 x) b
        rw [hroots' a ha, hroots' b hb, hroot2a, hroot2b]
        rw [if_neg heq, if_pos rfl]
      · have hval : ufUnion fuel u a b =
            (true, ⟨fun x => if x = r2 then r1 else p2 x,
              fun x => if x = r1 then u.rank r1 + 1 else u.rank x⟩) := by
          simp only [ufUnion, ← hp1, ← hp2, ← hr1, ← hr2, if_neg heq,
            if_neg hrank, if_neg hrank2]
        rw [hval]
        obtain ⟨hinv', hroots'⟩ := hlink' (Ne.symm heq)
        refine ⟨⟨fun h => by simp at h, fun h => absurd (hr1v ▸ hr2v ▸ h) heq⟩,
          hinv', fun _ => ?_⟩
        show rootOf dom (fun x => if x = r2 then r1 else p2 x) a =
          rootOf dom (fun x => if x = r2 then r1 else p2 x) b
        rw [hroots' a ha, hroots' b hb, hroot2a, hroot2b]
        rw [if_neg heq, if_pos rfl]

end Algorithms

namespace Algorithms

variable {V : Type} [DecidableEq V]

/-- C9: for every well-formed `UnionFind` instance over the (distinct)
element list `dom`, all elements `a, b` of it, and any fuel covering the
parent chains (`|dom| ≤ fuel`): `union(a, b)` returns `False` exactly when
`find(a) == find(b)` already holds (in particular `union(a, a)` is a no-op
returning `False`); whenever `union(a, b)` returns `True`,
`find(a) == find(b)` holds on the updated structure; and repeated `find(a)`
with no intervening `union` returns the same root. -/
theorem C9_theorem {dom : List V} {u : UF V} {a b : V} {fuel : Nat}
    (hnd : dom.Nodup) (hinv : UFInv dom u.parent) (ha : a ∈ dom)
    (hb : b ∈ dom) (hf : dom.length ≤ fuel) :
    ((ufUnion fuel u a b).1 = false ↔
      (ufFind fuel u.parent a).1 = (ufFind fuel u.parent b).1) ∧
    (ufUnion fuel u a a).1 = false ∧
    ((ufUnion fuel u a b).1 = true →
      (ufFind fuel (ufUnion fuel u a b).2.parent a).1 =
        (ufFind fuel (ufUnion fuel u a b).2.parent b).1) ∧
    (ufFind fuel (ufFind fuel u.parent a).2 a).1 = (ufFind fuel u.parent a).1 := by
  obtain ⟨hiff, hinv', htrue⟩ := ufUnion_spec hnd hinv ha hb hf
  obtain ⟨hfa1, hfa2, hfa3⟩ := ufFind_full (p := u.parent) hinv ha hf
  obtain ⟨hfb1, _, _⟩ := ufFind_full (p := u.parent) hinv hb hf
  refine ⟨?_, ?_, ?_, ?_⟩
  · rw [hiff, hfa1, hfb1]
  · rw [(ufUnion_spec hnd hinv ha ha hf).1]
  · intro h
    obtain ⟨ga, _, _⟩ :=
      ufFind_full (p := (ufUnion fuel u a b).2.parent) hinv' ha hf
    obtain ⟨gb, _, _⟩ :=
      ufFind_full (p := (ufUnion fuel u a b).2.parent) hinv' hb hf
    rw [ga, gb]
    exact htrue h
  · obtain ⟨ga, _, _⟩ := ufFind_full (p := (ufFind fuel u.parent a).2) hfa2 ha hf
    rw [ga, hfa3 a ha, hfa1]

/-- Witness for C9: the freshly initialised instance `UnionFind([0, 1])`
(identity parent map, zero ranks) with `a = 0`, `b = 1`, fuel `2`. -/
theorem C9_witness :
    ([0, 1] : List Nat).Nodup ∧ UFInv [0, 1] (fun v : Nat => v) ∧
    (0 : Nat) ∈ [0, 1] ∧ (1 : Nat) ∈ [0, 1] ∧ ([0, 1] : List Nat).length ≤ 2 ∧
    (((ufUnion 2 ⟨fun v : Nat => v, fun _ => 0⟩ 0 1).1 = false ↔
      (ufFind 2 (fun v : Nat => v) 0).1 = (ufFind 2 (fun v : Nat => v) 1).1) ∧
    (ufUnion 2 ⟨fun v : Nat => v, fun _ => 0⟩ 0 0).1 = false ∧
    ((ufUnion 2 ⟨fun v : Nat => v, fun _ => 0⟩ 0 1).1 = true →
      (ufFind 2 (ufUnion 2 ⟨fun v : Nat => v, fun _ => 0⟩ 0 1).2.parent 0).1 =
        (ufFind 2 (ufUnion 2 ⟨fun v : Nat => v, fun _ => 0⟩ 0 1).2.parent 1).1) ∧
    (ufFind 2 (ufFind 2 (fun v : Nat => v) 0).2 0).1 =
      (ufFind 2 (fun v : Nat => v) 0).1) := by
  have hnd : ([0, 1] : List Nat).Nodup := by decide
  have hinv : UFInv [0, 1] (fun v : Nat => v) := by
    constructor
    · intro v hv; exact hv
    · intro v _; rfl
  exact ⟨hnd, hinv, by decide, by decide, by decide,
    C9_theorem hnd hinv (by decide) (by decide) (by decide)⟩

end Algorithms

namespace Algorithms

variable {V : Type} [DecidableEq V]

/-! ## Counting and potential helpers for fuel bounds and termination -/

/-- Number of elements of `U` not yet visited. -/
def countFresh (U W : List V) : Nat :=
  (U.filter (fun y => y ∉ W)).length

/-- Total remaining work: each unvisited element of `U` carries cost `c`. -/
def potential (U W : List V) (c : V → Nat) : Nat :=
  ((U.filter (fun y => y ∉ W)).map c).sum

theorem length_filter_mono {p q : V → Bool}
    (h : ∀ a, p a = true → q a = true) :
    ∀ l : List V, (l.filter p).length ≤ (l.filter q).length := by
  intro l
  induction l with
  | nil => exact Nat.le_refl 0
  | cons x xs ih =>
    by_cases hp : p x = true
    · rw [List.filter_cons_of_pos hp, List.filter_cons_of_pos (h x hp)]
      exact Nat.succ_le_succ ih
    · rw [List.filter_cons_of_neg (by simpa using hp)]
      by_cases hq : q x = true
      · rw [List.filter_cons_of_pos hq]
        exact Nat.le_succ_of_le ih
      · rw [List.filter_cons_of_neg (by simpa using hq)]
        exact ih

theorem sum_filter_mono {c : V → Nat} {p q : V → Bool}
    (h : ∀ a, p a = true → q a = true) :
    ∀ l : List V, ((l.filter p).map c).sum ≤ ((l.filter q).map c).sum := by
  intro l
  induction l with
  | nil => exact Nat.le_refl 0
  | cons x xs ih =>
    by_cases hp : p x = true
    · rw [List.filter_cons_of_pos hp, List.filter_cons_of_pos (h x hp)]
      simpa using Nat.add_le_add_left ih (c x)
    · rw [List.filter_cons_of_neg (by simpa using hp)]
      by_cases hq : q x = true
      · rw [List.filter_cons_of_pos hq]
        simp only [List.map_cons, List.sum_cons]
        exact Nat.le_add_left _ _ |>.trans (Nat.add_le_add_left ih (c x))
      · rw [List.filter_cons_of_neg (by simpa using hq)]
        exact ih

theorem countFresh_mono {U W W' : List V} (h : ∀ y, y ∈ W → y ∈ W') :
    countFresh U W' ≤ countFresh U W := by
  refine length_filter_mono ?_ U
  intro a ha
  simp only [decide_eq_true_eq] at ha ⊢
  intro hmem
  exact ha (h a hmem)

theorem potential_mono {U W W' : List V} (c : V → Nat)
    (h : ∀ y, y ∈ W → y ∈ W') : potential U W' c ≤ potential U W c := by
  refine sum_filter_mono ?_ U
  intro a ha
  simp only [decide_eq_true_eq] at ha ⊢
  intro hmem
  exact ha (h a hmem)

theorem countFresh_lt {U W W' : List V} {x : V}
    (hW' : ∀ y, y ∈ W' ↔ (y = x ∨ y ∈ W)) (hxU : x ∈ U) (hxW : x ∉ W) :
    countFresh U W' < countFresh U W := by
  induction U with
  | nil => cases hxU
  | cons u us ih =>
    unfold countFresh
    rcases List.mem_cons.mp hxU with rfl | hxus
    · rw [List.filter_cons_of_neg (by simp [hW']), List.filter_cons_of_pos (by simpa)]
      refine Nat.lt_succ_of_le (countFresh_mono ?_)
      intro y hy
      exact (hW' y).mpr (Or.inr hy)
    · by_cases hu : u ∈ W
      · have hu' : u ∈ W' := (hW' u).mpr (Or.inr hu)
        rw [List.filter_cons_of_neg (by simpa),
          List.filter_cons_of_neg (by simpa)]
        exact ih hxus
      · by_cases hu' : u ∈ W'
        · rw [List.filter_cons_of_neg (by simpa), List.filter_cons_of_pos (by simpa)]
          exact Nat.lt_succ_of_lt (ih hxus)
        · rw [List.filter_cons_of_pos (by simpa), List.filter_cons_of_pos (by simpa)]
          exact Nat.succ_lt_succ (ih hxus)

theorem countFresh_eq_of_not_mem {U W W' : List V} {x : V}
    (hW' : ∀ y, y ∈ W' ↔ (y = x ∨ y ∈ W)) (hxU : x ∉ U) :
    countFresh U W' = countFresh U W := by
  unfold countFresh
  congr 1
  refine List.filter_congr ?_
  intro y hy
  have hyx : y ≠ x := fun h => hxU (h ▸ hy)
  simp [hW', hyx]

theorem potential_drop {U : List V} (c : V → Nat) :
    ∀ {W W' : List V} {x : V}, U.Nodup →
    (∀ y, y ∈ W' ↔ (y = x ∨ y ∈ W)) → x ∈ U → x ∉ W →
    potential U W' c + c x = potential U W c := by
  induction U with
  | nil => intro _ _ _ _ _ h; cases h
  | cons u us ih =>
    intro W W' x hnd hW' hxU hxW
    have hndus : us.Nodup := (List.nodup_cons.mp hnd).2
    unfold potential
    rcases List.mem_cons.mp hxU with rfl | hxus
    · have hxnotus : x ∉ us := (List.nodup_cons.mp hnd).1
      rw [List.filter_cons_of_neg (by simp [hW']), List.filter_cons_of_pos (by simpa)]
      simp only [List.map_cons, List.sum_cons]
      have heq : ((us.filter (fun y => y ∉ W')).map c).sum
          = ((us.filter (fun y => y ∉ W)).map c).sum := by
        congr 2
        refine List.filter_congr ?_
        intro y hy
        have hyx : y ≠ x := fun h => hxnotus (h ▸ hy)
        simp [hW', hyx]
      rw [heq]
      exact Nat.add_comm _ _
    · have hux : u ≠ x := fun h => (List.nodup_cons.mp hnd).1 (h ▸ hxus)
      by_cases hu : u ∈ W
      · have hu' : u ∈ W' := (hW' u).mpr (Or.inr hu)
        rw [List.filter_cons_of_neg (by simpa),
          List.filter_cons_of_neg (by simpa)]
        exact ih hndus hW' hxus hxW
      · have hu' : u ∉ W' := by
          intro h
          rcases (hW' u).mp h with h1 | h1
          · exact hux h1
          · exact hu h1
        rw [List.filter_cons_of_pos (by simpa),
          List.filter_cons_of_pos (by simpa)]
        simp only [List.map_cons, List.sum_cons]
        rw [Nat.add_assoc]
        show c u + (potential us W' c + c x) = c u + potential us W c
        rw [ih hndus hW' hxus hxW]

end Algorithms

namespace Algorithms

variable {V : Type} [DecidableEq V]

/-! ## Vertex-set membership lemmas -/

theorem mem_insertNew {xs : List V} {x y : V} :
    y ∈ insertNew xs x ↔ y ∈ xs ∨ y = x := by
  unfold insertNew
  by_cases h : x ∈ xs
  · rw [if_pos h]
    constructor
    · exact Or.inl
    · rintro (h1 | rfl)
      · exact h1
      · exact h
  · rw [if_neg h]
    simp

theorem insertNew_nodup {xs : List V} (h : xs.Nodup) (x : V) :
    (insertNew xs x).Nodup := by
  unfold insertNew
  by_cases hx : x ∈ xs
  · rw [if_pos hx]; exact h
  · rw [if_neg hx]
    simpa [List.nodup_append] using ⟨h, hx⟩

theorem mem_foldl_insertNew {l : List V} :
    ∀ {acc : List V} {y : V}, y ∈ acc → y ∈ l.foldl insertNew acc := by
  induction l with
  | nil => intro acc y h; exact h
  | cons x xs ih =>
    intro acc y h
    exact ih (mem_insertNew.mpr (Or.inl h))

theorem mem_foldl_insertNew_of_mem {l : List V} :
    ∀ {acc : List V} {y : V}, y ∈ l → y ∈ l.foldl insertNew acc := by
  induction l with
  | nil => intro acc y h; cases h
  | cons x xs ih =>
    intro acc y h
    rw [List.foldl_cons]
    rcases List.mem_cons.mp h with rfl | h
    · exact mem_foldl_insertNew (mem_insertNew.mpr (Or.inr rfl))
    · exact ih h

theorem foldl_insertNew_nodup {l : List V} :
    ∀ {acc : List V}, acc.Nodup → (l.foldl insertNew acc).Nodup := by
  induction l with
  | nil => intro acc h; exact h
  | cons x xs ih =>
    intro acc h
    exact ih (insertNew_nodup h x)

theorem foldl_insertNew_fst (l : List (V × List V)) :
    ∀ acc : List V,
      l.foldl (fun acc p => insertNew acc p.1) acc =
        (l.map Prod.fst).foldl insertNew acc := by
  induction l with
  | nil => intro acc; rfl
  | cons p ps ih => intro acc; simp only [List.foldl_cons, List.map_cons]; exact ih _

theorem foldl_insertNew_snd (l : List (V × List V)) :
    ∀ acc : List V,
      l.foldl (fun acc p => p.2.foldl (fun a q => insertNew a q) acc) acc =
        (l.flatMap Prod.snd).foldl insertNew acc := by
  induction l with
  | nil => intro acc; rfl
  | cons p ps ih =>
    intro acc
    simp only [List.foldl_cons, List.flatMap_cons, List.foldl_append]
    exact ih _

theorem foldl_insertNew_wfst (l : List (V × List (V × Int))) :
    ∀ acc : List V,
      l.foldl (fun acc p => insertNew acc p.1) acc =
        (l.map Prod.fst).foldl insertNew acc := by
  induction l with
  | nil => intro acc; rfl
  | cons p ps ih => intro acc; simp only [List.foldl_cons, List.map_cons]; exact ih _

theorem foldl_insertNew_inner (ns : List (V × Int)) :
    ∀ acc : List V,
      ns.foldl (fun a q => insertNew a q.1) acc =
        (ns.map Prod.fst).foldl insertNew acc := by
  induction ns with
  | nil => intro acc; rfl
  | cons q qs ih => intro acc; simp only [List.foldl_cons, List.map_cons]; exact ih _

theorem foldl_insertNew_wsnd (l : List (V × List (V × Int))) :
    ∀ acc : List V,
      l.foldl (fun acc p => p.2.foldl (fun a q => insertNew a q.1) acc) acc =
        ((l.flatMap Prod.snd).map Prod.fst).foldl insertNew acc := by
  induction l with
  | nil => intro acc; rfl
  | cons p ps ih =>
    intro acc
    simp only [List.foldl_cons, List.flatMap_cons, List.map_append, List.foldl_append]
    rw [foldl_insertNew_inner]
    exact ih _

/-- The unweighted vertex collection as one flat `insertNew` fold. -/
theorem uVertices_eq_flat (g : List (V × List V)) :
    uVertices g = (g.map Prod.fst ++ g.flatMap Prod.snd).foldl insertNew [] := by
  unfold uVertices
  rw [List.foldl_append, foldl_insertNew_fst, foldl_insertNew_snd]

/-- The weighted vertex collection as one flat `insertNew` fold. -/
theorem wVertices_eq_flat (g : List (V × List (V × Int))) :
    wVertices g =
      (g.map Prod.fst ++ (g.flatMap Prod.snd).map Prod.fst).foldl insertNew [] := by
  unfold wVertices
  rw [List.foldl_append, foldl_insertNew_wfst, foldl_insertNew_wsnd]

theorem lookup_mem_pairs {β : Type} {g : List (V × β)} {x : V} {ns : β} :
    g.lookup x = some ns → (x, ns) ∈ g := by
  induction g with
  | nil => intro h; cases h
  | cons p ps ih =>
    intro h
    rw [List.lookup] at h
    by_cases hx : x = p.1
    · have hb : (x == p.1) = true := beq_iff_eq.mpr hx
      rw [hb] at h
      simp only [Option.some.injEq] at h
      have : (x, ns) = p := by
        rw [hx, ← h]
      rw [this]
      exact List.mem_cons_self _ _
    · have hb : (x == p.1) = false := beq_eq_false_iff_ne.mpr hx
      rw [hb] at h
      exact List.mem_cons_of_mem _ (ih h)

theorem key_mem_uVertices {g : List (V × List V)} {x : V}
    (h : x ∈ g.map Prod.fst) : x ∈ uVertices g := by
  rw [uVertices_eq_flat]
  exact mem_foldl_insertNew_of_mem (List.mem_append.mpr (Or.inl h))

theorem nbr_mem_uVertices {g : List (V × List V)} {x n : V}
    (h : n ∈ adjU g x) : n ∈ uVertices g := by
  rw [uVertices_eq_flat]
  refine mem_foldl_insertNew_of_mem (List.mem_append.mpr (Or.inr ?_))
  unfold adjU at h
  cases hl : g.lookup x with
  | none => rw [hl] at h; cases h
  | some ns =>
    rw [hl] at h
    simp only [Option.getD_some] at h
    have := lookup_mem_pairs hl
    exact List.mem_flatMap.mpr ⟨(x, ns), this, h⟩

theorem key_mem_wVertices {g : List (V × List (V × Int))} {x : V}
    (h : x ∈ g.map Prod.fst) : x ∈ wVertices g := by
  rw [wVertices_eq_flat]
  exact mem_foldl_insertNew_of_mem (List.mem_append.mpr (Or.inl h))

theorem nbr_mem_wVertices {g : List (V × List (V × Int))} {x n : V} {w : Int}
    (h : (n, w) ∈ adjW g x) : n ∈ wVertices g := by
  rw [wVertices_eq_flat]
  refine mem_foldl_insertNew_of_mem (List.mem_append.mpr (Or.inr ?_))
  unfold adjW at h
  cases hl : g.lookup x with
  | none => rw [hl] at h; cases h
  | some ns =>
    rw [hl] at h
    simp only [Option.getD_some] at h
    have := lookup_mem_pairs hl
    exact List.mem_map.mpr ⟨(n, w), List.mem_flatMap.mpr ⟨(x, ns), this, h⟩, rfl⟩

theorem uVertices_nodup (g : List (V × List V)) : (uVertices g).Nodup := by
  rw [uVertices_eq_flat]
  exact foldl_insertNew_nodup List.nodup_nil

theorem wVertices_nodup (g : List (V × List (V × Int))) : (wVertices g).Nodup := by
  rw [wVertices_eq_flat]
  exact foldl_insertNew_nodup List.nodup_nil

theorem adjU_ne_nil_key {g : List (V × List V)} {x : V}
    (h : adjU g x ≠ []) : x ∈ g.map Prod.fst := by
  unfold adjU at h
  cases hl : g.lookup x with
  | none => rw [hl] at h; exact absurd rfl h
  | some ns =>
    have := lookup_mem_pairs hl
    exact List.mem_map.mpr ⟨(x, ns), this, rfl⟩

theorem adjW_ne_nil_key {g : List (V × List (V × Int))} {x : V}
    (h : adjW g x ≠ []) : x ∈ g.map Prod.fst := by
  unfold adjW at h
  cases hl : g.lookup x with
  | none => rw [hl] at h; exact absurd rfl h
  | some ns =>
    have := lookup_mem_pairs hl
    exact List.mem_map.mpr ⟨(x, ns), this, rfl⟩

theorem adjU_nil_of_not_mem {g : List (V × List V)} {x : V}
    (h : x ∉ uVertices g) : adjU g x = [] := by
  by_contra hne
  exact h (key_mem_uVertices (adjU_ne_nil_key hne))

theorem adjW_nil_of_not_mem {g : List (V × List (V × Int))} {x : V}
    (h : x ∉ wVertices g) : adjW g x = [] := by
  by_contra hne
  exact h (key_mem_wVertices (adjW_ne_nil_key hne))

end Algorithms

namespace Algorithms

variable {V : Type} [DecidableEq V]

/-- Reference worklist DFS: visit the head of the worklist if fresh, pushing
its neighbors in front; skip it otherwise.  Returns the visit order and the
final visited list.  This is the common functional core of the recursive and
the iterative DFS. -/
def dfsSpec (g : List (V × List V)) (ws W : List V) : List V × List V :=
  match ws with
  | [] => ([], W)
  | x :: ws' =>
    if x ∈ W then dfsSpec g ws' W
    else
      let r := dfsSpec g (adjU g x ++ ws') (W ++ [x])
      (x :: r.1, r.2)
termination_by (countFresh (uVertices g) W, ws.length)
decreasing_by
  all_goals simp_wf
  · apply Prod.Lex.right
    exact Nat.lt_succ_self _
  · rename_i hxW
    by_cases hxU : current ∈ uVertices g
    · apply Prod.Lex.left
      refine countFresh_lt (x := current) ?_ hxU hxW
      intro y
      simp [or_comm]
    · have hadj : adjU g current = [] := adjU_nil_of_not_mem hxU
      have hcf : countFresh (uVertices g) (W ++ [current]) =
          countFresh (uVertices g) W := by
        refine countFresh_eq_of_not_mem (x := current) ?_ hxU
        intro y
        simp [or_comm]
      rw [hcf, hadj]
      simp only [List.length_nil, Nat.zero_add]
      apply Prod.Lex.right
      exact Nat.lt_succ_self _

end Algorithms

namespace Algorithms

variable {V : Type} [DecidableEq V]

theorem dfsSpec_nil (g : List (V × List V)) (W : List V) :
    dfsSpec g [] W = ([], W) := by
  rw [dfsSpec.eq_def]

theorem dfsSpec_cons_mem {g : List (V × List V)} {x : V} {W : List V}
    (h : x ∈ W) (ws : List V) : dfsSpec g (x :: ws) W = dfsSpec g ws W := by
  rw [dfsSpec.eq_def]
  simp only [if_pos h]

theorem dfsSpec_cons_fresh {g : List (V × List V)} {x : V} {W : List V}
    (h : x ∉ W) (ws : List V) :
    dfsSpec g (x :: ws) W =
      ((x :: (dfsSpec g (adjU g x ++ ws) (W ++ [x])).1),
        (dfsSpec g (adjU g x ++ ws) (W ++ [x])).2) := by
  rw [dfsSpec.eq_def]
  simp only [if_neg h]

theorem dfsSpec_visited_mono {g : List (V × List V)} :
    ∀ (ws W : List V) (y : V), y ∈ W → y ∈ (dfsSpec g ws W).2 := by
  intro ws W
  induction ws, W using dfsSpec.induct g with
  | case1 W => intro y hy; rw [dfsSpec_nil]; exact hy
  | case2 W x rest hx ih =>
    intro y hy
    rw [dfsSpec_cons_mem hx]
    exact ih y hy
  | case3 W x rest hx ih =>
    intro y hy
    rw [dfsSpec_cons_fresh hx]
    exact ih y (List.mem_append.mpr (Or.inl hy))

theorem dfsSpec_append {g : List (V × List V)} :
    ∀ (ws1 W : List V) (ws2 : List V),
    dfsSpec g (ws1 ++ ws2) W =
      ((dfsSpec g ws1 W).1 ++ (dfsSpec g ws2 (dfsSpec g ws1 W).2).1,
       (dfsSpec g ws2 (dfsSpec g ws1 W).2).2) := by
  intro ws1 W
  induction ws1, W using dfsSpec.induct g with
  | case1 W => intro ws2; rw [dfsSpec_nil]; simp
  | case2 W x rest hx ih =>
    intro ws2
    rw [List.cons_append, dfsSpec_cons_mem hx, dfsSpec_cons_mem hx, ih]
  | case3 W x rest hx ih =>
    intro ws2
    rw [List.cons_append, dfsSpec_cons_fresh hx, dfsSpec_cons_fresh hx]
    rw [← List.append_assoc, ih]
    simp

theorem dfsSpec_filter {g : List (V × List V)} {W : List V} :
    ∀ (xs : List V) (W' ws : List V), (∀ y ∈ W, y ∈ W') →
    dfsSpec g (xs.filter (fun n => n ∉ W) ++ ws) W' = dfsSpec g (xs ++ ws) W' := by
  intro xs
  induction xs with
  | nil => intro W' ws _; rfl
  | cons y rest ih =>
    intro W' ws hsub
    by_cases hyW : y ∈ W
    · rw [List.filter_cons_of_neg (by simpa)]
      rw [List.cons_append, dfsSpec_cons_mem (hsub y hyW)]
      exact ih W' ws hsub
    · rw [List.filter_cons_of_pos (by simpa)]
      by_cases hyW' : y ∈ W'
      · rw [List.cons_append, List.cons_append, dfsSpec_cons_mem hyW',
          dfsSpec_cons_mem hyW']
        exact ih W' ws hsub
      · rw [List.cons_append, List.cons_append, dfsSpec_cons_fresh hyW',
          dfsSpec_cons_fresh hyW']
        have split1 := dfsSpec_append (g := g) (adjU g y)
          (W' ++ [y]) (List.filter (fun n => n ∉ W) rest ++ ws)
        have split2 := dfsSpec_append (g := g) (adjU g y) (W' ++ [y]) (rest ++ ws)
        rw [split1, split2]
        have hsub2 : ∀ z ∈ W, z ∈ (dfsSpec g (adjU g y) (W' ++ [y])).2 := by
          intro z hz
          exact dfsSpec_visited_mono _ _ z
            (List.mem_append.mpr (Or.inl (hsub z hz)))
        rw [ih _ ws hsub2]

end Algorithms

namespace Algorithms

variable {V : Type} [DecidableEq V]

theorem potential_eq_of_not_mem {U W W' : List V} {x : V} (c : V → Nat)
    (hW' : ∀ y, y ∈ W' ↔ (y = x ∨ y ∈ W)) (hxU : x ∉ U) :
    potential U W' c = potential U W c := by
  unfold potential
  congr 2
  refine List.filter_congr ?_
  intro y hy
  have hyx : y ≠ x := fun h => hxU (h ▸ hy)
  simp [hW', hyx]

theorem dfsPush_eq {visited : List V} :
    ∀ (ns stack : List V),
    dfsPush ns visited stack = ns.filter (fun n => n ∉ visited) ++ stack := by
  intro ns
  induction ns with
  | nil => intro stack; rfl
  | cons y rest ih =>
    intro stack
    unfold dfsPush
    rw [List.reverse_cons, List.foldl_append]
    have hrest := ih stack
    unfold dfsPush at hrest
    rw [hrest]
    by_cases hy : y ∈ visited
    · simp only [List.foldl_cons, List.foldl_nil, if_pos hy]
      rw [List.filter_cons_of_neg (by simpa)]
    · simp only [List.foldl_cons, List.foldl_nil, if_neg hy]
      rw [List.filter_cons_of_pos (by simpa)]
      rfl

/-- Remaining-work potential of the iterative DFS. -/
def dfsPot (g : List (V × List V)) (W : List V) : Nat :=
  potential (uVertices g) W (fun v => 1 + (adjU g v).length)

/-- The iterative `dfs` loop computes the worklist DFS, given fuel covering
the remaining potential plus the stack size. -/
theorem dfsLoop_eq_spec {g : List (V × List V)} :
    ∀ (fuel : Nat) (stack W order : List V),
    dfsPot g W + stack.length ≤ fuel →
    dfsLoop g fuel stack W order = order ++ (dfsSpec g stack W).1 := by
  intro fuel
  induction fuel with
  | zero =>
    intro stack W order hf
    have : stack = [] := by
      cases stack with
      | nil => rfl
      | cons a s => simp at hf
    subst this
    rw [dfsSpec_nil]
    simp [dfsLoop]
  | succ fuel ih =>
    intro stack W order hf
    cases stack with
    | nil => rw [dfsSpec_nil]; simp [dfsLoop]
    | cons x rest =>
      show (if x ∈ W then dfsLoop g fuel rest W order
        else dfsLoop g fuel (dfsPush (adjU g x) (W ++ [x]) rest) (W ++ [x])
          (order ++ [x])) = order ++ (dfsSpec g (x :: rest) W).1
      by_cases hx : x ∈ W
      · rw [if_pos hx, dfsSpec_cons_mem hx]
        refine ih rest W order ?_
        simp only [List.length_cons] at hf
        omega
      · rw [if_neg hx, dfsSpec_cons_fresh hx]
        have hmemW' : ∀ y : V, y ∈ W ++ [x] ↔ (y = x ∨ y ∈ W) := by
          intro y; simp [or_comm]
        have hstack' := @dfsPush_eq _ _ (W ++ [x]) (adjU g x) rest
        have hlen : (dfsPush (adjU g x) (W ++ [x]) rest).length ≤
            (adjU g x).length + rest.length := by
          rw [hstack']
          rw [List.length_append]
          have := List.length_filter_le (fun n => n ∉ (W ++ [x])) (adjU g x)
          omega
        have hfuel' : dfsPot g (W ++ [x]) +
            (dfsPush (adjU g x) (W ++ [x]) rest).length ≤ fuel := by
          by_cases hxU : x ∈ uVertices g
          · have hdrop := potential_drop (U := uVertices g)
              (fun v => 1 + (adjU g v).length) (uVertices_nodup g) hmemW' hxU hx
            have hdrop' : potential (uVertices g) (W ++ [x])
                  (fun v => 1 + (adjU g v).length) + (1 + (adjU g x).length) =
                potential (uVertices g) W (fun v => 1 + (adjU g v).length) := by
              simpa using hdrop
            unfold dfsPot at hf ⊢
            simp only [List.length_cons] at hf
            omega
          · have heq := potential_eq_of_not_mem (U := uVertices g)
              (fun v => 1 + (adjU g v).length) hmemW' hxU
            have hadj : adjU g x = [] := adjU_nil_of_not_mem hxU
            unfold dfsPot at hf ⊢
            rw [heq, hadj]
            have hpush : dfsPush ([] : List V) (W ++ [x]) rest = rest := rfl
            rw [hpush]
            simp only [List.length_cons] at hf
            omega
        rw [ih _ _ _ hfuel']
        rw [hstack']
        rw [dfsSpec_filter (W := W ++ [x]) (adjU g x) (W ++ [x]) rest
          (fun y hy => hy)]
        simp

/-- `dfs_recursive`'s worker computes the worklist DFS on the singleton
worklist, given fuel exceeding the number of unvisited vertices. -/
theorem dfsRec_eq_spec {g : List (V × List V)} :
    ∀ (fuel : Nat) (v : V) (W order : List V), v ∉ W →
    countFresh (uVertices g) W < fuel →
    dfsRec g fuel v W order =
      ((dfsSpec g [v] W).2, order ++ (dfsSpec g [v] W).1) := by
  intro fuel
  induction fuel with
  | zero => intro v W order _ hf; omega
  | succ fuel ih =>
    intro v W order hv hf
    show (adjU g v).foldl
        (fun st n => if n ∈ st.1 then st else dfsRec g fuel n st.1 st.2)
        (W ++ [v], order ++ [v]) = _
    have hmemW' : ∀ y : V, y ∈ W ++ [v] ↔ (y = v ∨ y ∈ W) := by
      intro y; simp [or_comm]
    have hfresh' : countFresh (uVertices g) (W ++ [v]) ≤
        countFresh (uVertices g) W :=
      countFresh_mono (fun y hy => List.mem_append.mpr (Or.inl hy))
    -- the inner fold over any neighbor list equals the worklist DFS run
    have inner : ∀ (ns : List V) (W1 O1 : List V),
        (∀ y ∈ W ++ [v], y ∈ W1) →
        countFresh (uVertices g) W1 < fuel + 1 →
        (countFresh (uVertices g) W1 < fuel ∨ ns = []) →
        ns.foldl (fun st n => if n ∈ st.1 then st else dfsRec g fuel n st.1 st.2)
          (W1, O1) = ((dfsSpec g ns W1).2, O1 ++ (dfsSpec g ns W1).1) := by
      intro ns
      induction ns with
      | nil => intro W1 O1 _ _ _; rw [dfsSpec_nil]; simp
      | cons n rest ihn =>
        intro W1 O1 hsub hlt hcase
        have hfuelok : countFresh (uVertices g) W1 < fuel := by
          rcases hcase with h | h
          · exact h
          · cases h
        rw [List.foldl_cons]
        by_cases hn : n ∈ W1
        · rw [if_pos hn, dfsSpec_cons_mem hn]
          exact ihn W1 O1 hsub hlt (Or.inl hfuelok)
        · rw [if_neg hn]
          have hone := ih n W1 O1 hn hfuelok
          rw [hone]
          have hsub2 : ∀ y ∈ W ++ [v], y ∈ (dfsSpec g [n] W1).2 :=
            fun y hy => dfsSpec_visited_mono _ _ y (hsub y hy)
          have hsubW1 : ∀ y ∈ W1, y ∈ (dfsSpec g [n] W1).2 :=
            fun y hy => dfsSpec_visited_mono _ _ y hy
          have hmono2 : countFresh (uVertices g) (dfsSpec g [n] W1).2 ≤
              countFresh (uVertices g) W1 := countFresh_mono hsubW1
          have hrec := ihn (dfsSpec g [n] W1).2 (O1 ++ (dfsSpec g [n] W1).1)
            hsub2 (by omega) (Or.inl (by omega))
          rw [hrec]
          have hsplit := dfsSpec_append (g := g) [n] W1 rest
          have : ([n] ++ rest) = n :: rest := rfl
          rw [this] at hsplit
          rw [hsplit]
          simp
    by_cases hvU : v ∈ uVertices g
    · have hlt' : countFresh (uVertices g) (W ++ [v]) <
          countFresh (uVertices g) W := countFresh_lt hmemW' hvU hv
      have hres := inner (adjU g v) (W ++ [v]) (order ++ [v])
        (fun y hy => hy) (by omega) (Or.inl (by omega))
      rw [hres]
      rw [dfsSpec_cons_fresh hv]
      simp
    · have hadj : adjU g v = [] := adjU_nil_of_not_mem hvU
      rw [hadj]
      simp only [List.foldl_nil]
      rw [dfsSpec_cons_fresh hv, hadj]
      simp [dfsSpec_nil]

theorem map_sum_one_add (f : V → Nat) :
    ∀ U : List V, (U.map (fun v => 1 + f v)).sum = U.length + (U.map f).sum := by
  intro U
  induction U with
  | nil => rfl
  | cons x xs ih =>
    simp only [List.map_cons, List.sum_cons, List.length_cons, ih]
    omega

theorem sum_adjU_le (g : List (V × List V)) :
    ∀ U : List V, U.Nodup → (U.map (fun v => (adjU g v).length)).sum ≤ totalAdjU g := by
  induction g with
  | nil =>
    intro U _
    have : ∀ v, adjU ([] : List (V × List V)) v = [] := fun v => rfl
    simp [this, totalAdjU]
  | cons p g' ih =>
    intro U hnd
    have hsplit : ∀ v : V, adjU (p :: g') v = if v = p.1 then p.2 else adjU g' v := by
      intro v
      unfold adjU
      rw [List.lookup]
      by_cases hv : v = p.1
      · rw [if_pos hv, beq_iff_eq.mpr hv]
        rfl
      · rw [if_neg hv]
        have : (v == p.1) = false := beq_eq_false_iff_ne.mpr hv
        rw [this]
    have htot : totalAdjU (p :: g') = p.2.length + totalAdjU g' := by
      unfold totalAdjU
      simp
    rw [htot]
    by_cases hmem : p.1 ∈ U
    · -- split the sum at the unique occurrence of p.1
      obtain ⟨l1, l2, rfl⟩ := List.append_of_mem hmem
      have hnodup := hnd
      rw [List.nodup_append] at hnodup
      have hp1l1 : p.1 ∉ l1 := fun h => (hnodup.2.2 h) (List.mem_cons_self _ _)
      have hp1l2 : p.1 ∉ l2 := by
        have := hnodup.2.1
        rw [List.nodup_cons] at this
        exact this.1
      have hval : ∀ v ∈ l1 ++ l2, adjU (p :: g') v = adjU g' v := by
        intro v hv
        rw [hsplit v, if_neg ?_]
        intro h
        subst h
        rcases List.mem_append.mp hv with h | h
        · exact hp1l1 h
        · exact hp1l2 h
      have hnd' : (l1 ++ l2).Nodup := by
        rw [List.nodup_append]
        refine ⟨hnodup.1, ?_, ?_⟩
        · have := hnodup.2.1
          rw [List.nodup_cons] at this
          exact this.2
        · intro a ha hb
          exact hnodup.2.2 ha (List.mem_cons_of_mem _ hb)
      have hsum : ((l1 ++ p.1 :: l2).map (fun v => (adjU (p :: g') v).length)).sum
          = p.2.length + ((l1 ++ l2).map (fun v => (adjU g' v).length)).sum := by
        simp only [List.map_append, List.map_cons, List.sum_append, List.sum_cons]
        rw [hsplit p.1, if_pos rfl]
        have h1 : (l1.map (fun v => (adjU (p :: g') v).length)) =
            (l1.map (fun v => (adjU g' v).length)) := by
          refine List.map_congr_left ?_
          intro v hv
          rw [hval v (List.mem_append.mpr (Or.inl hv))]
        have h2 : (l2.map (fun v => (adjU (p :: g') v).length)) =
            (l2.map (fun v => (adjU g' v).length)) := by
          refine List.map_congr_left ?_
          intro v hv
          rw [hval v (List.mem_append.mpr (Or.inr hv))]
        rw [h1, h2]
        omega
      rw [hsum]
      have := ih (l1 ++ l2) hnd'
      omega
    · have hval : ∀ v ∈ U, adjU (p :: g') v = adjU g' v := by
        intro v hv
        rw [hsplit v, if_neg ?_]
        intro h
        rw [h] at hv
        exact hmem hv
      have : (U.map (fun v => (adjU (p :: g') v).length)) =
          (U.map (fun v => (adjU g' v).length)) := by
        refine List.map_congr_left ?_
        intro v hv
        rw [hval v hv]
      rw [this]
      have := ih U hnd
      omega

end Algorithms

namespace Algorithms

variable {V : Type} [DecidableEq V]

theorem filter_nil_visited (U : List V) :
    U.filter (fun y => y ∉ ([] : List V)) = U := by
  induction U with
  | nil => rfl
  | cons x xs ih =>
    rw [List.filter_cons_of_pos (by simp)]
    rw [ih]

theorem dfsPot_nil_le (g : List (V × List V)) :
    dfsPot g [] ≤ (uVertices g).length + totalAdjU g := by
  unfold dfsPot potential
  rw [filter_nil_visited]
  rw [map_sum_one_add]
  have := sum_adjU_le g (uVertices g) (uVertices_nodup g)
  omega

theorem countFresh_nil (U : List V) : countFresh U [] = U.length := by
  unfold countFresh
  rw [filter_nil_visited]

/-- C8: for every graph and every start vertex, the iterative `dfs` and
`dfs_recursive` return exactly the same traversal order (ties broken by the
order the graph lists neighbors). -/
theorem C8_theorem {V : Type} [DecidableEq V] (g : List (V × List V)) (start : V) :
    dfs g start = dfs_recursive g start := by
  have hiter : dfs g start = [] ++ (dfsSpec g [start] []).1 := by
    refine dfsLoop_eq_spec (uFuel g) [start] [] [] ?_
    have h1 := dfsPot_nil_le g
    unfold uFuel
    simp only [List.length_cons, List.length_nil]
    omega
  have hrec : dfs_recursive g start = [] ++ (dfsSpec g [start] []).1 := by
    unfold dfs_recursive
    rw [dfsRec_eq_spec (uFuel g) start [] [] (by simp) ?_]
    · rw [countFresh_nil]
      unfold uFuel
      omega
  rw [hiter, hrec]

end Algorithms

namespace Algorithms

variable {V : Type} [DecidableEq V]

/-! ## Specification-side notions for topological sort -/

/-- The edge relation of an unweighted graph. -/
def uEdge (g : List (V × List V)) (u v : V) : Prop := v ∈ adjU g u

/-- The graph has a directed cycle: some vertex reaches itself in one or
more steps. -/
def HasCycleU (g : List (V × List V)) : Prop :=
  ∃ v, Relation.TransGen (uEdge g) v v

/-- Invariant of the topological-sort state: the visited set is exactly the
union of the recursion stack and the finished list, the finished list is
duplicate-free, and no vertex is both on the stack and finished. -/
def TopoInv (st : TopoState V) : Prop :=
  (∀ y, y ∈ st.visited ↔ (y ∈ st.stack ∨ y ∈ st.result)) ∧
  st.result.Nodup ∧ (∀ y ∈ st.stack, y ∉ st.result)

/-- Every finished vertex's out-neighbors are finished strictly before it. -/
def GoodRes (g : List (V × List V)) (res : List V) : Prop :=
  ∀ l1 u l2, res = l1 ++ u :: l2 → ∀ w, uEdge g u w → w ∈ l1

theorem goodRes_append {g : List (V × List V)} {res : List V} {v : V}
    (h : GoodRes g res) (hv : ∀ w, uEdge g v w → w ∈ res) :
    GoodRes g (res ++ [v]) := by
  intro l1 u l2 hsplit w hw
  rcases List.eq_nil_or_concat l2 with rfl | ⟨l2', x, rfl⟩
  · have hsplit' : res ++ [v] = l1 ++ [u] := by simpa using hsplit
    obtain ⟨h1, h2⟩ := List.append_inj' hsplit' rfl
    have hvu : v = u := by simpa using h2
    subst h1
    rw [← hvu] at hw
    exact hv w hw
  · have hsplit' : res ++ [v] = (l1 ++ u :: l2') ++ [x] := by simp [hsplit]
    obtain ⟨h1, h2⟩ := List.append_inj' hsplit' rfl
    exact h l1 u l2' h1 w hw

theorem goodRes_extend_mem {g : List (V × List V)} {res t : List V} {u : V}
    (h : GoodRes g (res ++ t)) (hu : u ∈ res) :
    ∀ w, uEdge g u w → w ∈ res ++ t := by
  intro w hw
  obtain ⟨l1, l2, hsplit⟩ := List.append_of_mem hu
  have : res ++ t = l1 ++ u :: (l2 ++ t) := by
    rw [hsplit]
    simp
  have hw1 : w ∈ l1 := h l1 u (l2 ++ t) this w hw
  rw [hsplit]
  exact List.mem_append.mpr (Or.inl (List.mem_append.mpr (Or.inl hw1)))

end Algorithms

namespace Algorithms

variable {V : Type} [DecidableEq V]

end Algorithms

namespace Algorithms

variable {V : Type} [DecidableEq V]

theorem topoStep_none (f : V → TopoState V → Option (TopoState V)) :
    ∀ ns : List V, ns.foldl (topoStep f) none = none := by
  intro ns
  induction ns with
  | nil => rfl
  | cons n rest ih => rw [List.foldl_cons]; exact ih

/-- Soundness of `dfs_helper`: a successful run restores the recursion
stack, only appends newly finished vertices to the finished list (the
visited vertex among them), preserves the state invariant and preserves the
ordering invariant of the finished list. -/
theorem topoVisit_sound {g : List (V × List V)} :
    ∀ (fuel : Nat) (v : V) (st st' : TopoState V),
    TopoInv st → v ∉ st.visited →
    topoVisit g fuel v st = some st' →
    TopoInv st' ∧ st'.stack = st.stack ∧
    (∃ t, st'.result = st.result ++ t) ∧
    (∀ y ∈ st.visited, y ∈ st'.visited) ∧
    (GoodRes g st.result → GoodRes g st'.result) ∧
    v ∈ st'.result ∧ v ∈ st'.visited := by
  intro fuel
  induction fuel with
  | zero => intro v st st' _ _ h; cases h
  | succ fuel ih =>
    intro v st st' hinv hv hcall
    obtain ⟨hiff, hnd, hdisj⟩ := hinv
    have hvstack : v ∉ st.stack := fun h => hv (hiff v |>.mpr (Or.inl h))
    have hvres : v ∉ st.result := fun h => hv (hiff v |>.mpr (Or.inr h))
    set st1 : TopoState V := ⟨st.visited ++ [v], st.stack ++ [v], st.result⟩
      with hst1
    have hinv1 : TopoInv st1 := by
      refine ⟨?_, hnd, ?_⟩
      · intro y
        simp only [hst1, List.mem_append, List.mem_singleton]
        constructor
        · rintro (h | h)
          · rcases (hiff y).mp h with h1 | h1
            · exact Or.inl (Or.inl h1)
            · exact Or.inr h1
          · exact Or.inl (Or.inr h)
        · rintro ((h | h) | h)
          · exact Or.inl ((hiff y).mpr (Or.inl h))
          · exact Or.inr h
          · exact Or.inl ((hiff y).mpr (Or.inr h))
      · intro y hy
        simp only [hst1, List.mem_append, List.mem_singleton] at hy
        rcases hy with h | h
        · exact hdisj y h
        · subst h; exact hvres
    have F : ∀ (ns : List V) (sa sb : TopoState V), TopoInv sa →
        ns.foldl (topoStep (topoVisit g fuel)) (some sa) = some sb →
        TopoInv sb ∧ sb.stack = sa.stack ∧
        (∃ t, sb.result = sa.result ++ t) ∧
        (∀ y ∈ sa.visited, y ∈ sb.visited) ∧
        (∀ n ∈ ns, n ∈ sb.result) ∧
        (GoodRes g sa.result → GoodRes g sb.result) := by
      intro ns
      induction ns with
      | nil =>
        intro sa sb hinva hfold
        simp only [List.foldl_nil, Option.some.injEq] at hfold
        subst hfold
        exact ⟨hinva, rfl, ⟨[], by simp⟩, fun y hy => hy,
          fun n hn => absurd hn (List.not_mem_nil n), fun hgr => hgr⟩
      | cons n rest ihf =>
        intro sa sb hinva hfold
        rw [List.foldl_cons] at hfold
        by_cases hnv : n ∉ sa.visited
        · have hstep : topoStep (topoVisit g fuel) (some sa) n =
              topoVisit g fuel n sa := by
            show (if n ∉ sa.visited then topoVisit g fuel n sa
                  else if n ∈ sa.stack then none else some sa) =
              topoVisit g fuel n sa
            rw [if_pos hnv]
          rw [hstep] at hfold
          cases hrec : topoVisit g fuel n sa with
          | none =>
            rw [hrec, topoStep_none] at hfold
            cases hfold
          | some sc =>
            rw [hrec] at hfold
            obtain ⟨hpost_inv, hpost_stk, hpost_res, hpost_vis, hpost_gr,
              hpost_mem, _⟩ := ih n sa sc hinva hnv hrec
            obtain ⟨hinv2, hstk2, hres2, hvis2, hmem2, hgr2⟩ :=
              ihf sc sb hpost_inv hfold
            refine ⟨hinv2, hstk2.trans hpost_stk, ?_, ?_, ?_, ?_⟩
            · obtain ⟨t1, ht1⟩ := hpost_res
              obtain ⟨t2, ht2⟩ := hres2
              exact ⟨t1 ++ t2, by rw [ht2, ht1, List.append_assoc]⟩
            · intro y hy
              exact hvis2 y (hpost_vis y hy)
            · intro m hm
              rcases List.mem_cons.mp hm with rfl | hm
              · obtain ⟨t2, ht2⟩ := hres2
                rw [ht2]
                exact List.mem_append.mpr (Or.inl hpost_mem)
              · exact hmem2 m hm
            · intro hgr
              exact hgr2 (hpost_gr hgr)
        · push_neg at hnv
          by_cases hns : n ∈ sa.stack
          · have hstep : topoStep (topoVisit g fuel) (some sa) n = none := by
              show (if n ∉ sa.visited then topoVisit g fuel n sa
                    else if n ∈ sa.stack then none else some sa) = none
              rw [if_neg (not_not_intro hnv), if_pos hns]
            rw [hstep, topoStep_none] at hfold
            cases hfold
          · have hstep : topoStep (topoVisit g fuel) (some sa) n = some sa := by
              show (if n ∉ sa.visited then topoVisit g fuel n sa
                    else if n ∈ sa.stack then none else some sa) = some sa
              rw [if_neg (not_not_intro hnv), if_neg hns]
            rw [hstep] at hfold
            have hnres : n ∈ sa.result := by
              rcases (hinva.1 n).mp hnv with h | h
              · exact absurd h hns
              · exact h
            obtain ⟨hinv2, hstk2, hres2, hvis2, hmem2, hgr2⟩ :=
              ihf sa sb hinva hfold
            refine ⟨hinv2, hstk2, hres2, hvis2, ?_, hgr2⟩
            intro m hm
            rcases List.mem_cons.mp hm with rfl | hm
            · obtain ⟨t2, ht2⟩ := hres2
              rw [ht2]
              exact List.mem_append.mpr (Or.inl hnres)
            · exact hmem2 m hm
    rw [show topoVisit g (fuel + 1) v st =
        (match (adjU g v).foldl (topoStep (topoVisit g fuel)) (some st1) with
         | none => none
         | some st2 => some ⟨st2.visited, st2.stack.erase v, st2.result ++ [v]⟩)
      from rfl] at hcall
    cases hfold : (adjU g v).foldl (topoStep (topoVisit g fuel)) (some st1) with
    | none =>
      rw [hfold] at hcall
      cases hcall
    | some st2 =>
      rw [hfold] at hcall
      simp only [Option.some.injEq] at hcall
      obtain ⟨hinv2, hstk2, hres2, hvis2, hmem2, hgr2⟩ :=
        F (adjU g v) st1 st2 hinv1 hfold
      have hstack2 : st2.stack = st.stack ++ [v] := hstk2
      have herase : (st.stack ++ [v]).erase v = st.stack := by
        rw [List.erase_append_right _ hvstack]
        simp
      obtain ⟨hiff2, hnd2, hdisj2⟩ := hinv2
      have hvres2 : v ∉ st2.result := by
        intro h
        exact (hdisj2 v (by rw [hstack2]; exact List.mem_append.mpr (Or.inr (by simp)))) h
      obtain ⟨t2, ht2⟩ := hres2
      subst hcall
      refine ⟨⟨?_, ?_, ?_⟩, ?_, ?_, ?_, ?_, ?_, ?_⟩
      · -- visited iff stack/result for the final state
        intro y
        show y ∈ st2.visited ↔ y ∈ st2.stack.erase v ∨ y ∈ st2.result ++ [v]
        rw [hstack2, herase]
        constructor
        · intro hy
          rcases (hiff2 y).mp hy with h | h
          · rw [hstack2] at h
            rcases List.mem_append.mp h with h1 | h1
            · exact Or.inl h1
            · simp only [List.mem_singleton] at h1
              subst h1
              exact Or.inr (List.mem_append.mpr (Or.inr (by simp)))
          · exact Or.inr (List.mem_append.mpr (Or.inl h))
        · intro hy
          rcases hy with h | h
          · exact (hiff2 y).mpr (Or.inl (by rw [hstack2]; exact List.mem_append.mpr (Or.inl h)))
          · rcases List.mem_append.mp h with h1 | h1
            · exact (hiff2 y).mpr (Or.inr h1)
            · simp only [List.mem_singleton] at h1
              subst h1
              exact (hiff2 y).mpr (Or.inl (by rw [hstack2]; simp))
      · -- result nodup
        show (st2.result ++ [v]).Nodup
        simp only [List.nodup_append, List.nodup_cons]
        refine ⟨hnd2, by simp, ?_⟩
        intro a ha hav
        simp only [List.mem_singleton] at hav
        subst hav
        exact hvres2 ha
      · -- disjointness
        intro y hy
        show y ∉ st2.result ++ [v]
        have hy' : y ∈ st2.stack.erase v := hy
        rw [hstack2, herase] at hy'
        intro hcontra
        rcases List.mem_append.mp hcontra with h | h
        · exact hdisj2 y (by rw [hstack2]; exact List.mem_append.mpr (Or.inl hy')) h
        · simp only [List.mem_singleton] at h
          subst h
          exact hvstack hy'
      · show st2.stack.erase v = st.stack
        rw [hstack2, herase]
      · refine ⟨t2 ++ [v], ?_⟩
        show st2.result ++ [v] = st.result ++ (t2 ++ [v])
        rw [ht2]
        simp
      · intro y hy
        show y ∈ st2.visited
        exact hvis2 y (by simp [hst1, hy])
      · intro hgr
        show GoodRes g (st2.result ++ [v])
        have hgr2' := hgr2 (by simpa [hst1] using hgr)
        refine goodRes_append hgr2' ?_
        intro w hw
        exact hmem2 w hw
      · show v ∈ st2.result ++ [v]
        simp
      · show v ∈ st2.visited
        exact hvis2 v (by simp [hst1])

end Algorithms

namespace Algorithms

variable {V : Type} [DecidableEq V]

theorem countFresh_le (U W : List V) : countFresh U W ≤ U.length :=
  List.length_filter_le _ _

/-- Totality of `dfs_helper` on acyclic graphs: with enough fuel and a
recursion stack all of whose members reach `v`, the helper cannot report a
cycle. -/
theorem topoVisit_total {g : List (V × List V)} (hnc : ¬ HasCycleU g) :
    ∀ (fuel : Nat) (v : V) (st : TopoState V), TopoInv st →
    (∀ y ∈ st.stack, Relation.ReflTransGen (uEdge g) y v) →
    v ∉ st.visited →
    countFresh (uVertices g) st.visited < fuel →
    (topoVisit g fuel v st).isSome := by
  intro fuel
  induction fuel with
  | zero => intro v st _ _ _ hf; omega
  | succ fuel ih =>
    intro v st hinv hstk hv hf
    obtain ⟨hiff, hnd, hdisj⟩ := hinv
    have hvstack : v ∉ st.stack := fun h => hv (hiff v |>.mpr (Or.inl h))
    have hvres : v ∉ st.result := fun h => hv (hiff v |>.mpr (Or.inr h))
    set st1 : TopoState V := ⟨st.visited ++ [v], st.stack ++ [v], st.result⟩
      with hst1
    have hinv1 : TopoInv st1 := by
      refine ⟨?_, hnd, ?_⟩
      · intro y
        simp only [hst1, List.mem_append, List.mem_singleton]
        constructor
        · rintro (h | h)
          · rcases (hiff y).mp h with h1 | h1
            · exact Or.inl (Or.inl h1)
            · exact Or.inr h1
          · exact Or.inl (Or.inr h)
        · rintro ((h | h) | h)
          · exact Or.inl ((hiff y).mpr (Or.inl h))
          · exact Or.inr h
          · exact Or.inl ((hiff y).mpr (Or.inr h))
      · intro y hy
        simp only [hst1, List.mem_append, List.mem_singleton] at hy
        rcases hy with h | h
        · exact hdisj y h
        · subst h; exact hvres
    have hcfv : ∀ sa : TopoState V, (∀ y ∈ st1.visited, y ∈ sa.visited) →
        countFresh (uVertices g) sa.visited < fuel ∨ adjU g v = [] := by
      intro sa hsub
      by_cases hvU : v ∈ uVertices g
      · left
        have h1 : countFresh (uVertices g) st1.visited <
            countFresh (uVertices g) st.visited := by
          refine countFresh_lt (x := v) ?_ hvU hv
          intro y
          simp [hst1, or_comm]
        have h2 : countFresh (uVertices g) sa.visited ≤
            countFresh (uVertices g) st1.visited := countFresh_mono hsub
        omega
      · right
        exact adjU_nil_of_not_mem hvU
    have F : ∀ (ns : List V) (sa : TopoState V), TopoInv sa →
        sa.stack = st.stack ++ [v] →
        (∀ y ∈ st1.visited, y ∈ sa.visited) →
        (∀ n ∈ ns, uEdge g v n) →
        (ns.foldl (topoStep (topoVisit g fuel)) (some sa)).isSome := by
      intro ns
      induction ns with
      | nil => intro sa _ _ _ _; simp
      | cons n rest ihf =>
        intro sa hinva hstka hsuba hedge
        rw [List.foldl_cons]
        by_cases hnv : n ∉ sa.visited
        · have hstep : topoStep (topoVisit g fuel) (some sa) n =
              topoVisit g fuel n sa := by
            show (if n ∉ sa.visited then topoVisit g fuel n sa
                  else if n ∈ sa.stack then none else some sa) =
              topoVisit g fuel n sa
            rw [if_pos hnv]
          rw [hstep]
          have hstkn : ∀ y ∈ sa.stack, Relation.ReflTransGen (uEdge g) y n := by
            intro y hy
            rw [hstka] at hy
            rcases List.mem_append.mp hy with h | h
            · exact (hstk y h).tail (hedge n (List.mem_cons_self _ _))
            · simp only [List.mem_singleton] at h
              subst h
              exact Relation.ReflTransGen.single (hedge n (List.mem_cons_self _ _))
          have hfn : countFresh (uVertices g) sa.visited < fuel := by
            rcases hcfv sa hsuba with h | h
            · exact h
            · exact absurd (hedge n (List.mem_cons_self _ _)) (by simp [uEdge, h])
          have hsome := ih n sa hinva hstkn hnv hfn
          cases hrec : topoVisit g fuel n sa with
          | none => rw [hrec] at hsome; cases hsome
          | some sc =>
            obtain ⟨hpost_inv, hpost_stk, _, hpost_vis, _, _, _⟩ :=
              topoVisit_sound fuel n sa sc hinva hnv hrec
            exact ihf sc hpost_inv (hpost_stk.trans hstka)
              (fun y hy => hpost_vis y (hsuba y hy))
              (fun m hm => hedge m (List.mem_cons_of_mem _ hm))
        · push_neg at hnv
          by_cases hns : n ∈ sa.stack
          · -- a back edge closes a cycle: contradiction with acyclicity
            exfalso
            have hreach : Relation.ReflTransGen (uEdge g) n v := by
              rw [hstka] at hns
              rcases List.mem_append.mp hns with h | h
              · exact hstk n h
              · simp only [List.mem_singleton] at h
                subst h
                exact Relation.ReflTransGen.refl
            exact hnc ⟨n, Relation.TransGen.tail' hreach
              (hedge n (List.mem_cons_self _ _))⟩
          · have hstep : topoStep (topoVisit g fuel) (some sa) n = some sa := by
              show (if n ∉ sa.visited then topoVisit g fuel n sa
                    else if n ∈ sa.stack then none else some sa) = some sa
              rw [if_neg (not_not_intro hnv), if_neg hns]
            rw [hstep]
            exact ihf sa hinva hstka hsuba
              (fun m hm => hedge m (List.mem_cons_of_mem _ hm))
    have hfold := F (adjU g v) st1 hinv1 rfl (fun y hy => hy) (fun n hn => hn)
    show (match (adjU g v).foldl (topoStep (topoVisit g fuel)) (some st1) with
      | none => none
      | some st2 =>
        some (⟨st2.visited, st2.stack.erase v, st2.result ++ [v]⟩ : TopoState V)).isSome
    cases hres : (adjU g v).foldl (topoStep (topoVisit g fuel)) (some st1) with
    | none => rw [hres] at hfold; cases hfold
    | some st2 => rfl

end Algorithms

namespace Algorithms

variable {V : Type} [DecidableEq V]

theorem topoDriver_sound {g : List (V × List V)} :
    ∀ (ks : List V) (st st' : TopoState V),
    topoDriver g ks st = some st' → TopoInv st → st.stack = [] →
    TopoInv st' ∧ st'.stack = [] ∧
    (∃ t, st'.result = st.result ++ t) ∧
    (∀ y ∈ st.visited, y ∈ st'.visited) ∧
    (GoodRes g st.result → GoodRes g st'.result) ∧
    (∀ k ∈ ks, k ∈ st'.visited) := by
  intro ks
  induction ks with
  | nil =>
    intro st st' hrun hinv hstk
    simp only [topoDriver, Option.some.injEq] at hrun
    subst hrun
    exact ⟨hinv, hstk, ⟨[], by simp⟩, fun y hy => hy, fun h => h,
      fun k hk => absurd hk (List.not_mem_nil k)⟩
  | cons k ks ih =>
    intro st st' hrun hinv hstk
    rw [topoDriver] at hrun
    by_cases hk : k ∉ st.visited
    · rw [if_pos hk] at hrun
      cases hvis : topoVisit g (uFuel g) k st with
      | none => rw [hvis] at hrun; cases hrun
      | some st2 =>
        rw [hvis] at hrun
        obtain ⟨hinv2, hstk2, hres2, hvis2, hgr2, hkres, hkvis⟩ :=
          topoVisit_sound (uFuel g) k st st2 hinv hk hvis
        obtain ⟨hinv3, hstk3, hres3, hvis3, hgr3, hks3⟩ :=
          ih st2 st' hrun hinv2 (hstk2.trans hstk)
        refine ⟨hinv3, hstk3, ?_, ?_, ?_, ?_⟩
        · obtain ⟨t1, ht1⟩ := hres2
          obtain ⟨t2, ht2⟩ := hres3
          exact ⟨t1 ++ t2, by rw [ht2, ht1, List.append_assoc]⟩
        · intro y hy
          exact hvis3 y (hvis2 y hy)
        · intro hgr
          exact hgr3 (hgr2 hgr)
        · intro m hm
          rcases List.mem_cons.mp hm with rfl | hm
          · exact hvis3 m hkvis
          · exact hks3 m hm
    · rw [if_neg hk] at hrun
      push_neg at hk
      obtain ⟨hinv3, hstk3, hres3, hvis3, hgr3, hks3⟩ :=
        ih st st' hrun hinv hstk
      refine ⟨hinv3, hstk3, hres3, hvis3, hgr3, ?_⟩
      intro m hm
      rcases List.mem_cons.mp hm with rfl | hm
      · exact hvis3 m hk
      · exact hks3 m hm

theorem topoDriver_total {g : List (V × List V)} (hnc : ¬ HasCycleU g) :
    ∀ (ks : List V) (st : TopoState V), TopoInv st → st.stack = [] →
    (topoDriver g ks st).isSome := by
  intro ks
  induction ks with
  | nil => intro st _ _; simp [topoDriver]
  | cons k ks ih =>
    intro st hinv hstk
    rw [topoDriver]
    by_cases hk : k ∉ st.visited
    · rw [if_pos hk]
      have hsome := topoVisit_total hnc (uFuel g) k st hinv
        (by rw [hstk]; intro y hy; cases hy) hk ?_
      · cases hvis : topoVisit g (uFuel g) k st with
        | none => rw [hvis] at hsome; cases hsome
        | some st2 =>
          obtain ⟨hinv2, hstk2, _, _, _, _, _⟩ :=
            topoVisit_sound (uFuel g) k st st2 hinv hk hvis
          exact ih st2 hinv2 (hstk2.trans hstk)
      · have h1 := countFresh_le (uVertices g) st.visited
        unfold uFuel
        omega
    · rw [if_neg hk]
      exact ih st hinv hstk

theorem mem_foldl_insertNew_iff {l : List V} :
    ∀ {acc : List V} {y : V}, y ∈ l.foldl insertNew acc ↔ (y ∈ acc ∨ y ∈ l) := by
  induction l with
  | nil => intro acc y; simp
  | cons x xs ih =>
    intro acc y
    rw [List.foldl_cons, ih, mem_insertNew]
    constructor
    · rintro ((h | h) | h)
      · exact Or.inl h
      · exact Or.inr (h ▸ List.mem_cons_self _ _)
      · exact Or.inr (List.mem_cons_of_mem _ h)
    · rintro (h | h)
      · exact Or.inl (Or.inl h)
      · rcases List.mem_cons.mp h with rfl | h
        · exact Or.inl (Or.inr rfl)
        · exact Or.inr h

theorem mem_uVertices_cases {g : List (V × List V)} {x : V}
    (h : x ∈ uVertices g) : x ∈ g.map Prod.fst ∨ ∃ p ∈ g, x ∈ p.2 := by
  rw [uVertices_eq_flat] at h
  rcases mem_foldl_insertNew_iff.mp h with h | h
  · cases h
  · rcases List.mem_append.mp h with h | h
    · exact Or.inl h
    · obtain ⟨p, hp, hx⟩ := List.mem_flatMap.mp h
      exact Or.inr ⟨p, hp, hx⟩

theorem lookup_of_keys_nodup {β : Type} {g : List (V × β)}
    (hnd : (g.map Prod.fst).Nodup) {p : V × β} (hp : p ∈ g) :
    g.lookup p.1 = some p.2 := by
  induction g with
  | nil => cases hp
  | cons q g' ih =>
    rcases List.mem_cons.mp hp with rfl | hp'
    · rw [List.lookup]
      rw [beq_iff_eq.mpr rfl]
    · rw [List.lookup]
      have hne : p.1 ≠ q.1 := by
        intro h
        have : q.1 ∈ g'.map Prod.fst := List.mem_map.mpr ⟨p, hp', h⟩
        rw [List.map_cons, List.nodup_cons] at hnd
        exact hnd.1 this
      have hb : (p.1 == q.1) = false := beq_eq_false_iff_ne.mpr hne
      rw [hb]
      rw [List.map_cons, List.nodup_cons] at hnd
      exact ih hnd.2 hp'

theorem idx_split {l l1 l2 : List V} {u : V} (hnd : l.Nodup)
    (h : l = l1 ++ u :: l2) : l.indexOf u = l1.length := by
  subst h
  induction l1 with
  | nil => exact List.indexOf_cons_self _ _
  | cons a t ih =>
    rw [List.cons_append, List.nodup_cons] at hnd
    have hau : a ≠ u := by
      intro h
      exact hnd.1 (h ▸ List.mem_append.mpr (Or.inr (List.mem_cons_self _ _)))
    rw [List.cons_append, List.indexOf_cons_ne _ hau, ih hnd.2,
      List.length_cons]

theorem idx_after {l l1 l2 : List V} {u w : V} (hnd : l.Nodup)
    (h : l = l1 ++ u :: l2) (hw : w ∈ l2) : l1.length < l.indexOf w := by
  subst h
  induction l1 with
  | nil =>
    rw [List.nil_append, List.nodup_cons] at hnd
    have huw : u ≠ w := fun h => hnd.1 (h ▸ hw)
    rw [List.nil_append, List.indexOf_cons_ne _ huw]
    exact Nat.succ_pos _
  | cons a t ih =>
    rw [List.cons_append, List.nodup_cons] at hnd
    have haw : a ≠ w := by
      intro h
      exact hnd.1 (h ▸ List.mem_append.mpr
        (Or.inr (List.mem_cons_of_mem _ hw)))
    rw [List.cons_append, List.indexOf_cons_ne _ haw, List.length_cons]
    exact Nat.succ_lt_succ (ih hnd.2)

end Algorithms

namespace Algorithms

variable {V : Type} [DecidableEq V]

/-- A successful `dfs_helper` run only ever marks graph vertices visited. -/
theorem topoVisit_subset {g : List (V × List V)} :
    ∀ (fuel : Nat) (v : V) (st st' : TopoState V),
    topoVisit g fuel v st = some st' → v ∈ uVertices g →
    ∀ y ∈ st'.visited, y ∈ st.visited ∨ y ∈ uVertices g := by
  intro fuel
  induction fuel with
  | zero => intro v st st' h; cases h
  | succ fuel ih =>
    intro v st st' hcall hv
    have F : ∀ (ns : List V), (∀ n ∈ ns, n ∈ uVertices g) →
        ∀ (sa sb : TopoState V),
        ns.foldl (topoStep (topoVisit g fuel)) (some sa) = some sb →
        ∀ y ∈ sb.visited, y ∈ sa.visited ∨ y ∈ uVertices g := by
      intro ns
      induction ns with
      | nil =>
        intro _ sa sb hfold
        simp only [List.foldl_nil, Option.some.injEq] at hfold
        subst hfold
        exact fun y hy => Or.inl hy
      | cons n rest ihf =>
        intro hsub sa sb hfold
        rw [List.foldl_cons] at hfold
        have hnu : n ∈ uVertices g := hsub n (List.mem_cons_self _ _)
        by_cases hnv : n ∉ sa.visited
        · have hstep : topoStep (topoVisit g fuel) (some sa) n =
              topoVisit g fuel n sa := by
            show (if n ∉ sa.visited then topoVisit g fuel n sa
                  else if n ∈ sa.stack then none else some sa) =
              topoVisit g fuel n sa
            rw [if_pos hnv]
          rw [hstep] at hfold
          cases hrec : topoVisit g fuel n sa with
          | none => rw [hrec, topoStep_none] at hfold; cases hfold
          | some sc =>
            rw [hrec] at hfold
            intro y hy
            rcases ihf (fun m hm => hsub m (List.mem_cons_of_mem _ hm))
              sc sb hfold y hy with h | h
            · rcases ih n sa sc hrec hnu y h with h' | h'
              · exact Or.inl h'
              · exact Or.inr h'
            · exact Or.inr h
        · push_neg at hnv
          by_cases hns : n ∈ sa.stack
          · have hstep : topoStep (topoVisit g fuel) (some sa) n = none := by
              show (if n ∉ sa.visited then topoVisit g fuel n sa
                    else if n ∈ sa.stack then none else some sa) = none
              rw [if_neg (not_not_intro hnv), if_pos hns]
            rw [hstep, topoStep_none] at hfold
            cases hfold
          · have hstep : topoStep (topoVisit g fuel) (some sa) n = some sa := by
              show (if n ∉ sa.visited then topoVisit g fuel n sa
                    else if n ∈ sa.stack then none else some sa) = some sa
              rw [if_neg (not_not_intro hnv), if_neg hns]
            rw [hstep] at hfold
            exact ihf (fun m hm => hsub m (List.mem_cons_of_mem _ hm))
              sa sb hfold
    set st1 : TopoState V := ⟨st.visited ++ [v], st.stack ++ [v], st.result⟩
      with hst1
    rw [show topoVisit g (fuel + 1) v st =
        (match (adjU g v).foldl (topoStep (topoVisit g fuel)) (some st1) with
         | none => none
         | some st2 => some ⟨st2.visited, st2.stack.erase v, st2.result ++ [v]⟩)
      from rfl] at hcall
    cases hfold : (adjU g v).foldl (topoStep (topoVisit g fuel)) (some st1) with
    | none => rw [hfold] at hcall; cases hcall
    | some st2 =>
      rw [hfold] at hcall
      simp only [Option.some.injEq] at hcall
      intro y hy
      rw [← hcall] at hy
      rcases F (adjU g v) (fun n hn => nbr_mem_uVertices hn) st1 st2 hfold y hy
        with h | h
      · rcases (by simpa [hst1] using h : y ∈ st.visited ∨ y = v) with h' | h'
        · exact Or.inl h'
        · exact Or.inr (h' ▸ hv)
      · exact Or.inr h

/-- The driver only ever marks graph vertices visited. -/
theorem topoDriver_subset {g : List (V × List V)} :
    ∀ (ks : List V), (∀ k ∈ ks, k ∈ uVertices g) →
    ∀ (st st' : TopoState V), topoDriver g ks st = some st' →
    ∀ y ∈ st'.visited, y ∈ st.visited ∨ y ∈ uVertices g := by
  intro ks
  induction ks with
  | nil =>
    intro _ st st' hrun
    simp only [topoDriver, Option.some.injEq] at hrun
    subst hrun
    exact fun y hy => Or.inl hy
  | cons k ks ih =>
    intro hsub st st' hrun
    rw [topoDriver] at hrun
    have hku : k ∈ uVertices g := hsub k (List.mem_cons_self _ _)
    by_cases hk : k ∉ st.visited
    · rw [if_pos hk] at hrun
      cases hvis : topoVisit g (uFuel g) k st with
      | none => rw [hvis] at hrun; cases hrun
      | some st2 =>
        rw [hvis] at hrun
        intro y hy
        rcases ih (fun m hm => hsub m (List.mem_cons_of_mem _ hm))
          st2 st' hrun y hy with h | h
        · rcases topoVisit_subset (uFuel g) k st st2 hvis hku y h with h' | h'
          · exact Or.inl h'
          · exact Or.inr h'
        · exact Or.inr h
    · rw [if_neg hk] at hrun
      exact ih (fun m hm => hsub m (List.mem_cons_of_mem _ hm)) st st' hrun

/-- A strictly monotone map along an edge relation is strictly monotone
along its transitive closure. -/
theorem transGen_lt {r : V → V → Prop} {f : V → Nat}
    (hmono : ∀ x y, r x y → f x < f y) :
    ∀ {a b : V}, Relation.TransGen r a b → f a < f b := by
  intro a b h
  induction h with
  | single h1 => exact hmono _ _ h1
  | tail _ h2 ihx => exact lt_trans ihx (hmono _ _ h2)

/-- In an order-closed finished list, every out-neighbor of a finished
vertex is finished. -/
theorem goodRes_mem_of_edge {g : List (V × List V)} {res : List V} {u w : V}
    (h : GoodRes g res) (hu : u ∈ res) (hw : uEdge g u w) : w ∈ res := by
  obtain ⟨l1, l2, hsplit⟩ := List.append_of_mem hu
  have hw1 : w ∈ l1 := h l1 u l2 hsplit w hw
  rw [hsplit]
  exact List.mem_append.mpr (Or.inl hw1)

end Algorithms

namespace Algorithms

variable {V : Type} [DecidableEq V]

theorem goodRes_nil {g : List (V × List V)} : GoodRes g ([] : List V) := by
  intro l1 u l2 hsplit w _
  cases l1 with
  | nil => cases hsplit
  | cons a t => cases hsplit

theorem topoInv_init : TopoInv (⟨[], [], []⟩ : TopoState V) := by
  refine ⟨fun y => ?_, List.nodup_nil, fun y hy => absurd hy (List.not_mem_nil y)⟩
  simp

/-- A successful `topological_sort` run returns a duplicate-free list of
exactly the graph's vertices in which every edge goes strictly forward. -/
theorem topological_sort_some_spec {g : List (V × List V)}
    (hnd : (g.map Prod.fst).Nodup) {l : List V}
    (hts : topological_sort g = some l) :
    l.Nodup ∧ (∀ v, v ∈ l ↔ v ∈ uVertices g) ∧
    ∀ u w, uEdge g u w → l.indexOf u < l.indexOf w := by
  unfold topological_sort at hts
  cases hdrv : topoDriver g (g.map Prod.fst) ⟨[], [], []⟩ with
  | none => rw [hdrv] at hts; cases hts
  | some st =>
    rw [hdrv] at hts
    simp only [Option.some.injEq] at hts
    obtain ⟨hinv, hstk, _, _, hgr, hks⟩ :=
      topoDriver_sound (g.map Prod.fst) ⟨[], [], []⟩ st hdrv topoInv_init rfl
    have hgr0 : GoodRes g st.result := hgr goodRes_nil
    have hkey_res : ∀ k ∈ g.map Prod.fst, k ∈ st.result := by
      intro k hk
      rcases (hinv.1 k).mp (hks k hk) with h | h
      · rw [hstk] at h; cases h
      · exact h
    have hmemiff : ∀ v, v ∈ st.result ↔ v ∈ uVertices g := by
      intro v
      constructor
      · intro hv
        have hvis : v ∈ st.visited := (hinv.1 v).mpr (Or.inr hv)
        rcases topoDriver_subset (g.map Prod.fst)
          (fun k hk => key_mem_uVertices hk) ⟨[], [], []⟩ st hdrv v hvis
          with h | h
        · cases h
        · exact h
      · intro hv
        rcases mem_uVertices_cases hv with h | ⟨p, hp, hvp⟩
        · exact hkey_res v h
        · have hp1 : p.1 ∈ st.result :=
            hkey_res p.1 (List.mem_map.mpr ⟨p, hp, rfl⟩)
          have hedge : uEdge g p.1 v := by
            show v ∈ adjU g p.1
            unfold adjU
            rw [lookup_of_keys_nodup hnd hp]
            exact hvp
          exact goodRes_mem_of_edge hgr0 hp1 hedge
    have hndl : l.Nodup := by
      rw [← hts]
      exact List.nodup_reverse.mpr hinv.2.1
    refine ⟨hndl, ?_, ?_⟩
    · intro v
      rw [← hts, List.mem_reverse]
      exact hmemiff v
    · intro u w hedge
      have hur : u ∈ st.result := by
        have hkey : u ∈ g.map Prod.fst :=
          adjU_ne_nil_key (List.ne_nil_of_mem hedge)
        exact hkey_res u hkey
      obtain ⟨l1, l2, hsplit⟩ := List.append_of_mem hur
      have hw1 : w ∈ l1 := hgr0 l1 u l2 hsplit w hedge
      have hrev : l = l2.reverse ++ u :: l1.reverse := by
        rw [← hts, hsplit]
        simp
      have h1 := idx_split hndl hrev
      have h2 := idx_after hndl hrev (List.mem_reverse.mpr hw1)
      omega

end Algorithms

namespace Algorithms

/-- The spec's DAG example `{A:[C], B:[C,D], C:[E], D:[F], E:[F], F:[]}`
with vertices renamed A..F to 0..5. -/
def topoDagGraph : List (Nat × List Nat) :=
  [(0, [2]), (1, [2, 3]), (2, [4]), (3, [5]), (4, [5]), (5, [])]

variable {V : Type} [DecidableEq V]

/-- C3: on every directed graph (a Python dict has duplicate-free keys),
`topological_sort` returns the `None` sentinel exactly when the graph has a
directed cycle; otherwise the returned list is a duplicate-free enumeration
of all the graph's vertices in which, for every edge `(u, w)`, `u` appears
strictly before `w` — never a partial order. -/
theorem C3_theorem (g : List (V × List V)) (hnd : (g.map Prod.fst).Nodup) :
    (topological_sort g = none ↔ HasCycleU g) ∧
    ∀ l, topological_sort g = some l →
      l.Nodup ∧ (∀ v, v ∈ l ↔ v ∈ uVertices g) ∧
      ∀ u w, uEdge g u w → l.indexOf u < l.indexOf w := by
  refine ⟨⟨?_, ?_⟩, fun l hts => topological_sort_some_spec hnd hts⟩
  · intro hnone
    by_contra hnc
    have hsome := topoDriver_total hnc (g.map Prod.fst)
      (⟨[], [], []⟩ : TopoState V) topoInv_init rfl
    unfold topological_sort at hnone
    cases hdrv : topoDriver g (g.map Prod.fst) ⟨[], [], []⟩ with
    | none => rw [hdrv] at hsome; cases hsome
    | some st => rw [hdrv] at hnone; cases hnone
  · intro hcyc
    cases hts : topological_sort g with
    | none => rfl
    | some l =>
      exfalso
      obtain ⟨_, _, hprec⟩ := topological_sort_some_spec hnd hts
      obtain ⟨v, hc⟩ := hcyc
      exact lt_irrefl _ (transGen_lt (fun x y h => hprec x y h) hc)

/-- C3 witness: the DAG example has duplicate-free keys and the theorem
applies to it. -/
theorem C3_witness :
    (topoDagGraph.map Prod.fst).Nodup ∧
    ((topological_sort topoDagGraph = none ↔ HasCycleU topoDagGraph) ∧
     ∀ l, topological_sort topoDagGraph = some l →
       l.Nodup ∧ (∀ v, v ∈ l ↔ v ∈ uVertices topoDagGraph) ∧
       ∀ u w, uEdge topoDagGraph u w → l.indexOf u < l.indexOf w) :=
  ⟨by decide, C3_theorem topoDagGraph (by decide)⟩

end Algorithms

namespace Algorithms

variable {V : Type} [DecidableEq V]

/-- Matrix-pair state of Floyd-Warshall: `(dist, next_hop)`. -/
abbrev FWS (V : Type) := (V → V → Option Int) × (V → V → Option V)

/-- A directed walk of at least one edge from `i` to `j` whose intermediate
vertices are exactly the listed `ms`, with its total weight. -/
inductive PathThru (g : List (V × List (V × Int))) : V → List V → V → Int → Prop
  | nil {i j : V} {wt : Int} :
      (j, wt) ∈ adjW g i → PathThru g i [] j wt
  | cons {i m j : V} {ms : List V} {w1 w2 : Int} :
      (m, w1) ∈ adjW g i → PathThru g m ms j w2 →
      PathThru g i (m :: ms) j (w1 + w2)

/-- The graph has a simple directed cycle of negative total weight. -/
def HasNegCycle (g : List (V × List (V × Int))) : Prop :=
  ∃ v ms wt, PathThru g v ms v wt ∧ ms.Nodup ∧ v ∉ ms ∧ wt < 0

/-- `a ≤ b` on distances where `none` is `float('inf')`. -/
def oleD : Option Int → Option Int → Prop
  | _, none => True
  | some a, some b => a ≤ b
  | none, some _ => False

theorem oleD_refl (a : Option Int) : oleD a a := by
  cases a with
  | none => trivial
  | some x => exact le_refl x

theorem oleD_trans {a b c : Option Int} (h1 : oleD a b) (h2 : oleD b c) :
    oleD a c := by
  cases c with
  | none => cases a <;> trivial
  | some cv =>
    cases b with
    | none => exact absurd h2 (by intro h; exact h)
    | some bv =>
      cases a with
      | none => exact absurd h1 (by intro h; exact h)
      | some av => exact le_trans h1 h2

theorem oleD_of_oLt {a b : Option Int} (h : oLt a b = true) : oleD a b := by
  cases a with
  | none => cases b <;> simp [oLt] at h
  | some av =>
    cases b with
    | none => trivial
    | some bv =>
      simp only [oLt, decide_eq_true_eq] at h
      exact le_of_lt h

theorem oleD_of_not_oLt {a b : Option Int} (h : ¬ oLt b a = true) : oleD a b := by
  cases b with
  | none => cases a <;> trivial
  | some bv =>
    cases a with
    | none => exact absurd rfl h
    | some av =>
      simp only [oLt, decide_eq_true_eq, not_lt] at h
      exact h

/-- Splitting a walk at a listed intermediate vertex. -/
theorem pathThru_split {g : List (V × List (V × Int))} :
    ∀ (m1 : List V) {i x j : V} {m2 : List V} {wt : Int},
    PathThru g i (m1 ++ x :: m2) j wt →
    ∃ a b, PathThru g i m1 x a ∧ PathThru g x m2 j b ∧ wt = a + b := by
  intro m1
  induction m1 with
  | nil =>
    intro i x j m2 wt h
    rw [List.nil_append] at h
    cases h with
    | cons he hp => exact ⟨_, _, PathThru.nil he, hp, rfl⟩
  | cons m ms ih =>
    intro i x j m2 wt h
    rw [List.cons_append] at h
    cases h with
    | cons he hp =>
      obtain ⟨a, b, h1, h2, hab⟩ := ih hp
      exact ⟨_, b, PathThru.cons he h1, h2, by rw [hab, add_assoc]⟩

/-- Concatenating two walks at a common vertex. -/
theorem pathThru_join {g : List (V × List (V × Int))} :
    ∀ (m1 : List V) {i x j : V} {m2 : List V} {a b : Int},
    PathThru g i m1 x a → PathThru g x m2 j b →
    PathThru g i (m1 ++ x :: m2) j (a + b) := by
  intro m1
  induction m1 with
  | nil =>
    intro i x j m2 a b h1 h2
    cases h1 with
    | nil he => exact PathThru.cons he h2
  | cons m ms ih =>
    intro i x j m2 a b h1 h2
    cases h1 with
    | cons he hp =>
      rw [List.cons_append, add_assoc]
      exact PathThru.cons he (ih hp h2)

/-- All vertices touched by a walk are graph vertices. -/
theorem pathThru_mem_w {g : List (V × List (V × Int))} :
    ∀ {i j : V} {ms : List V} {wt : Int}, PathThru g i ms j wt →
    i ∈ wVertices g ∧ j ∈ wVertices g ∧ ∀ m ∈ ms, m ∈ wVertices g := by
  intro i j ms wt h
  induction h with
  | nil he =>
    refine ⟨?_, nbr_mem_wVertices he, fun m hm => absurd hm (List.not_mem_nil m)⟩
    exact key_mem_wVertices (adjW_ne_nil_key (List.ne_nil_of_mem he))
  | cons he _ ihp =>
    refine ⟨?_, ihp.2.1, ?_⟩
    · exact key_mem_wVertices (adjW_ne_nil_key (List.ne_nil_of_mem he))
    · intro m hm
      rcases List.mem_cons.mp hm with rfl | hm
      · exact ihp.1
      · exact ihp.2.2 m hm

/-- A list that is not duplicate-free contains an element twice. -/
theorem not_nodup_split {l : List V} (h : ¬ l.Nodup) :
    ∃ x m1 m2 m3, l = m1 ++ x :: (m2 ++ x :: m3) := by
  induction l with
  | nil => exact absurd List.nodup_nil h
  | cons a t ih =>
    by_cases ha : a ∈ t
    · obtain ⟨t1, t2, ht⟩ := List.append_of_mem ha
      exact ⟨a, [], t1, t2, by rw [ht]; rfl⟩
    · have hnt : ¬ t.Nodup := by
        intro hnd
        exact h (List.nodup_cons.mpr ⟨ha, hnd⟩)
      obtain ⟨x, m1, m2, m3, hx⟩ := ih hnt
      exact ⟨x, a :: m1, m2, m3, by rw [hx]; rfl⟩

/-- Every negative closed walk contains a simple negative cycle. -/
theorem negWalk_cycle {g : List (V × List (V × Int))} :
    ∀ (n : Nat) (v : V) (ms : List V) (wt : Int), ms.length ≤ n →
    PathThru g v ms v wt → wt < 0 → HasNegCycle g := by
  intro n
  induction n with
  | zero =>
    intro v ms wt hlen hp hwt
    have : ms = [] := List.eq_nil_of_length_eq_zero (Nat.le_zero.mp hlen)
    subst this
    exact ⟨v, [], wt, hp, List.nodup_nil, List.not_mem_nil v, hwt⟩
  | succ n ih =>
    intro v ms wt hlen hp hwt
    by_cases hv : v ∈ ms
    · obtain ⟨m1, m2, hsplit⟩ := List.append_of_mem hv
      subst hsplit
      obtain ⟨a, b, h1, h2, hab⟩ := pathThru_split m1 hp
      rw [List.length_append, List.length_cons] at hlen
      by_cases hA : a < 0
      · exact ih v m1 a (by omega) h1 hA
      · exact ih v m2 b (by omega) h2 (by omega)
    · by_cases hnd : ms.Nodup
      · exact ⟨v, ms, wt, hp, hnd, hv, hwt⟩
      · obtain ⟨x, m1, m2, m3, hx⟩ := not_nodup_split hnd
        subst hx
        obtain ⟨a, bc, h1, h23, habc⟩ := pathThru_split m1 hp
        obtain ⟨b, c, h2, h3, hbc⟩ := pathThru_split m2 h23
        simp only [List.length_append, List.length_cons] at hlen
        by_cases hB : b < 0
        · exact ih x m2 b (by omega) h2 hB
        · have hjoin := pathThru_join m1 h1 h3
          exact ih v (m1 ++ x :: m3) (a + c)
            (by simp only [List.length_append, List.length_cons]; omega)
            hjoin (by omega)

end Algorithms

namespace Algorithms

variable {V : Type} [DecidableEq V]

/-- One edge update of `fwEdges` (named form of its inner lambda). -/
def feStep2 (p1 : V) (s : FWS V) (q : V × Int) : FWS V :=
  if oLt (some q.2) (s.1 p1 q.1) then
    ((fun i j => if i = p1 ∧ j = q.1 then some q.2 else s.1 i j),
     (fun i j => if i = p1 ∧ j = q.1 then some q.1 else s.2 i j))
  else s

/-- One adjacency-row pass of `fwEdges`. -/
def feStep1 (s : FWS V) (p : V × List (V × Int)) : FWS V :=
  p.2.foldl (feStep2 p.1) s

theorem fwEdges_eq (g : List (V × List (V × Int))) (s : FWS V) :
    fwEdges g s = g.foldl feStep1 s := rfl

/-- One `(i, j)` relaxation of `fwRelaxK` (named form of its inner lambda). -/
def fwStep2 (k i : V) (s : FWS V) (j : V) : FWS V :=
  match s.1 i k, s.1 k j with
  | some dik, some dkj =>
    if oLt (some (dik + dkj)) (s.1 i j) then
      ((fun a b => if a = i ∧ b = j then some (dik + dkj) else s.1 a b),
       (fun a b => if a = i ∧ b = j then s.2 i k else s.2 a b))
    else s
  | _, _ => s

/-- One row pass of `fwRelaxK`. -/
def fwStep1 (vs : List V) (k : V) (s : FWS V) (i : V) : FWS V :=
  vs.foldl (fwStep2 k i) s

theorem fwRelaxK_eq (vs : List V) (k : V) (s : FWS V) :
    fwRelaxK vs k s = vs.foldl (fwStep1 vs k) s := rfl

/-- Fold invariant with membership of the processed element. -/
theorem foldl_inv_mem {α S' : Type} (P : S' → Prop) (f : S' → α → S') :
    ∀ (l : List α), (∀ s x, x ∈ l → P s → P (f s x)) →
    ∀ s, P s → P (l.foldl f s) := by
  intro l
  induction l with
  | nil => intro _ s hs; exact hs
  | cons a t ih =>
    intro hf s hs
    rw [List.foldl_cons]
    exact ih (fun s x hx hsx => hf s x (List.mem_cons_of_mem _ hx) hsx)
      (f s a) (hf s a (List.mem_cons_self _ _) hs)

/-- Pointwise non-increase of the distance matrix through a fold. -/
theorem foldl_dle {α : Type} (f : FWS V → α → FWS V)
    (hf : ∀ (s : FWS V) (x : α) (i j : V), oleD ((f s x).1 i j) (s.1 i j)) :
    ∀ (l : List α) (s : FWS V) (i j : V),
    oleD ((l.foldl f s).1 i j) (s.1 i j) := by
  intro l
  induction l with
  | nil => intro s i j; exact oleD_refl _
  | cons a t ih =>
    intro s i j
    rw [List.foldl_cons]
    exact oleD_trans (ih (f s a) i j) (hf s a i j)

theorem feStep2_dle (p1 : V) (s : FWS V) (q : V × Int) (i j : V) :
    oleD ((feStep2 p1 s q).1 i j) (s.1 i j) := by
  unfold feStep2
  by_cases hg : oLt (some q.2) (s.1 p1 q.1) = true
  · rw [if_pos hg]
    by_cases hij : i = p1 ∧ j = q.1
    · show oleD (if i = p1 ∧ j = q.1 then some q.2 else s.1 i j) (s.1 i j)
      rw [if_pos hij, hij.1, hij.2]
      exact oleD_of_oLt hg
    · show oleD (if i = p1 ∧ j = q.1 then some q.2 else s.1 i j) (s.1 i j)
      rw [if_neg hij]
      exact oleD_refl _
  · rw [if_neg hg]
    exact oleD_refl _

theorem feStep1_dle (s : FWS V) (p : V × List (V × Int)) (i j : V) :
    oleD ((feStep1 s p).1 i j) (s.1 i j) :=
  foldl_dle (feStep2 p.1) (feStep2_dle p.1) p.2 s i j

theorem fwStep2_dle (k i0 : V) (s : FWS V) (j0 i j : V) :
    oleD ((fwStep2 k i0 s j0).1 i j) (s.1 i j) := by
  unfold fwStep2
  cases hik : s.1 i0 k with
  | none => exact oleD_refl _
  | some dik =>
    cases hkj : s.1 k j0 with
    | none => exact oleD_refl _
    | some dkj =>
      show oleD
        ((if oLt (some (dik + dkj)) (s.1 i0 j0) = true then
            ((fun a b => if a = i0 ∧ b = j0 then some (dik + dkj) else s.1 a b),
             (fun a b => if a = i0 ∧ b = j0 then s.2 i0 k else s.2 a b))
          else s).1 i j) (s.1 i j)
      by_cases hg : oLt (some (dik + dkj)) (s.1 i0 j0) = true
      · rw [if_pos hg]
        by_cases hij : i = i0 ∧ j = j0
        · show oleD (if i = i0 ∧ j = j0 then some (dik + dkj) else s.1 i j)
            (s.1 i j)
          rw [if_pos hij, hij.1, hij.2]
          exact oleD_of_oLt hg
        · show oleD (if i = i0 ∧ j = j0 then some (dik + dkj) else s.1 i j)
            (s.1 i j)
          rw [if_neg hij]
          exact oleD_refl _
      · rw [if_neg hg]
        exact oleD_refl _

theorem fwStep1_dle (vs : List V) (k : V) (s : FWS V) (i0 i j : V) :
    oleD ((fwStep1 vs k s i0).1 i j) (s.1 i j) :=
  foldl_dle (fwStep2 k i0) (fwStep2_dle k i0) vs s i j

theorem fwRelaxK_dle (vs : List V) (k : V) (s : FWS V) (i j : V) :
    oleD ((fwRelaxK vs k s).1 i j) (s.1 i j) := by
  rw [fwRelaxK_eq]
  exact foldl_dle (fwStep1 vs k) (fun s x i j => fwStep1_dle vs k s x i j)
    vs s i j

end Algorithms

namespace Algorithms

variable {V : Type} [DecidableEq V]

/-- Realizability: every finite entry of a distance matrix is the weight of
an actual walk (the diagonal may also hold its initial 0). -/
def FWReal (g : List (V × List (V × Int))) (d : V → V → Option Int) : Prop :=
  ∀ i j dv, d i j = some dv →
    (i = j ∧ dv = 0) ∨ ∃ ms, PathThru g i ms j dv

theorem fwBase_real (g : List (V × List (V × Int))) :
    FWReal g (fwBase (V := V)).1 := by
  intro i j dv h
  have h' : (if i = j then some (0 : Int) else none) = some dv := h
  by_cases hij : i = j
  · rw [if_pos hij] at h'
    simp only [Option.some.injEq] at h'
    exact Or.inl ⟨hij, h'.symm⟩
  · rw [if_neg hij] at h'
    cases h'

theorem feStep2_real {g : List (V × List (V × Int))} {p1 : V} {s : FWS V}
    {q : V × Int} (hq : q ∈ adjW g p1) (hs : FWReal g s.1) :
    FWReal g (feStep2 p1 s q).1 := by
  intro i j dv h
  unfold feStep2 at h
  by_cases hg : oLt (some q.2) (s.1 p1 q.1) = true
  · rw [if_pos hg] at h
    by_cases hij : i = p1 ∧ j = q.1
    · have h' : (if i = p1 ∧ j = q.1 then some q.2 else s.1 i j) = some dv := h
      rw [if_pos hij] at h'
      simp only [Option.some.injEq] at h'
      refine Or.inr ⟨[], ?_⟩
      rw [hij.1, hij.2, ← h']
      exact PathThru.nil (by rw [← hij.2]; rw [hij.2]; exact hq)
    · have h' : (if i = p1 ∧ j = q.1 then some q.2 else s.1 i j) = some dv := h
      rw [if_neg hij] at h'
      exact hs i j dv h'
  · rw [if_neg hg] at h
    exact hs i j dv h

theorem fwStep2_real {g : List (V × List (V × Int))} {k i0 : V} {s : FWS V}
    {j0 : V} (hs : FWReal g s.1) : FWReal g (fwStep2 k i0 s j0).1 := by
  intro i j dv h
  unfold fwStep2 at h
  cases hik : s.1 i0 k with
  | none => rw [hik] at h; exact hs i j dv h
  | some dik =>
    cases hkj : s.1 k j0 with
    | none => rw [hik, hkj] at h; exact hs i j dv h
    | some dkj =>
      rw [hik, hkj] at h
      have h' :
          ((if oLt (some (dik + dkj)) (s.1 i0 j0) = true then
              ((fun a b => if a = i0 ∧ b = j0 then some (dik + dkj) else s.1 a b),
               (fun a b => if a = i0 ∧ b = j0 then s.2 i0 k else s.2 a b))
            else s).1 i j) = some dv := h
      by_cases hg : oLt (some (dik + dkj)) (s.1 i0 j0) = true
      · rw [if_pos hg] at h'
        by_cases hij : i = i0 ∧ j = j0
        · have h'' : (if i = i0 ∧ j = j0 then some (dik + dkj) else s.1 i j) =
              some dv := h'
          rw [if_pos hij] at h''
          simp only [Option.some.injEq] at h''
          obtain ⟨rfl, rfl⟩ := hij
          rcases hs i k dik hik with ⟨rfl, hdik0⟩ | ⟨m1, hp1⟩
          · rcases hs i j dkj hkj with ⟨rfl, hdkj0⟩ | ⟨m2, hp2⟩
            · exact Or.inl ⟨rfl, by omega⟩
            · refine Or.inr ⟨m2, ?_⟩
              rw [← h'', hdik0, zero_add]
              exact hp2
          · rcases hs k j dkj hkj with ⟨rfl, hdkj0⟩ | ⟨m2, hp2⟩
            · refine Or.inr ⟨m1, ?_⟩
              rw [← h'', hdkj0, add_zero]
              exact hp1
            · refine Or.inr ⟨m1 ++ k :: m2, ?_⟩
              rw [← h'']
              exact pathThru_join m1 hp1 hp2
        · have h'' : (if i = i0 ∧ j = j0 then some (dik + dkj) else s.1 i j) =
              some dv := h'
          rw [if_neg hij] at h''
          exact hs i j dv h''
      · rw [if_neg hg] at h'
        exact hs i j dv h'

theorem floyd_warshall_real {g : List (V × List (V × Int))}
    (hnd : (g.map Prod.fst).Nodup) :
    FWReal g (floyd_warshall g).1 := by
  have hedges : FWReal g (fwEdges g (fwBase (V := V))).1 := by
    rw [fwEdges_eq]
    refine foldl_inv_mem (fun s => FWReal g s.1) feStep1 g ?_ _ (fwBase_real g)
    intro s p hp hs
    unfold feStep1
    refine foldl_inv_mem (fun s => FWReal g s.1) (feStep2 p.1) p.2 ?_ s hs
    intro s' q hq hs'
    have hadj : q ∈ adjW g p.1 := by
      unfold adjW
      rw [lookup_of_keys_nodup hnd hp]
      exact hq
    exact feStep2_real hadj hs'
  show FWReal g
    ((wVertices g).foldl (fun s k => fwRelaxK (wVertices g) k s)
      (fwEdges g fwBase)).1
  refine foldl_inv_mem (fun s => FWReal g s.1)
    (fun s k => fwRelaxK (wVertices g) k s) (wVertices g) ?_ _ hedges
  intro s k _ hs
  show FWReal g (fwRelaxK (wVertices g) k s).1
  rw [fwRelaxK_eq]
  refine foldl_inv_mem (fun s => FWReal g s.1) (fwStep1 (wVertices g) k)
    (wVertices g) ?_ s hs
  intro s' i0 _ hs'
  unfold fwStep1
  refine foldl_inv_mem (fun s => FWReal g s.1) (fwStep2 k i0) (wVertices g)
    ?_ s' hs'
  intro s'' j0 _ hs''
  exact fwStep2_real hs''

end Algorithms

namespace Algorithms

variable {V : Type} [DecidableEq V]

theorem oleD_some {x : Option Int} {c : Int} (h : oleD x (some c)) :
    ∃ xv, x = some xv ∧ xv ≤ c := by
  cases x with
  | none => exact absurd h (by intro h'; exact h')
  | some xv => exact ⟨xv, rfl, h⟩

/-- A property established once at a processed element survives the rest of
a pointwise non-increasing fold. -/
theorem foldl_establish {α : Type} (f : FWS V → α → FWS V) (R : FWS V → Prop)
    (Q : Option Int → Prop) (i j : V)
    (hmon : ∀ (s : FWS V) (x : α) (a b : V), oleD ((f s x).1 a b) (s.1 a b))
    (hR : ∀ (s : FWS V) (x : α), R s → R (f s x))
    (hdown : ∀ a b, oleD a b → Q b → Q a) :
    ∀ (l : List α) (x : α), x ∈ l → (∀ s, R s → Q ((f s x).1 i j)) →
    ∀ s, R s → Q ((l.foldl f s).1 i j) := by
  intro l
  induction l with
  | nil => intro x hx; exact absurd hx (List.not_mem_nil x)
  | cons a t ih =>
    intro x hx hest s hs
    rw [List.foldl_cons]
    rcases List.mem_cons.mp hx with rfl | hx'
    · have hq : Q ((f s x).1 i j) := hest s hs
      have hle : oleD ((t.foldl f (f s x)).1 i j) ((f s x).1 i j) :=
        foldl_dle f (fun s' x' a b => hmon s' x' a b) t (f s x) i j
      exact hdown _ _ hle hq
    · exact ih x hx' hest (f s a) (hR s a hs)

theorem feStep2_establish (p1 : V) (s : FWS V) (j : V) (wt : Int) :
    oleD ((feStep2 p1 s (j, wt)).1 p1 j) (some wt) := by
  unfold feStep2
  by_cases hg : oLt (some wt) (s.1 p1 j) = true
  · rw [if_pos hg]
    show oleD (if p1 = p1 ∧ j = j then some wt else s.1 p1 j) (some wt)
    rw [if_pos ⟨rfl, rfl⟩]
    exact oleD_refl _
  · rw [if_neg hg]
    exact oleD_of_not_oLt hg

/-- After the edge-initialisation pass, every entry is bounded by every
parallel edge weight. -/
theorem fwEdges_edge_bound {g : List (V × List (V × Int))} {i j : V}
    {wt : Int} (he : (j, wt) ∈ adjW g i) :
    oleD ((fwEdges g (fwBase (V := V))).1 i j) (some wt) := by
  unfold adjW at he
  cases hl : g.lookup i with
  | none => rw [hl] at he; cases he
  | some ns =>
    rw [hl] at he
    simp only [Option.getD_some] at he
    have hp : (i, ns) ∈ g := lookup_mem_pairs hl
    rw [fwEdges_eq]
    refine foldl_establish feStep1 (fun _ => True) (fun a => oleD a (some wt))
      i j (fun s p a b => feStep1_dle s p a b) (fun _ _ _ => trivial)
      (fun a b hab hb => oleD_trans hab hb) g (i, ns) hp ?_ _ trivial
    intro s _
    unfold feStep1
    refine foldl_establish (feStep2 i) (fun _ => True) (fun a => oleD a (some wt))
      i j (fun s q a b => feStep2_dle i s q a b) (fun _ _ _ => trivial)
      (fun a b hab hb => oleD_trans hab hb) ns (j, wt) he ?_ s trivial
    intro s' _
    exact feStep2_establish i s' j wt

theorem fwStep2_establish {k i j : V} {d : V → V → Option Int}
    {dik dkj : Int} (hik : d i k = some dik) (hkj : d k j = some dkj)
    (s : FWS V) (hs : ∀ a b, oleD (s.1 a b) (d a b)) :
    oleD ((fwStep2 k i s j).1 i j) (some (dik + dkj)) := by
  obtain ⟨a, ha, hale⟩ := oleD_some (hik ▸ hs i k)
  obtain ⟨b, hb, hble⟩ := oleD_some (hkj ▸ hs k j)
  unfold fwStep2
  rw [ha, hb]
  show oleD
    ((if oLt (some (a + b)) (s.1 i j) = true then
        ((fun x y => if x = i ∧ y = j then some (a + b) else s.1 x y),
         (fun x y => if x = i ∧ y = j then s.2 i k else s.2 x y))
      else s).1 i j) (some (dik + dkj))
  by_cases hg : oLt (some (a + b)) (s.1 i j) = true
  · rw [if_pos hg]
    show oleD (if i = i ∧ j = j then some (a + b) else s.1 i j)
      (some (dik + dkj))
    rw [if_pos ⟨rfl, rfl⟩]
    show a + b ≤ dik + dkj
    omega
  · rw [if_neg hg]
    have h1 : oleD (s.1 i j) (some (a + b)) := oleD_of_not_oLt hg
    have h2 : oleD (some (a + b)) (some (dik + dkj)) := by
      show a + b ≤ dik + dkj
      omega
    exact oleD_trans h1 h2

/-- The `k`-round of Floyd-Warshall establishes the relaxation bound for
every matrix position, relative to the round's entry state. -/
theorem fwRelaxK_bound {vs : List V} {k i j : V} (hi : i ∈ vs) (hj : j ∈ vs)
    {s0 : FWS V} {dik dkj : Int}
    (hik : s0.1 i k = some dik) (hkj : s0.1 k j = some dkj) :
    oleD ((fwRelaxK vs k s0).1 i j) (some (dik + dkj)) := by
  rw [fwRelaxK_eq]
  refine foldl_establish (fwStep1 vs k)
    (fun s => ∀ a b, oleD (s.1 a b) (s0.1 a b))
    (fun a => oleD a (some (dik + dkj))) i j
    (fun s x a b => fwStep1_dle vs k s x a b)
    (fun s x hs a b => oleD_trans (fwStep1_dle vs k s x a b) (hs a b))
    (fun a b hab hb => oleD_trans hab hb) vs i hi ?_ s0 (fun a b => oleD_refl _)
  intro s hs
  unfold fwStep1
  refine foldl_establish (fwStep2 k i)
    (fun s' => ∀ a b, oleD (s'.1 a b) (s0.1 a b))
    (fun a => oleD a (some (dik + dkj))) i j
    (fun s' x a b => fwStep2_dle k i s' x a b)
    (fun s' x hs' a b => oleD_trans (fwStep2_dle k i s' x a b) (hs' a b))
    (fun a b hab hb => oleD_trans hab hb) vs j hj ?_ s hs
  intro s' hs'
  exact fwStep2_establish hik hkj s' hs'

end Algorithms

namespace Algorithms

variable {V : Type} [DecidableEq V]

/-- Upper-bound invariant of Floyd-Warshall: after the rounds for the
intermediates in `K`, every matrix entry is bounded by the weight of every
walk whose (pairwise distinct) intermediate vertices lie in `K` and avoid
the walk's endpoints. -/
def FWUB (g : List (V × List (V × Int))) (d : V → V → Option Int)
    (K : List V) : Prop :=
  ∀ i j ms wt, ms.Nodup → (∀ m ∈ ms, m ∈ K ∧ m ≠ i ∧ m ≠ j) →
    PathThru g i ms j wt → oleD (d i j) (some wt)

theorem fwUB_base (g : List (V × List (V × Int))) :
    FWUB g (fwEdges g (fwBase (V := V))).1 [] := by
  intro i j ms wt _ hms hpath
  cases ms with
  | nil =>
    cases hpath with
    | nil he => exact fwEdges_edge_bound he
  | cons m rest =>
    exact absurd (hms m (List.mem_cons_self _ _)).1 (List.not_mem_nil m)

theorem fwUB_step {g : List (V × List (V × Int))} {K : List V} {k : V}
    {s : FWS V} (hub : FWUB g s.1 K) :
    FWUB g (fwRelaxK (wVertices g) k s).1 (K ++ [k]) := by
  intro i j ms wt hnd hms hpath
  by_cases hk : k ∈ ms
  · obtain ⟨m1, m2, hsplit⟩ := List.append_of_mem hk
    subst hsplit
    have hnd' : (k :: (m1 ++ m2)).Nodup := List.nodup_middle.mp hnd
    rw [List.nodup_cons] at hnd'
    have hk1 : k ∉ m1 := fun h => hnd'.1 (List.mem_append.mpr (Or.inl h))
    have hk2 : k ∉ m2 := fun h => hnd'.1 (List.mem_append.mpr (Or.inr h))
    obtain ⟨a, b, h1, h2, hab⟩ := pathThru_split m1 hpath
    have hb1 : oleD (s.1 i k) (some a) := by
      refine hub i k m1 a (hnd'.2.of_append_left) ?_ h1
      intro m hm
      have hmem := hms m (List.mem_append.mpr (Or.inl hm))
      have hmk : m ≠ k := fun h => hk1 (h ▸ hm)
      refine ⟨?_, hmem.2.1, hmk⟩
      rcases List.mem_append.mp hmem.1 with h | h
      · exact h
      · exact absurd (List.mem_singleton.mp h) hmk
    have hb2 : oleD (s.1 k j) (some b) := by
      refine hub k j m2 b (hnd'.2.of_append_right) ?_ h2
      intro m hm
      have hmem := hms m (List.mem_append.mpr (Or.inr (List.mem_cons_of_mem _ hm)))
      have hmk : m ≠ k := fun h => hk2 (h ▸ hm)
      refine ⟨?_, hmk, hmem.2.2⟩
      rcases List.mem_append.mp hmem.1 with h | h
      · exact h
      · exact absurd (List.mem_singleton.mp h) hmk
    obtain ⟨dik, hik, hika⟩ := oleD_some hb1
    obtain ⟨dkj, hkj, hkjb⟩ := oleD_some hb2
    obtain ⟨hi, hj, _⟩ := pathThru_mem_w hpath
    have hbound := fwRelaxK_bound hi hj hik hkj
    refine oleD_trans hbound ?_
    show dik + dkj ≤ wt
    omega
  · have hbound : oleD (s.1 i j) (some wt) := by
      refine hub i j ms wt hnd ?_ hpath
      intro m hm
      have hmem := hms m hm
      have hmk : m ≠ k := fun h => hk (h ▸ hm)
      refine ⟨?_, hmem.2.1, hmem.2.2⟩
      rcases List.mem_append.mp hmem.1 with h | h
      · exact h
      · exact absurd (List.mem_singleton.mp h) hmk
    exact oleD_trans (fwRelaxK_dle (wVertices g) k s i j) hbound

theorem fwUB_fold {g : List (V × List (V × Int))} :
    ∀ (ks K : List V) (s : FWS V), FWUB g s.1 K →
    FWUB g ((ks.foldl (fun s k => fwRelaxK (wVertices g) k s) s)).1 (K ++ ks) := by
  intro ks
  induction ks with
  | nil => intro K s h; rw [List.foldl_nil, List.append_nil]; exact h
  | cons k ks ih =>
    intro K s h
    rw [List.foldl_cons]
    have h' := ih (K ++ [k]) (fwRelaxK (wVertices g) k s) (fwUB_step h)
    rw [List.append_assoc] at h'
    exact h'

/-- After the full run, every entry is bounded by the weight of every walk
with pairwise distinct intermediates avoiding the endpoints. -/
theorem floyd_warshall_ub (g : List (V × List (V × Int))) :
    FWUB g (floyd_warshall g).1 (wVertices g) := by
  have h := fwUB_fold (g := g) (wVertices g) [] (fwEdges g fwBase) (fwUB_base g)
  rw [List.nil_append] at h
  exact h

end Algorithms

namespace Algorithms

/-- The spec's negative-cycle example `{A:[(B,1)], B:[(C,-2)], C:[(A,-2)]}`
with vertices renamed A..C to 0..2. -/
def negCycleGraph : List (Nat × List (Nat × Int)) :=
  [(0, [(1, 1)]), (1, [(2, -2)]), (2, [(0, -2)])]

variable {V : Type} [DecidableEq V]

/-- C4: on every weighted directed graph (a Python dict has duplicate-free
keys), `floyd_warshall_detect_negative_cycles` reports `True` exactly when
the graph has a simple directed cycle of negative total weight, and the
report is exactly the presence of a negative diagonal entry in the
`floyd_warshall` distance matrix. -/
theorem C4_theorem (g : List (V × List (V × Int)))
    (hnd : (g.map Prod.fst).Nodup) :
    ((floyd_warshall_detect_negative_cycles g).1 = true ↔ HasNegCycle g) ∧
    ((floyd_warshall_detect_negative_cycles g).1 = true ↔
      ∃ v ∈ wVertices g,
        oLt ((floyd_warshall g).1 v v) (some 0) = true) := by
  have hdet : (floyd_warshall_detect_negative_cycles g).1 =
      decide (0 < ((wVertices g).filter
        (fun v => oLt ((floyd_warshall g).1 v v) (some 0))).length) := rfl
  have hA : (floyd_warshall_detect_negative_cycles g).1 = true ↔
      ∃ v ∈ wVertices g,
        oLt ((floyd_warshall g).1 v v) (some 0) = true := by
    rw [hdet, decide_eq_true_iff]
    constructor
    · intro hpos
      have hne : ((wVertices g).filter
          (fun v => oLt ((floyd_warshall g).1 v v) (some 0))) ≠ [] := by
        intro h
        rw [h] at hpos
        exact absurd hpos (by simp)
      obtain ⟨v, hv⟩ := List.exists_mem_of_ne_nil _ hne
      obtain ⟨hv1, hv2⟩ := List.mem_filter.mp hv
      exact ⟨v, hv1, hv2⟩
    · intro ⟨v, hv1, hv2⟩
      have hmem : v ∈ (wVertices g).filter
          (fun v => oLt ((floyd_warshall g).1 v v) (some 0)) :=
        List.mem_filter.mpr ⟨hv1, hv2⟩
      exact List.length_pos.mpr (List.ne_nil_of_mem hmem)
  have hB : (∃ v ∈ wVertices g,
      oLt ((floyd_warshall g).1 v v) (some 0) = true) ↔ HasNegCycle g := by
    constructor
    · intro ⟨v, _, hv⟩
      cases hd : (floyd_warshall g).1 v v with
      | none => rw [hd] at hv; cases hv
      | some dv =>
        rw [hd] at hv
        simp only [oLt, decide_eq_true_eq] at hv
        rcases floyd_warshall_real hnd v v dv hd with ⟨_, rfl⟩ | ⟨ms, hp⟩
        · exact absurd hv (by omega)
        · exact negWalk_cycle ms.length v ms dv (le_refl _) hp hv
    · intro ⟨v, ms, wt, hp, hndms, hvm, hwt⟩
      have hv : v ∈ wVertices g := (pathThru_mem_w hp).1
      have hub := floyd_warshall_ub g v v ms wt hndms ?_ hp
      · obtain ⟨dv, hd, hdle⟩ := oleD_some hub
        refine ⟨v, hv, ?_⟩
        rw [hd]
        simp only [oLt, decide_eq_true_eq]
        omega
      · intro m hm
        have hmv : m ≠ v := fun h => hvm (h ▸ hm)
        exact ⟨(pathThru_mem_w hp).2.2 m hm, hmv, hmv⟩
  exact ⟨hA.trans hB, hA⟩

/-- C4 witness: the negative-cycle example has duplicate-free keys and the
theorem applies to it. -/
theorem C4_witness :
    (negCycleGraph.map Prod.fst).Nodup ∧
    (((floyd_warshall_detect_negative_cycles negCycleGraph).1 = true ↔
        HasNegCycle negCycleGraph) ∧
     ((floyd_warshall_detect_negative_cycles negCycleGraph).1 = true ↔
        ∃ v ∈ wVertices negCycleGraph,
          oLt ((floyd_warshall negCycleGraph).1 v v) (some 0) = true)) :=
  ⟨by decide, C4_theorem negCycleGraph (by decide)⟩

end Algorithms

namespace Algorithms

variable {V : Type} [DecidableEq V]

/-- All edge weights of the graph are non-negative. -/
def NonnegW (g : List (V × List (V × Int))) : Prop :=
  ∀ p ∈ g, ∀ q ∈ p.2, 0 ≤ q.2

/-- A walk from `s` to `v` of total weight `wt` (the empty walk when
`v = s`). -/
def WalkW (g : List (V × List (V × Int))) (s v : V) (wt : Int) : Prop :=
  (v = s ∧ wt = 0) ∨ ∃ ms, PathThru g s ms v wt

/-- `d` is the shortest-walk distance from `s` to `v` (`none` when `v` is
unreachable). -/
def IsSD (g : List (V × List (V × Int))) (s v : V) : Option Int → Prop
  | some dv => WalkW g s v dv ∧ ∀ wt, WalkW g s v wt → dv ≤ wt
  | none => ∀ wt, ¬ WalkW g s v wt

theorem isSD_unique {g : List (V × List (V × Int))} {s v : V}
    {a b : Option Int} (ha : IsSD g s v a) (hb : IsSD g s v b) : a = b := by
  cases a with
  | none =>
    cases b with
    | none => rfl
    | some bv => exact absurd hb.1 (ha bv)
  | some av =>
    cases b with
    | none => exact absurd ha.1 (hb av)
    | some bv =>
      have h1 := ha.2 bv hb.1
      have h2 := hb.2 av ha.1
      exact congrArg some (by omega)

theorem adjW_nonneg {g : List (V × List (V × Int))} (hg : NonnegW g)
    {u : V} {q : V × Int} (hq : q ∈ adjW g u) : 0 ≤ q.2 := by
  unfold adjW at hq
  cases hl : g.lookup u with
  | none => rw [hl] at hq; cases hq
  | some ns =>
    rw [hl] at hq
    simp only [Option.getD_some] at hq
    exact hg (u, ns) (lookup_mem_pairs hl) q hq

theorem pathThru_nonneg {g : List (V × List (V × Int))} (hg : NonnegW g) :
    ∀ {s : V} {ms : List V} {v : V} {wt : Int}, PathThru g s ms v wt →
    0 ≤ wt := by
  intro s ms v wt h
  induction h with
  | nil he => exact adjW_nonneg hg he
  | cons he _ ihp =>
    have := adjW_nonneg hg he
    omega

theorem walkW_nonneg {g : List (V × List (V × Int))} (hg : NonnegW g)
    {s v : V} {wt : Int} (h : WalkW g s v wt) : 0 ≤ wt := by
  rcases h with ⟨_, rfl⟩ | ⟨ms, hp⟩
  · exact le_refl 0
  · exact pathThru_nonneg hg hp

/-- Last-edge decomposition of a walk. -/
theorem pathThru_last {g : List (V × List (V × Int))} :
    ∀ {s : V} {ms : List V} {v : V} {wt : Int}, PathThru g s ms v wt →
    (ms = [] ∧ (v, wt) ∈ adjW g s) ∨
    ∃ u ms' a w, ms = ms' ++ [u] ∧ PathThru g s ms' u a ∧
      (v, w) ∈ adjW g u ∧ wt = a + w := by
  intro s ms v wt h
  induction h with
  | nil he => exact Or.inl ⟨rfl, he⟩
  | cons he hp ihp =>
    rename_i i m j ms' w1 w2
    rcases ihp with ⟨rfl, he2⟩ | ⟨u, ms'', a, w, rfl, hp2, he2, rfl⟩
    · exact Or.inr ⟨m, [], w1, w2, rfl, PathThru.nil he, he2, rfl⟩
    · exact Or.inr ⟨u, m :: ms'', w1 + a, w, rfl,
        PathThru.cons he hp2, he2, by omega⟩

/-- Appending one edge to a walk. -/
theorem walkW_append {g : List (V × List (V × Int))} {s c v : V}
    {cd w : Int} (h : WalkW g s c cd) (he : (v, w) ∈ adjW g c) :
    WalkW g s v (cd + w) := by
  rcases h with ⟨rfl, rfl⟩ | ⟨ms, hp⟩
  · refine Or.inr ⟨[], ?_⟩
    rw [zero_add]
    exact PathThru.nil he
  · exact Or.inr ⟨ms ++ [c], pathThru_join ms hp (PathThru.nil he)⟩

end Algorithms

namespace Algorithms

variable {V : Type} [DecidableEq V]

/-- A walk whose vertices other than the final one all satisfy `W`. -/
def WalkVia (g : List (V × List (V × Int))) (W : V → Prop) (s y : V)
    (a : Int) : Prop :=
  (y = s ∧ a = 0) ∨ ∃ ms, PathThru g s ms y a ∧ W s ∧ ∀ m ∈ ms, W m

/-- Every walk either stays inside `W` (except possibly its endpoint) or
has a first vertex outside `W`, whose `W`-prefix weighs no more than the
whole walk (weights being non-negative). -/
theorem pathVia_decomp {g : List (V × List (V × Int))} (hg : NonnegW g)
    (W : V → Prop) :
    ∀ {s : V} {ms : List V} {v : V} {wt : Int}, PathThru g s ms v wt →
    (W s ∧ ∀ m ∈ ms, W m) ∨
    ∃ y a, ¬ W y ∧ WalkVia g W s y a ∧ a ≤ wt := by
  intro s ms v wt h
  induction h with
  | nil he =>
    rename_i i j wt'
    by_cases hs : W i
    · exact Or.inl ⟨hs, fun m hm => absurd hm (List.not_mem_nil m)⟩
    · exact Or.inr ⟨i, 0, hs, Or.inl ⟨rfl, rfl⟩, adjW_nonneg hg he⟩
  | cons he hp ihp =>
    rename_i i m j ms' w1 w2
    by_cases hs : W i
    · by_cases hm : W m
      · rcases ihp with ⟨_, hmss⟩ | ⟨y, a, hy, hvia, hale⟩
        · refine Or.inl ⟨hs, ?_⟩
          intro x hx
          rcases List.mem_cons.mp hx with rfl | hx
          · exact hm
          · exact hmss x hx
        · rcases hvia with ⟨rfl, rfl⟩ | ⟨ms2, hp2, _, hms2⟩
          · exact absurd hm hy
          · refine Or.inr ⟨y, w1 + a, hy,
              Or.inr ⟨m :: ms2, PathThru.cons he hp2, hs, ?_⟩, by omega⟩
            intro x hx
            rcases List.mem_cons.mp hx with rfl | hx
            · exact hm
            · exact hms2 x hx
      · have hnn := pathThru_nonneg hg hp
        exact Or.inr ⟨m, w1, hm,
          Or.inr ⟨[], PathThru.nil he, hs,
            fun x hx => absurd hx (List.not_mem_nil x)⟩, by omega⟩
    · have hnn := pathThru_nonneg hg hp
      have hw1 := adjW_nonneg hg he
      exact Or.inr ⟨i, 0, hs, Or.inl ⟨rfl, rfl⟩, by omega⟩

/-- State invariant of the array-scan Dijkstra loop. -/
def DInv (g : List (V × List (V × Int))) (start : V) (uv : List V)
    (d : V → Option Int) : Prop :=
  (∀ v dv, d v = some dv → WalkW g start v dv) ∧
  (∀ v, v ∉ uv → ∀ wt, WalkW g start v wt → oleD (d v) (some wt)) ∧
  (∀ u, u ∉ uv → ∀ nw ∈ adjW g u, nw.1 ∈ uv →
    oleD (d nw.1) (oAdd (d u) (some nw.2))) ∧
  (start ∈ uv → oleD (d start) (some 0))

/-- Under the invariant, an unvisited vertex's tentative distance is
bounded by every walk that stays inside the visited region. -/
theorem dinv_frontier {g : List (V × List (V × Int))} {start : V}
    {uv : List V} {d : V → Option Int} (hinv : DInv g start uv d)
    {v : V} {a : Int} (hv : v ∈ uv)
    (hvia : WalkVia g (fun y => y ∉ uv) start v a) : oleD (d v) (some a) := by
  obtain ⟨h1, h2, h3, h0⟩ := hinv
  rcases hvia with ⟨rfl, rfl⟩ | ⟨ms, hp, hs, hms⟩
  · exact h0 hv
  · rcases pathThru_last hp with ⟨rfl, he⟩ | ⟨u, ms', pa, w, rfl, hpre, he, rfl⟩
    · have hedge := h3 start hs (v, a) he hv
      have hstart := h2 start hs 0 (Or.inl ⟨rfl, rfl⟩)
      obtain ⟨ds, hds, hds0⟩ := oleD_some hstart
      rw [hds] at hedge
      refine oleD_trans hedge ?_
      show ds + a ≤ a
      omega
    · have hu : u ∉ uv := hms u (List.mem_append.mpr (Or.inr (List.mem_singleton.mpr rfl)))
      have hub := h2 u hu pa (Or.inr ⟨ms', hpre⟩)
      obtain ⟨du, hdu, hdule⟩ := oleD_some hub
      have hedge := h3 u hu (v, w) he hv
      rw [hdu] at hedge
      refine oleD_trans hedge ?_
      show du + w ≤ pa + w
      omega

/-- The cut property: the unvisited vertex of minimum tentative distance is
already bounded by every walk to it. -/
theorem dinv_cut {g : List (V × List (V × Int))} (hg : NonnegW g)
    {start : V} {uv : List V} {d : V → Option Int}
    (hinv : DInv g start uv d) {current : V} (hcur : current ∈ uv)
    (hmin : ∀ y ∈ uv, oleD (d current) (d y)) :
    ∀ wt, WalkW g start current wt → oleD (d current) (some wt) := by
  intro wt hw
  rcases hw with ⟨rfl, rfl⟩ | ⟨ms, hp⟩
  · exact hinv.2.2.2 hcur
  · rcases pathVia_decomp hg (fun y => y ∉ uv) hp with ⟨hs, hms⟩ |
      ⟨y, a, hy, hvia, hale⟩
    · exact dinv_frontier hinv hcur (Or.inr ⟨ms, hp, hs, hms⟩)
    · have hyuv : y ∈ uv := not_not.mp hy
      have hby := dinv_frontier hinv hyuv hvia
      have h1 := oleD_trans (hmin y hyuv) hby
      refine oleD_trans h1 ?_
      show a ≤ wt
      omega

theorem oleD_none_left {x : Option Int} (h : oleD none x) : x = none := by
  cases x with
  | none => rfl
  | some xv => exact absurd h (by intro h'; exact h')

end Algorithms

namespace Algorithms

variable {V : Type} [DecidableEq V]

/-- One step of the minimum scan (named form of `scanMin`'s lambda). -/
def scanStep (d : V → Option Int) (acc : Option V × Option Int) (v : V) :
    Option V × Option Int :=
  if oLt (d v) acc.2 then (some v, d v) else acc

theorem scanMin_eq (d : V → Option Int) (l : List V) :
    scanMin d l = l.foldl (scanStep d) (none, none) := rfl

theorem scanMin_aux {d : V → Option Int} :
    ∀ (l : List V) (acc : Option V × Option Int),
    (acc.1 = none → acc.2 = none) →
    (∀ c0, acc.1 = some c0 → d c0 = acc.2 ∧ acc.2 ≠ none) →
    (∀ v ∈ l, oleD (l.foldl (scanStep d) acc).2 (d v)) ∧
    oleD (l.foldl (scanStep d) acc).2 acc.2 ∧
    (∀ c, (l.foldl (scanStep d) acc).1 = some c →
      d c = (l.foldl (scanStep d) acc).2 ∧
      (l.foldl (scanStep d) acc).2 ≠ none ∧ (c ∈ l ∨ acc.1 = some c)) ∧
    ((l.foldl (scanStep d) acc).1 = none →
      (l.foldl (scanStep d) acc).2 = none ∧ acc.1 = none) := by
  intro l
  induction l with
  | nil =>
    intro acc hnone hsome
    refine ⟨fun v hv => absurd hv (List.not_mem_nil v), oleD_refl _, ?_, ?_⟩
    · intro c hc
      obtain ⟨h1, h2⟩ := hsome c hc
      exact ⟨h1, h2, Or.inr hc⟩
    · intro h
      exact ⟨hnone h, h⟩
  | cons v t ih =>
    intro acc hnone hsome
    rw [List.foldl_cons]
    by_cases hlt : oLt (d v) acc.2 = true
    · have hstep : scanStep d acc v = (some v, d v) := by
        unfold scanStep
        rw [if_pos hlt]
      rw [hstep]
      have hdv : d v ≠ none := by
        intro h
        rw [h] at hlt
        cases acc.2 <;> simp [oLt] at hlt
      obtain ⟨hA, hB, hC, hD⟩ := ih (some v, d v)
        (by intro h; cases h)
        (by intro c0 hc0
            simp only [Option.some.injEq] at hc0
            exact ⟨by rw [hc0], hdv⟩)
      refine ⟨?_, ?_, ?_, ?_⟩
      · intro x hx
        rcases List.mem_cons.mp hx with rfl | hx
        · exact hB
        · exact hA x hx
      · exact oleD_trans hB (oleD_of_oLt hlt)
      · intro c hc
        obtain ⟨h1, h2, h3⟩ := hC c hc
        refine ⟨h1, h2, ?_⟩
        rcases h3 with h | h
        · exact Or.inl (List.mem_cons_of_mem _ h)
        · simp only [Option.some.injEq] at h
          exact Or.inl (h ▸ List.mem_cons_self _ _)
      · intro hc
        obtain ⟨_, h⟩ := hD hc
        cases h
    · have hstep : scanStep d acc v = acc := by
        unfold scanStep
        rw [if_neg hlt]
      rw [hstep]
      obtain ⟨hA, hB, hC, hD⟩ := ih acc hnone hsome
      refine ⟨?_, hB, ?_, hD⟩
      · intro x hx
        rcases List.mem_cons.mp hx with rfl | hx
        · exact oleD_trans hB (oleD_of_not_oLt hlt)
        · exact hA x hx
      · intro c hc
        obtain ⟨h1, h2, h3⟩ := hC c hc
        refine ⟨h1, h2, ?_⟩
        rcases h3 with h | h
        · exact Or.inl (List.mem_cons_of_mem _ h)
        · exact Or.inr h

/-- Specification of the linear minimum scan when it selects a vertex. -/
theorem scanMin_spec {d : V → Option Int} {l : List V} {c : V}
    {md : Option Int} (h : scanMin d l = (some c, md)) :
    c ∈ l ∧ d c = md ∧ md ≠ none ∧ ∀ v ∈ l, oleD md (d v) := by
  rw [scanMin_eq] at h
  obtain ⟨hA, _, hC, _⟩ := scanMin_aux l (none, none)
    (fun _ => rfl) (fun c0 hc0 => by cases hc0)
  have h1 : (l.foldl (scanStep d) (none, none)).1 = some c := by rw [h]
  have h2 : (l.foldl (scanStep d) (none, none)).2 = md := by rw [h]
  obtain ⟨hd, hne, hmem⟩ := hC c h1
  rcases hmem with hm | hm
  · exact ⟨hm, by rw [hd, h2], by rw [← h2]; exact hne,
      fun v hv => by rw [← h2]; exact hA v hv⟩
  · cases hm

/-- When the scan selects nothing, every scanned distance is infinite. -/
theorem scanMin_none {d : V → Option Int} {l : List V} {md : Option Int}
    (h : scanMin d l = (none, md)) : ∀ v ∈ l, d v = none := by
  rw [scanMin_eq] at h
  obtain ⟨hA, _, _, hD⟩ := scanMin_aux l (none, none)
    (fun _ => rfl) (fun c0 hc0 => by cases hc0)
  have h1 : (l.foldl (scanStep d) (none, none)).1 = none := by rw [h]
  obtain ⟨h2, _⟩ := hD h1
  intro v hv
  have := hA v hv
  rw [h2] at this
  exact oleD_none_left this

end Algorithms

namespace Algorithms

variable {V : Type} [DecidableEq V]

/-- One neighbor update of the array-scan relaxation (named form of
`relaxArray`'s lambda). -/
def raStep (current : V) (unvisited : List V)
    (dp : (V → Option Int) × (V → Option V)) (nw : V × Int) :
    (V → Option Int) × (V → Option V) :=
  if nw.1 ∈ unvisited then
    let nd := oAdd (dp.1 current) (some nw.2)
    if oLt nd (dp.1 nw.1) then
      (fun v => if v = nw.1 then nd else dp.1 v,
       fun v => if v = nw.1 then some current else dp.2 v)
    else dp
  else dp

theorem relaxArray_eq (g : List (V × List (V × Int))) (current : V)
    (unvisited : List V) (dp : (V → Option Int) × (V → Option V)) :
    relaxArray g current unvisited dp =
      (adjW g current).foldl (raStep current unvisited) dp := rfl

theorem raStep_dle (current : V) (uv : List V)
    (dp : (V → Option Int) × (V → Option V)) (nw : V × Int) (v : V) :
    oleD ((raStep current uv dp nw).1 v) (dp.1 v) := by
  unfold raStep
  by_cases hm : nw.1 ∈ uv
  · rw [if_pos hm]
    by_cases hlt : oLt (oAdd (dp.1 current) (some nw.2)) (dp.1 nw.1) = true
    · rw [if_pos hlt]
      show oleD (if v = nw.1 then oAdd (dp.1 current) (some nw.2) else dp.1 v)
        (dp.1 v)
      by_cases hv : v = nw.1
      · rw [if_pos hv, hv]
        exact oleD_of_oLt hlt
      · rw [if_neg hv]
        exact oleD_refl _
    · rw [if_neg hlt]
      exact oleD_refl _
  · rw [if_neg hm]
    exact oleD_refl _

theorem raStep_unchanged {current : V} {uv : List V}
    {dp : (V → Option Int) × (V → Option V)} {nw : V × Int} {v : V}
    (hv : v ∉ uv) : (raStep current uv dp nw).1 v = dp.1 v := by
  unfold raStep
  by_cases hm : nw.1 ∈ uv
  · rw [if_pos hm]
    by_cases hlt : oLt (oAdd (dp.1 current) (some nw.2)) (dp.1 nw.1) = true
    · rw [if_pos hlt]
      show (if v = nw.1 then oAdd (dp.1 current) (some nw.2) else dp.1 v) =
        dp.1 v
      have hv' : v ≠ nw.1 := fun h => hv (h ▸ hm)
      rw [if_neg hv']
    · rw [if_neg hlt]
  · rw [if_neg hm]

theorem raFold_dle (current : V) (uv : List V) :
    ∀ (ns : List (V × Int)) (dp : (V → Option Int) × (V → Option V)) (v : V),
    oleD ((ns.foldl (raStep current uv) dp).1 v) (dp.1 v) := by
  intro ns
  induction ns with
  | nil => intro dp v; exact oleD_refl _
  | cons nw t ih =>
    intro dp v
    rw [List.foldl_cons]
    exact oleD_trans (ih (raStep current uv dp nw) v) (raStep_dle current uv dp nw v)

theorem raFold_unchanged {current : V} {uv : List V} :
    ∀ (ns : List (V × Int)) (dp : (V → Option Int) × (V → Option V)) {v : V},
    v ∉ uv → (ns.foldl (raStep current uv) dp).1 v = dp.1 v := by
  intro ns
  induction ns with
  | nil => intro dp v _; rfl
  | cons nw t ih =>
    intro dp v hv
    rw [List.foldl_cons, ih (raStep current uv dp nw) hv, raStep_unchanged hv]

theorem raFold_origin {current : V} {uv : List V} (hc : current ∉ uv) :
    ∀ (ns : List (V × Int)) (dp : (V → Option Int) × (V → Option V)) (v : V)
    (dv : Int), (ns.foldl (raStep current uv) dp).1 v = some dv →
    dp.1 v = some dv ∨
    ∃ w, (v, w) ∈ ns ∧ some dv = oAdd (dp.1 current) (some w) := by
  intro ns
  induction ns with
  | nil =>
    intro dp v dv h
    exact Or.inl h
  | cons nw t ih =>
    intro dp v dv h
    rw [List.foldl_cons] at h
    have hcur : (raStep current uv dp nw).1 current = dp.1 current :=
      raStep_unchanged hc
    rcases ih (raStep current uv dp nw) v dv h with h' | ⟨w, hw, hval⟩
    · unfold raStep at h'
      by_cases hm : nw.1 ∈ uv
      · rw [if_pos hm] at h'
        by_cases hlt : oLt (oAdd (dp.1 current) (some nw.2)) (dp.1 nw.1) = true
        · rw [if_pos hlt] at h'
          have h'' : (if v = nw.1 then oAdd (dp.1 current) (some nw.2)
              else dp.1 v) = some dv := h'
          by_cases hv : v = nw.1
          · rw [if_pos hv] at h''
            exact Or.inr ⟨nw.2, by rw [hv]; exact List.mem_cons_self _ _, h''.symm⟩
          · rw [if_neg hv] at h''
            exact Or.inl h''
        · rw [if_neg hlt] at h'
          exact Or.inl h'
      · rw [if_neg hm] at h'
        exact Or.inl h'
    · rw [hcur] at hval
      exact Or.inr ⟨w, List.mem_cons_of_mem _ hw, hval⟩

theorem raFold_edge_bound {current : V} {uv : List V} (hc : current ∉ uv) :
    ∀ (ns : List (V × Int)) (dp : (V → Option Int) × (V → Option V))
    (nw : V × Int), nw ∈ ns → nw.1 ∈ uv →
    oleD ((ns.foldl (raStep current uv) dp).1 nw.1)
      (oAdd (dp.1 current) (some nw.2)) := by
  intro ns
  induction ns with
  | nil => intro dp nw h; exact absurd h (List.not_mem_nil nw)
  | cons x t ih =>
    intro dp nw hmem huv
    rw [List.foldl_cons]
    rcases List.mem_cons.mp hmem with rfl | hmem'
    · have hstep : oleD ((raStep current uv dp nw).1 nw.1)
          (oAdd (dp.1 current) (some nw.2)) := by
        unfold raStep
        rw [if_pos huv]
        by_cases hlt : oLt (oAdd (dp.1 current) (some nw.2)) (dp.1 nw.1) = true
        · rw [if_pos hlt]
          show oleD (if nw.1 = nw.1 then oAdd (dp.1 current) (some nw.2)
            else dp.1 nw.1) (oAdd (dp.1 current) (some nw.2))
          rw [if_pos rfl]
          exact oleD_refl _
        · rw [if_neg hlt]
          exact oleD_of_not_oLt hlt
      exact oleD_trans (raFold_dle current uv t (raStep current uv dp nw) nw.1)
        hstep
    · have hcur : (raStep current uv dp x).1 current = dp.1 current :=
        raStep_unchanged hc
      have := ih (raStep current uv dp x) nw hmem' huv
      rw [hcur] at this
      exact this

end Algorithms

namespace Algorithms

variable {V : Type} [DecidableEq V]

/-- One iteration of the array-scan loop preserves the invariant. -/
theorem dinv_step {g : List (V × List (V × Int))} {start : V}
    (hg : NonnegW g) {uv : List V} {d : V → Option Int} {p : V → Option V}
    {current : V} {md : Option Int} (hnd : uv.Nodup)
    (hinv : DInv g start uv d) (hscan : scanMin d uv = (some current, md)) :
    DInv g start (uv.erase current)
      (relaxArray g current (uv.erase current) (d, p)).1 := by
  obtain ⟨hcur, hdc, hmdne, hminmd⟩ := scanMin_spec hscan
  have hmin : ∀ y ∈ uv, oleD (d current) (d y) := by
    intro y hy
    rw [hdc]
    exact hminmd y hy
  have hcut := dinv_cut hg hinv hcur hmin
  obtain ⟨h1, h2, h3, h0⟩ := hinv
  set uv' := uv.erase current with huv'
  have hcuv' : current ∉ uv' := by
    intro h
    exact absurd rfl ((hnd.mem_erase_iff.mp h).1)
  have hsub : ∀ v, v ∈ uv' → v ∈ uv := fun v h => List.mem_of_mem_erase h
  have hout : ∀ v, v ∉ uv' → v ∉ uv ∨ v = current := by
    intro v h
    by_cases hv : v ∈ uv
    · by_cases hvc : v = current
      · exact Or.inr hvc
      · exact absurd (hnd.mem_erase_iff.mpr ⟨hvc, hv⟩) h
    · exact Or.inl hv
  have hdcne : d current ≠ none := by rw [hdc]; exact hmdne
  obtain ⟨cd, hcd⟩ := Option.ne_none_iff_exists.mp hdcne
  rw [relaxArray_eq]
  refine ⟨?_, ?_, ?_, ?_⟩
  · intro v dv hdv
    rcases raFold_origin hcuv' (adjW g current) (d, p) v dv hdv with h | ⟨w, hw, hval⟩
    · exact h1 v dv h
    · show WalkW g start v dv
      have hval2 : some dv = oAdd (d current) (some w) := hval
      rw [← hcd] at hval2
      have hval' : some dv = some (cd + w) := hval2
      simp only [Option.some.injEq] at hval'
      rw [hval']
      exact walkW_append (h1 current cd hcd.symm) hw
  · intro v hv wt hw
    have hunch : ((adjW g current).foldl (raStep current uv') (d, p)).1 v = d v :=
      raFold_unchanged (adjW g current) (d, p) hv
    rw [hunch]
    rcases hout v hv with h | rfl
    · exact h2 v h wt hw
    · exact hcut wt hw
  · intro u hu nw hnw hnuv'
    have hunchu : ((adjW g current).foldl (raStep current uv') (d, p)).1 u = d u :=
      raFold_unchanged (adjW g current) (d, p) hu
    rw [hunchu]
    rcases hout u hu with h | heq
    · have hold := h3 u h nw hnw (hsub nw.1 hnuv')
      exact oleD_trans
        (raFold_dle current uv' (adjW g current) (d, p) nw.1) hold
    · rw [heq] at hnw ⊢
      exact raFold_edge_bound hcuv' (adjW g current) (d, p) nw hnw hnuv'
  · intro hstart
    refine oleD_trans (raFold_dle current uv' (adjW g current) (d, p) start) ?_
    exact h0 (hsub start hstart)

/-- The array-scan loop, run with enough fuel from an invariant state,
yields realizable distances bounded by every walk. -/
theorem dijkstraLoop_correct {g : List (V × List (V × Int))} {start : V}
    (hg : NonnegW g) :
    ∀ (fuel : Nat) (uv : List V) (d : V → Option Int) (p : V → Option V),
    uv.length ≤ fuel → uv.Nodup → DInv g start uv d →
    (∀ v dv, (dijkstraLoop g fuel uv (d, p)).1 v = some dv →
      WalkW g start v dv) ∧
    (∀ v wt, WalkW g start v wt →
      oleD ((dijkstraLoop g fuel uv (d, p)).1 v) (some wt)) := by
  intro fuel
  induction fuel with
  | zero =>
    intro uv d p hlen hnd hinv
    have huv : uv = [] := List.eq_nil_of_length_eq_zero (Nat.le_zero.mp hlen)
    subst huv
    exact ⟨fun v dv h => hinv.1 v dv h,
      fun v wt hw => hinv.2.1 v (List.not_mem_nil v) wt hw⟩
  | succ fuel ih =>
    intro uv d p hlen hnd hinv
    rw [dijkstraLoop]
    by_cases hempty : uv.isEmpty
    · rw [if_pos hempty]
      have huv : uv = [] := List.isEmpty_iff.mp hempty
      subst huv
      exact ⟨fun v dv h => hinv.1 v dv h,
        fun v wt hw => hinv.2.1 v (List.not_mem_nil v) wt hw⟩
    · rw [if_neg hempty]
      rcases hscan : scanMin d uv with ⟨oc, md⟩
      cases oc with
      | none =>
        have hallinf := scanMin_none hscan
        refine ⟨fun v dv h => hinv.1 v dv h, ?_⟩
        intro v wt hw
        by_cases hv : v ∈ uv
        · exfalso
          rcases hw with ⟨rfl, rfl⟩ | ⟨ms, hp⟩
          · have := hinv.2.2.2 hv
            rw [hallinf v hv] at this
            exact this
          · rcases pathVia_decomp hg (fun y => y ∉ uv) hp with ⟨hs, hms⟩ |
              ⟨y, a, hy, hvia, _⟩
            · have := dinv_frontier hinv hv (Or.inr ⟨ms, hp, hs, hms⟩)
              rw [hallinf v hv] at this
              exact this
            · have hyuv : y ∈ uv := not_not.mp hy
              have := dinv_frontier hinv hyuv hvia
              rw [hallinf y hyuv] at this
              exact this
        · exact hinv.2.1 v hv wt hw
      | some current =>
        have hinv' := dinv_step (p := p) hg hnd hinv hscan
        have hcur : current ∈ uv := (scanMin_spec hscan).1
        have hlen' : (uv.erase current).length ≤ fuel := by
          rw [List.length_erase_of_mem hcur]
          have : 1 ≤ uv.length := List.length_pos.mpr (List.ne_nil_of_mem hcur)
          omega
        have hnd' : (uv.erase current).Nodup := hnd.erase current
        have := ih (uv.erase current)
          (relaxArray g current (uv.erase current) (d, p)).1
          (relaxArray g current (uv.erase current) (d, p)).2
          hlen' hnd' hinv'
        exact this

/-- The array-scan `dijkstra` computes exactly the shortest-walk distances
on graphs with non-negative weights. -/
theorem dijkstra_correct {g : List (V × List (V × Int))} {start : V}
    (hg : NonnegW g) : ∀ v, IsSD g start v ((dijkstra g start).1 v) := by
  have hinv0 : DInv g start (wVertices g)
      (fun v => if v = start then some 0 else none) := by
    refine ⟨?_, ?_, ?_, ?_⟩
    · intro v dv hdv
      have hdv' : (if v = start then some (0 : Int) else none) = some dv := hdv
      by_cases hv : v = start
      · rw [if_pos hv] at hdv'
        simp only [Option.some.injEq] at hdv'
        exact Or.inl ⟨hv, hdv'.symm⟩
      · rw [if_neg hv] at hdv'
        cases hdv'
    · intro v hv wt hw
      rcases hw with ⟨rfl, rfl⟩ | ⟨ms, hp⟩
      · show oleD (if v = v then some 0 else none) (some 0)
        rw [if_pos rfl]
        exact le_refl (0 : Int)
      · exact absurd (pathThru_mem_w hp).2.1 hv
    · intro u hu nw hnw
      rw [adjW_nil_of_not_mem hu] at hnw
      exact absurd hnw (List.not_mem_nil nw)
    · intro _
      show oleD (if start = start then some 0 else none) (some 0)
      rw [if_pos rfl]
      exact le_refl (0 : Int)
  obtain ⟨hreal, hbound⟩ := dijkstraLoop_correct hg (wVertices g).length
    (wVertices g) (fun v => if v = start then some 0 else none)
    (fun _ => none) (le_refl _) (wVertices_nodup g) hinv0
  intro v
  have hd : (dijkstra g start).1 =
      (dijkstraLoop g (wVertices g).length (wVertices g)
        (fun v => if v = start then some 0 else none, fun _ => none)).1 := rfl
  rw [hd]
  cases hdv : (dijkstraLoop g (wVertices g).length (wVertices g)
      (fun v => if v = start then some 0 else none, fun _ => none)).1 v with
  | none =>
    intro wt hw
    have := hbound v wt hw
    rw [hdv] at this
    exact this
  | some dv =>
    refine ⟨hreal v dv hdv, ?_⟩
    intro wt hw
    have := hbound v wt hw
    rw [hdv] at this
    exact this

end Algorithms

namespace Algorithms

variable {V : Type} [DecidableEq V]

theorem entryLt_iff [LinearOrder V] {a b : Int × V} :
    entryLt a b = true ↔ (a.1 < b.1 ∨ (a.1 = b.1 ∧ a.2 < b.2)) := by
  simp [entryLt, Bool.or_eq_true, Bool.and_eq_true, decide_eq_true_eq]

theorem entryLt_false_fst [LinearOrder V] {a b : Int × V}
    (h : entryLt a b = false) : b.1 ≤ a.1 := by
  have h' : ¬ (a.1 < b.1 ∨ (a.1 = b.1 ∧ a.2 < b.2)) := by
    rw [← entryLt_iff, h]
    intro hc
    cases hc
  push_neg at h'
  exact h'.1

theorem entryLt_asymm [LinearOrder V] {a b : Int × V}
    (h : entryLt a b = true) : entryLt b a = false := by
  rcases entryLt_iff.mp h with h1 | ⟨h1, h2⟩
  · by_contra hne
    have h2 := entryLt_iff.mp (by
      cases hb : entryLt b a with
      | true => rfl
      | false => exact absurd hb hne)
    rcases h2 with h3 | ⟨h3, _⟩
    · omega
    · omega
  · by_contra hne
    have h3 := entryLt_iff.mp (by
      cases hb : entryLt b a with
      | true => rfl
      | false => exact absurd hb hne)
    rcases h3 with h4 | ⟨_, h5⟩
    · omega
    · exact absurd h2 (not_lt_of_lt h5)

theorem entryLt_false_trans [LinearOrder V] {a b c : Int × V}
    (h1 : entryLt a b = true) (h2 : entryLt c b = false) :
    entryLt c a = false := by
  by_contra hne
  have h3 := entryLt_iff.mp (by
    cases hb : entryLt c a with
    | true => rfl
    | false => exact absurd hb hne)
  rcases entryLt_iff.mp h1 with ha | ⟨ha1, ha2⟩
  · rcases h3 with hc | ⟨hc1, _⟩
    · have : c.1 < b.1 := lt_trans hc ha
      have := entryLt_false_fst h2
      omega
    · have := entryLt_false_fst h2
      omega
  · rcases h3 with hc | ⟨hc1, hc2⟩
    · have := entryLt_false_fst h2
      omega
    · have hcb : entryLt c b = true := by
        refine entryLt_iff.mpr (Or.inr ⟨by omega, ?_⟩)
        exact lt_trans hc2 ha2
      rw [hcb] at h2
      cases h2

/-- The heap as a sorted list: no later entry is smaller. -/
def PQSorted [LinearOrder V] (l : List (Int × V)) : Prop :=
  l.Pairwise (fun a b => entryLt b a = false)

theorem pqPush_mem [LinearOrder V] {e e' : Int × V} :
    ∀ {l : List (Int × V)}, e' ∈ pqPush e l ↔ (e' = e ∨ e' ∈ l) := by
  intro l
  induction l with
  | nil => simp [pqPush]
  | cons x xs ih =>
    unfold pqPush
    by_cases hlt : entryLt e x = true
    · rw [if_pos hlt]
      simp
    · rw [if_neg hlt]
      constructor
      · intro h
        rcases List.mem_cons.mp h with rfl | h
        · exact Or.inr (List.mem_cons_self _ _)
        · rcases ih.mp h with h | h
          · exact Or.inl h
          · exact Or.inr (List.mem_cons_of_mem _ h)
      · intro h
        rcases h with rfl | h
        · exact List.mem_cons_of_mem _ (ih.mpr (Or.inl rfl))
        · rcases List.mem_cons.mp h with rfl | h
          · exact List.mem_cons_self _ _
          · exact List.mem_cons_of_mem _ (ih.mpr (Or.inr h))

theorem pqPush_length [LinearOrder V] (e : Int × V) :
    ∀ (l : List (Int × V)), (pqPush e l).length = l.length + 1 := by
  intro l
  induction l with
  | nil => rfl
  | cons x xs ih =>
    unfold pqPush
    by_cases hlt : entryLt e x = true
    · rw [if_pos hlt]
      rfl
    · rw [if_neg hlt]
      simp only [List.length_cons, ih]

theorem pqPush_sorted [LinearOrder V] {e : Int × V} :
    ∀ {l : List (Int × V)}, PQSorted l → PQSorted (pqPush e l) := by
  intro l
  induction l with
  | nil =>
    intro _
    exact List.pairwise_singleton _ _
  | cons x xs ih =>
    intro hs
    unfold PQSorted at hs ⊢
    rw [List.pairwise_cons] at hs
    unfold pqPush
    by_cases hlt : entryLt e x = true
    · rw [if_pos hlt]
      refine List.pairwise_cons.mpr ⟨?_, List.pairwise_cons.mpr hs⟩
      intro y hy
      rcases List.mem_cons.mp hy with rfl | hy
      · exact entryLt_asymm hlt
      · exact entryLt_false_trans hlt (hs.1 y hy)
    · rw [if_neg hlt]
      refine List.pairwise_cons.mpr ⟨?_, ih hs.2⟩
      intro y hy
      rcases pqPush_mem.mp hy with rfl | hy
      · exact Bool.eq_false_iff.mpr hlt
      · exact hs.1 y hy

/-- One neighbor update of the priority-queue relaxation (named form of
`pqRelax`'s lambda). -/
def pqStep [LinearOrder V] (current : V) (cd : Int) (visited : List V)
    (s : ((V → Option Int) × (V → Option V)) × List (Int × V)) (nw : V × Int) :
    ((V → Option Int) × (V → Option V)) × List (Int × V) :=
  if nw.1 ∈ visited then s
  else
    let nd := cd + nw.2
    if oLt (some nd) (s.1.1 nw.1) then
      ((fun v => if v = nw.1 then some nd else s.1.1 v,
        fun v => if v = nw.1 then some current else s.1.2 v),
       pqPush (nd, nw.1) s.2)
    else s

theorem pqRelax_eq [LinearOrder V] (current : V) (cd : Int) (visited : List V)
    (ns : List (V × Int))
    (s : ((V → Option Int) × (V → Option V)) × List (Int × V)) :
    pqRelax current cd visited ns s =
      ns.foldl (pqStep current cd visited) s := rfl

/-- Total weighted out-degree over distinct vertices is bounded by the
total adjacency size. -/
theorem sum_adjW_le (g : List (V × List (V × Int))) :
    ∀ U : List V, U.Nodup →
    (U.map (fun v => (adjW g v).length)).sum ≤ totalAdj g := by
  induction g with
  | nil =>
    intro U _
    have : ∀ v, adjW ([] : List (V × List (V × Int))) v = [] := fun v => rfl
    simp [this, totalAdj]
  | cons p g' ih =>
    intro U hnd
    have hsplit : ∀ v : V, adjW (p :: g') v = if v = p.1 then p.2 else adjW g' v := by
      intro v
      unfold adjW
      rw [List.lookup]
      by_cases hv : v = p.1
      · rw [if_pos hv, beq_iff_eq.mpr hv]
        rfl
      · rw [if_neg hv]
        have : (v == p.1) = false := beq_eq_false_iff_ne.mpr hv
        rw [this]
    have htot : totalAdj (p :: g') = p.2.length + totalAdj g' := by
      unfold totalAdj
      simp
    rw [htot]
    by_cases hmem : p.1 ∈ U
    · obtain ⟨l1, l2, rfl⟩ := List.append_of_mem hmem
      have hnodup := hnd
      rw [List.nodup_append] at hnodup
      have hp1l1 : p.1 ∉ l1 := fun h => (hnodup.2.2 h) (List.mem_cons_self _ _)
      have hp1l2 : p.1 ∉ l2 := by
        have := hnodup.2.1
        rw [List.nodup_cons] at this
        exact this.1
      have hval : ∀ v ∈ l1 ++ l2, adjW (p :: g') v = adjW g' v := by
        intro v hv
        rw [hsplit v, if_neg ?_]
        intro h
        subst h
        rcases List.mem_append.mp hv with h | h
        · exact hp1l1 h
        · exact hp1l2 h
      have hnd' : (l1 ++ l2).Nodup := by
        rw [List.nodup_append]
        refine ⟨hnodup.1, ?_, ?_⟩
        · have := hnodup.2.1
          rw [List.nodup_cons] at this
          exact this.2
        · intro a ha hb
          exact hnodup.2.2 ha (List.mem_cons_of_mem _ hb)
      have hsum : ((l1 ++ p.1 :: l2).map (fun v => (adjW (p :: g') v).length)).sum
          = p.2.length + ((l1 ++ l2).map (fun v => (adjW g' v).length)).sum := by
        simp only [List.map_append, List.map_cons, List.sum_append, List.sum_cons]
        rw [hsplit p.1, if_pos rfl]
        have h1 : (l1.map (fun v => (adjW (p :: g') v).length)) =
            (l1.map (fun v => (adjW g' v).length)) := by
          refine List.map_congr_left ?_
          intro v hv
          rw [hval v (List.mem_append.mpr (Or.inl hv))]
        have h2 : (l2.map (fun v => (adjW (p :: g') v).length)) =
            (l2.map (fun v => (adjW g' v).length)) := by
          refine List.map_congr_left ?_
          intro v hv
          rw [hval v (List.mem_append.mpr (Or.inr hv))]
        rw [h1, h2]
        omega
      rw [hsum]
      have := ih (l1 ++ l2) hnd'
      omega
    · have hval : ∀ v ∈ U, adjW (p :: g') v = adjW g' v := by
        intro v hv
        rw [hsplit v, if_neg ?_]
        intro h
        rw [h] at hv
        exact hmem hv
      have : (U.map (fun v => (adjW (p :: g') v).length)) =
          (U.map (fun v => (adjW g' v).length)) := by
        refine List.map_congr_left ?_
        intro v hv
        rw [hval v hv]
      rw [this]
      have := ih U hnd
      omega

end Algorithms

namespace Algorithms

variable {V : Type} [DecidableEq V]

theorem pqStep_dle [LinearOrder V] (current : V) (cd : Int) (vis : List V)
    (s : ((V → Option Int) × (V → Option V)) × List (Int × V)) (nw : V × Int)
    (v : V) : oleD ((pqStep current cd vis s nw).1.1 v) (s.1.1 v) := by
  unfold pqStep
  by_cases hm : nw.1 ∈ vis
  · rw [if_pos hm]
    exact oleD_refl _
  · rw [if_neg hm]
    by_cases hlt : oLt (some (cd + nw.2)) (s.1.1 nw.1) = true
    · rw [if_pos hlt]
      show oleD (if v = nw.1 then some (cd + nw.2) else s.1.1 v) (s.1.1 v)
      by_cases hv : v = nw.1
      · rw [if_pos hv, hv]
        exact oleD_of_oLt hlt
      · rw [if_neg hv]
        exact oleD_refl _
    · rw [if_neg hlt]
      exact oleD_refl _

theorem pqFold_dle [LinearOrder V] (current : V) (cd : Int) (vis : List V) :
    ∀ (ns : List (V × Int))
    (s : ((V → Option Int) × (V → Option V)) × List (Int × V)) (v : V),
    oleD ((ns.foldl (pqStep current cd vis) s).1.1 v) (s.1.1 v) := by
  intro ns
  induction ns with
  | nil => intro s v; exact oleD_refl _
  | cons nw t ih =>
    intro s v
    rw [List.foldl_cons]
    exact oleD_trans (ih (pqStep current cd vis s nw) v)
      (pqStep_dle current cd vis s nw v)

/-- The composite invariant carried through the priority-queue relaxation
fold. -/
def PQRInv [LinearOrder V] (g : List (V × List (V × Int))) (start current : V)
    (cd : Int) (vis : List V) (d0 : V → Option Int)
    (s : ((V → Option Int) × (V → Option V)) × List (Int × V)) : Prop :=
  (∀ v ∈ vis, s.1.1 v = d0 v) ∧
  (∀ v dv, s.1.1 v = some dv → WalkW g start v dv) ∧
  (∀ e ∈ s.2, oleD (s.1.1 e.2) (some e.1) ∧ WalkW g start e.2 e.1) ∧
  (∀ v, v ∉ vis → ∀ dv, s.1.1 v = some dv → (dv, v) ∈ s.2) ∧
  PQSorted s.2 ∧
  (∀ v, oleD (s.1.1 v) (d0 v))

theorem pqStep_inv [LinearOrder V] {g : List (V × List (V × Int))}
    {start current : V} {cd : Int} {vis : List V} {d0 : V → Option Int}
    {s : ((V → Option Int) × (V → Option V)) × List (Int × V)} {nw : V × Int}
    (hcur : current ∈ vis) (hcd : WalkW g start current cd)
    (hnw : nw ∈ adjW g current)
    (hinv : PQRInv g start current cd vis d0 s) :
    PQRInv g start current cd vis d0 (pqStep current cd vis s nw) := by
  obtain ⟨ha, hb, hc, hd, he, hf⟩ := hinv
  unfold pqStep
  by_cases hm : nw.1 ∈ vis
  · rw [if_pos hm]
    exact ⟨ha, hb, hc, hd, he, hf⟩
  · rw [if_neg hm]
    by_cases hlt : oLt (some (cd + nw.2)) (s.1.1 nw.1) = true
    · rw [if_pos hlt]
      refine ⟨?_, ?_, ?_, ?_, ?_, ?_⟩
      · intro v hv
        show (if v = nw.1 then some (cd + nw.2) else s.1.1 v) = d0 v
        have hvne : v ≠ nw.1 := fun h => hm (h ▸ hv)
        rw [if_neg hvne]
        exact ha v hv
      · intro v dv hdv
        have hdv' : (if v = nw.1 then some (cd + nw.2) else s.1.1 v)
            = some dv := hdv
        by_cases hv : v = nw.1
        · rw [if_pos hv] at hdv'
          simp only [Option.some.injEq] at hdv'
          rw [hv, ← hdv']
          exact walkW_append hcd hnw
        · rw [if_neg hv] at hdv'
          exact hb v dv hdv'
      · intro e hepq
        rcases pqPush_mem.mp hepq with rfl | he'
        · constructor
          · show oleD (if nw.1 = nw.1 then some (cd + nw.2) else s.1.1 nw.1)
              (some (cd + nw.2))
            rw [if_pos rfl]
            exact oleD_refl _
          · exact walkW_append hcd hnw
        · obtain ⟨h1, h2⟩ := hc e he'
          refine ⟨?_, h2⟩
          show oleD (if e.2 = nw.1 then some (cd + nw.2) else s.1.1 e.2)
            (some e.1)
          by_cases hv : e.2 = nw.1
          · rw [if_pos hv]
            rw [hv] at h1
            exact oleD_trans (oleD_of_oLt hlt) h1
          · rw [if_neg hv]
            exact h1
      · intro v hv dv hdv
        have hdv' : (if v = nw.1 then some (cd + nw.2) else s.1.1 v)
            = some dv := hdv
        by_cases hveq : v = nw.1
        · rw [if_pos hveq] at hdv'
          simp only [Option.some.injEq] at hdv'
          refine pqPush_mem.mpr (Or.inl ?_)
          rw [hveq, ← hdv']
        · rw [if_neg hveq] at hdv'
          exact pqPush_mem.mpr (Or.inr (hd v hv dv hdv'))
      · exact pqPush_sorted he
      · intro v
        show oleD (if v = nw.1 then some (cd + nw.2) else s.1.1 v) (d0 v)
        by_cases hv : v = nw.1
        · rw [if_pos hv, hv]
          exact oleD_trans (oleD_of_oLt hlt) (hf nw.1)
        · rw [if_neg hv]
          exact hf v
    · rw [if_neg hlt]
      exact ⟨ha, hb, hc, hd, he, hf⟩

theorem pqFold_inv [LinearOrder V] {g : List (V × List (V × Int))}
    {start current : V} {cd : Int} {vis : List V} {d0 : V → Option Int}
    (hcur : current ∈ vis) (hcd : WalkW g start current cd) :
    ∀ (ns : List (V × Int)), (∀ nw ∈ ns, nw ∈ adjW g current) →
    ∀ (s : ((V → Option Int) × (V → Option V)) × List (Int × V)),
    PQRInv g start current cd vis d0 s →
    PQRInv g start current cd vis d0 (ns.foldl (pqStep current cd vis) s) := by
  intro ns
  induction ns with
  | nil => intro _ s hs; exact hs
  | cons nw t ih =>
    intro hsub s hs
    rw [List.foldl_cons]
    exact ih (fun x hx => hsub x (List.mem_cons_of_mem _ hx))
      (pqStep current cd vis s nw)
      (pqStep_inv hcur hcd (hsub nw (List.mem_cons_self _ _)) hs)

theorem pqFold_edge_bound [LinearOrder V] {current : V} {cd : Int}
    {vis : List V} :
    ∀ (ns : List (V × Int))
    (s : ((V → Option Int) × (V → Option V)) × List (Int × V)) (nw : V × Int),
    nw ∈ ns → nw.1 ∉ vis →
    oleD ((ns.foldl (pqStep current cd vis) s).1.1 nw.1)
      (some (cd + nw.2)) := by
  intro ns
  induction ns with
  | nil => intro s nw h; exact absurd h (List.not_mem_nil nw)
  | cons x t ih =>
    intro s nw hmem hnv
    rw [List.foldl_cons]
    rcases List.mem_cons.mp hmem with rfl | hmem'
    · have hstep : oleD ((pqStep current cd vis s nw).1.1 nw.1)
          (some (cd + nw.2)) := by
        unfold pqStep
        rw [if_neg hnv]
        by_cases hlt : oLt (some (cd + nw.2)) (s.1.1 nw.1) = true
        · rw [if_pos hlt]
          show oleD (if nw.1 = nw.1 then some (cd + nw.2) else s.1.1 nw.1)
            (some (cd + nw.2))
          rw [if_pos rfl]
          exact oleD_refl _
        · rw [if_neg hlt]
          exact oleD_of_not_oLt hlt
      exact oleD_trans
        (pqFold_dle current cd vis t (pqStep current cd vis s nw) nw.1) hstep
    · exact ih (pqStep current cd vis s x) nw hmem' hnv

theorem pqStep_qlen [LinearOrder V] (current : V) (cd : Int) (vis : List V)
    (s : ((V → Option Int) × (V → Option V)) × List (Int × V)) (nw : V × Int) :
    (pqStep current cd vis s nw).2.length ≤ s.2.length + 1 := by
  unfold pqStep
  by_cases hm : nw.1 ∈ vis
  · rw [if_pos hm]
    omega
  · rw [if_neg hm]
    by_cases hlt : oLt (some (cd + nw.2)) (s.1.1 nw.1) = true
    · rw [if_pos hlt]
      show (pqPush (cd + nw.2, nw.1) s.2).length ≤ s.2.length + 1
      rw [pqPush_length]
    · rw [if_neg hlt]
      omega

theorem pqFold_qlen [LinearOrder V] (current : V) (cd : Int) (vis : List V) :
    ∀ (ns : List (V × Int))
    (s : ((V → Option Int) × (V → Option V)) × List (Int × V)),
    (ns.foldl (pqStep current cd vis) s).2.length ≤ s.2.length + ns.length := by
  intro ns
  induction ns with
  | nil => intro s; exact le_refl _
  | cons nw t ih =>
    intro s
    rw [List.foldl_cons]
    have h1 := ih (pqStep current cd vis s nw)
    have h2 := pqStep_qlen current cd vis s nw
    simp only [List.length_cons]
    omega

end Algorithms

namespace Algorithms

variable {V : Type} [DecidableEq V]

/-- State invariant of the priority-queue Dijkstra loop. -/
def PQInv [LinearOrder V] (g : List (V × List (V × Int))) (start : V)
    (pq : List (Int × V)) (vis : List V) (d : V → Option Int) : Prop :=
  (∀ v dv, d v = some dv → WalkW g start v dv) ∧
  (∀ e ∈ pq, oleD (d e.2) (some e.1) ∧ WalkW g start e.2 e.1) ∧
  (∀ u ∈ vis, ∀ wt, WalkW g start u wt → oleD (d u) (some wt)) ∧
  (∀ u ∈ vis, ∀ nw ∈ adjW g u, nw.1 ∉ vis →
    oleD (d nw.1) (oAdd (d u) (some nw.2))) ∧
  (∀ v, v ∉ vis → ∀ dv, d v = some dv → (dv, v) ∈ pq) ∧
  oleD (d start) (some 0) ∧
  PQSorted pq

/-- Frontier bound for the priority-queue loop. -/
theorem pqinv_frontier [LinearOrder V] {g : List (V × List (V × Int))}
    {start : V} {pq : List (Int × V)} {vis : List V} {d : V → Option Int}
    (hinv : PQInv g start pq vis d) {v : V} {a : Int} (hv : v ∉ vis)
    (hvia : WalkVia g (fun y => y ∈ vis) start v a) : oleD (d v) (some a) := by
  obtain ⟨h1, h2, h3, h4, h5, h0, h6⟩ := hinv
  rcases hvia with ⟨rfl, rfl⟩ | ⟨ms, hp, hs, hms⟩
  · exact h0
  · rcases pathThru_last hp with ⟨rfl, he⟩ | ⟨u, ms', pa, w, rfl, hpre, he, rfl⟩
    · have hedge := h4 start hs (v, a) he hv
      have hstart := h3 start hs 0 (Or.inl ⟨rfl, rfl⟩)
      obtain ⟨ds, hds, hds0⟩ := oleD_some hstart
      rw [hds] at hedge
      refine oleD_trans hedge ?_
      show ds + a ≤ a
      omega
    · have hu : u ∈ vis :=
        hms u (List.mem_append.mpr (Or.inr (List.mem_singleton.mpr rfl)))
      have hub := h3 u hu pa (Or.inr ⟨ms', hpre⟩)
      obtain ⟨du, hdu, hdule⟩ := oleD_some hub
      have hedge := h4 u hu (v, w) he hv
      rw [hdu] at hedge
      refine oleD_trans hedge ?_
      show du + w ≤ pa + w
      omega

/-- Popping the head of the sorted queue: its distance entry is current and
bounded by every walk to it. -/
theorem pqinv_pop [LinearOrder V] {g : List (V × List (V × Int))}
    {start : V} {c : Int} {current : V} {rest : List (Int × V)} {vis : List V}
    {d : V → Option Int} (hg : NonnegW g)
    (hinv : PQInv g start ((c, current) :: rest) vis d)
    (hcur : current ∉ vis) :
    d current = some c ∧ ∀ wt, WalkW g start current wt → c ≤ wt := by
  obtain ⟨h1, h2, h3, h4, h5, h0, h6⟩ := hinv
  have hhead := h2 (c, current) (List.mem_cons_self _ _)
  obtain ⟨dv, hdv, hdvc⟩ := oleD_some hhead.1
  have hdcur : d current = some c := by
    have hentry := h5 current hcur dv hdv
    rcases List.mem_cons.mp hentry with heq | hmem
    · have : dv = c := by
        have := congrArg Prod.fst heq
        exact this
      rw [hdv, this]
    · have hpw : entryLt (dv, current) (c, current) = false := by
        unfold PQSorted at h6
        rw [List.pairwise_cons] at h6
        exact h6.1 (dv, current) hmem
      have hle := entryLt_false_fst hpw
      have : dv = c := le_antisymm hdvc hle
      rw [hdv, this]
  refine ⟨hdcur, ?_⟩
  intro wt hw
  rcases hw with ⟨rfl, rfl⟩ | ⟨ms, hp⟩
  · have := h0
    rw [hdcur] at this
    exact this
  · rcases pathVia_decomp hg (fun y => y ∈ vis) hp with ⟨hs, hms⟩ |
      ⟨y, a, hy, hvia, hale⟩
    · have := pqinv_frontier ⟨h1, h2, h3, h4, h5, h0, h6⟩ hcur
        (Or.inr ⟨ms, hp, hs, hms⟩)
      rw [hdcur] at this
      exact this
    · have hfy := pqinv_frontier ⟨h1, h2, h3, h4, h5, h0, h6⟩ hy hvia
      obtain ⟨dy, hdy, hdya⟩ := oleD_some hfy
      have hentry := h5 y hy dy hdy
      rcases List.mem_cons.mp hentry with heq | hmem
      · have hc : dy = c := congrArg Prod.fst heq
        omega
      · have hpw : entryLt (dy, y) (c, current) = false := by
          unfold PQSorted at h6
          rw [List.pairwise_cons] at h6
          exact h6.1 (dy, y) hmem
        have hle := entryLt_false_fst hpw
        omega

/-- One non-skipped iteration of the priority-queue loop preserves the
invariant. -/
theorem pqinv_step [LinearOrder V] {g : List (V × List (V × Int))}
    {start : V} {c : Int} {current : V} {rest : List (Int × V)} {vis : List V}
    {d : V → Option Int} {p : V → Option V} (hg : NonnegW g)
    (hinv : PQInv g start ((c, current) :: rest) vis d)
    (hcur : current ∉ vis) :
    PQInv g start
      (pqRelax current c (current :: vis) (adjW g current) ((d, p), rest)).2
      (current :: vis)
      (pqRelax current c (current :: vis) (adjW g current) ((d, p), rest)).1.1 := by
  obtain ⟨hdcur, hcut⟩ := pqinv_pop hg hinv hcur
  obtain ⟨h1, h2, h3, h4, h5, h0, h6⟩ := hinv
  have hwcur : WalkW g start current c := h1 current c hdcur
  have hinit : PQRInv g start current c (current :: vis) d ((d, p), rest) := by
    refine ⟨fun v _ => rfl, h1, ?_, ?_, ?_, fun v => oleD_refl _⟩
    · intro e he
      exact h2 e (List.mem_cons_of_mem _ he)
    · intro v hv dv hdv
      have hvv : v ∉ vis := fun h => hv (List.mem_cons_of_mem _ h)
      have hvc : v ≠ current := fun h => hv (h ▸ List.mem_cons_self _ _)
      have hentry := h5 v hvv dv hdv
      rcases List.mem_cons.mp hentry with heq | hmem
      · exact absurd (congrArg Prod.snd heq) hvc
      · exact hmem
    · unfold PQSorted at h6 ⊢
      exact List.Pairwise.of_cons h6
  rw [pqRelax_eq]
  have hfold := pqFold_inv (List.mem_cons_self current vis) hwcur
    (adjW g current) (fun nw hnw => hnw) ((d, p), rest) hinit
  obtain ⟨ha, hb, hc, hd, he, hf⟩ := hfold
  set r := (adjW g current).foldl (pqStep current c (current :: vis))
    ((d, p), rest) with hr
  have hrcur : r.1.1 current = some c := by
    rw [ha current (List.mem_cons_self _ _), hdcur]
  refine ⟨hb, hc, ?_, ?_, hd, ?_, he⟩
  · intro u hu wt hw
    rcases List.mem_cons.mp hu with rfl | hu'
    · rw [hrcur]
      exact hcut wt hw
    · rw [ha u (List.mem_cons_of_mem _ hu')]
      exact h3 u hu' wt hw
  · intro u hu nw hnw hnv
    rcases List.mem_cons.mp hu with heq | hu'
    · rw [heq] at hnw ⊢
      have h' : oleD (((adjW g current).foldl
            (pqStep current c (current :: vis)) ((d, p), rest)).1.1 nw.1)
          (some (c + nw.2)) :=
        pqFold_edge_bound (adjW g current) ((d, p), rest) nw hnw hnv
      rw [hrcur, hr]
      exact h'
    · have hnvv : nw.1 ∉ vis := fun h => hnv (List.mem_cons_of_mem _ h)
      have hold := h4 u hu' nw hnw hnvv
      rw [ha u (List.mem_cons_of_mem _ hu')]
      exact oleD_trans (hf nw.1) hold
  · exact oleD_trans (hf start) h0

end Algorithms

namespace Algorithms

variable {V : Type} [DecidableEq V]

/-- Remaining relaxation work: total out-degree of unvisited vertices. -/
def pqPot (g : List (V × List (V × Int))) (vis : List V) : Nat :=
  (((wVertices g).filter (fun u => decide (u ∉ vis))).map
    (fun u => (adjW g u).length)).sum

theorem sum_filter_erase {f : V → Nat} {vis : List V} {c : V} :
    ∀ l : List V, l.Nodup → c ∈ l → c ∉ vis →
    ((l.filter (fun u => decide (u ∉ c :: vis))).map f).sum + f c ≤
    ((l.filter (fun u => decide (u ∉ vis))).map f).sum := by
  intro l
  induction l with
  | nil => intro _ hc; exact absurd hc (List.not_mem_nil c)
  | cons x t ih =>
    intro hnd hc hcv
    rw [List.nodup_cons] at hnd
    by_cases hxc : x = c
    · subst hxc
      have hct : x ∉ t := hnd.1
      rw [List.filter_cons_of_neg (by simp),
        List.filter_cons_of_pos (by simp [hcv])]
      have hcong : t.filter (fun u => decide (u ∉ x :: vis)) =
          t.filter (fun u => decide (u ∉ vis)) := by
        refine List.filter_congr ?_
        intro u hu
        have hux : u ≠ x := fun h => hct (h ▸ hu)
        simp [List.mem_cons, hux]
      rw [hcong]
      simp only [List.map_cons, List.sum_cons]
      omega
    · have hct : c ∈ t := by
        rcases List.mem_cons.mp hc with h | h
        · exact absurd h.symm hxc
        · exact h
      by_cases hxv : x ∈ vis
      · rw [List.filter_cons_of_neg (by simp [hxv]),
          List.filter_cons_of_neg (by simp [hxv])]
        exact ih hnd.2 hct hcv
      · rw [List.filter_cons_of_pos (by simp [hxv, hxc]),
          List.filter_cons_of_pos (by simp [hxv])]
        simp only [List.map_cons, List.sum_cons]
        have := ih hnd.2 hct hcv
        omega

theorem pqPot_mono {g : List (V × List (V × Int))} {vis : List V}
    {current : V} : pqPot g (current :: vis) ≤ pqPot g vis := by
  refine sum_filter_mono ?_ (wVertices g)
  intro u hu
  simp only [decide_eq_true_eq] at hu ⊢
  intro h
  exact hu (List.mem_cons_of_mem _ h)

theorem pqPot_step {g : List (V × List (V × Int))} {vis : List V}
    {current : V} (hcv : current ∉ vis) :
    pqPot g (current :: vis) + (adjW g current).length ≤ pqPot g vis := by
  by_cases hcg : current ∈ wVertices g
  · exact sum_filter_erase (wVertices g) (wVertices_nodup g) hcg hcv
  · rw [adjW_nil_of_not_mem hcg]
    simp only [List.length_nil, Nat.add_zero]
    exact pqPot_mono

/-- The priority-queue loop, run with enough fuel from an invariant state,
yields realizable distances bounded by every walk. -/
theorem pqLoop_correct [LinearOrder V] {g : List (V × List (V × Int))}
    {start : V} (hg : NonnegW g) :
    ∀ (fuel : Nat) (pq : List (Int × V)) (vis : List V) (d : V → Option Int)
    (p : V → Option V), pq.length + pqPot g vis < fuel →
    PQInv g start pq vis d →
    (∀ v dv, (pqLoop g fuel pq vis (d, p)).1 v = some dv →
      WalkW g start v dv) ∧
    (∀ v wt, WalkW g start v wt →
      oleD ((pqLoop g fuel pq vis (d, p)).1 v) (some wt)) := by
  intro fuel
  induction fuel with
  | zero =>
    intro pq vis d p hlt
    exact absurd hlt (Nat.not_lt_zero _)
  | succ fuel ih =>
    intro pq vis d p hlt hinv
    cases pq with
    | nil =>
      obtain ⟨h1, h2, h3, h4, h5, h0, h6⟩ := hinv
      refine ⟨fun v dv h => h1 v dv h, ?_⟩
      intro v wt hw
      by_cases hv : v ∈ vis
      · exact h3 v hv wt hw
      · cases hdv : d v with
        | some dv => exact absurd (h5 v hv dv hdv) (List.not_mem_nil _)
        | none =>
          show oleD (d v) (some wt)
          exfalso
          rcases hw with ⟨rfl, rfl⟩ | ⟨ms, hp⟩
          · rw [hdv] at h0
            exact h0
          · rcases pathVia_decomp hg (fun y => y ∈ vis) hp with ⟨hs, hms⟩ |
              ⟨y, a, hy, hvia, _⟩
            · have := pqinv_frontier ⟨h1, h2, h3, h4, h5, h0, h6⟩ hv
                (Or.inr ⟨ms, hp, hs, hms⟩)
              rw [hdv] at this
              exact this
            · have hfy := pqinv_frontier ⟨h1, h2, h3, h4, h5, h0, h6⟩ hy hvia
              obtain ⟨dy, hdy, _⟩ := oleD_some hfy
              exact absurd (h5 y hy dy hdy) (List.not_mem_nil _)
    | cons e rest =>
      rcases e with ⟨c, current⟩
      show (∀ v dv, (if current ∈ vis then pqLoop g fuel rest vis (d, p)
          else
            (pqLoop g fuel
              (pqRelax current c (current :: vis) (adjW g current)
                ((d, p), rest)).2
              (current :: vis)
              (pqRelax current c (current :: vis) (adjW g current)
                ((d, p), rest)).1)).1 v = some dv → WalkW g start v dv) ∧
        (∀ v wt, WalkW g start v wt →
          oleD ((if current ∈ vis then pqLoop g fuel rest vis (d, p)
            else
              (pqLoop g fuel
                (pqRelax current c (current :: vis) (adjW g current)
                  ((d, p), rest)).2
                (current :: vis)
                (pqRelax current c (current :: vis) (adjW g current)
                  ((d, p), rest)).1)).1 v) (some wt))
      by_cases hcv : current ∈ vis
      · rw [if_pos hcv]
        obtain ⟨h1, h2, h3, h4, h5, h0, h6⟩ := hinv
        have hinv' : PQInv g start rest vis d := by
          refine ⟨h1, ?_, h3, h4, ?_, h0, ?_⟩
          · intro e he
            exact h2 e (List.mem_cons_of_mem _ he)
          · intro v hv dv hdv
            have hentry := h5 v hv dv hdv
            rcases List.mem_cons.mp hentry with heq | hmem
            · have hvc : v = current := congrArg Prod.snd heq
              exact absurd (hvc ▸ hcv) hv
            · exact hmem
          · unfold PQSorted at h6 ⊢
            exact List.Pairwise.of_cons h6
        have hlt' : rest.length + pqPot g vis < fuel := by
          simp only [List.length_cons] at hlt
          omega
        exact ih rest vis d p hlt' hinv'
      · rw [if_neg hcv]
        have hinv' := pqinv_step (p := p) hg hinv hcv
        have hqlen : (pqRelax current c (current :: vis) (adjW g current)
            ((d, p), rest)).2.length ≤ rest.length + (adjW g current).length := by
          rw [pqRelax_eq]
          exact pqFold_qlen current c (current :: vis) (adjW g current)
            ((d, p), rest)
        have hpot := pqPot_step (g := g) hcv
        have hlt' : (pqRelax current c (current :: vis) (adjW g current)
            ((d, p), rest)).2.length + pqPot g (current :: vis) < fuel := by
          simp only [List.length_cons] at hlt
          omega
        exact ih _ (current :: vis) _ _ hlt' hinv'

/-- The priority-queue `dijkstra_priority_queue` computes exactly the
shortest-walk distances on graphs with non-negative weights. -/
theorem dijkstra_pq_correct [LinearOrder V] {g : List (V × List (V × Int))}
    {start : V} (hg : NonnegW g) :
    ∀ v, IsSD g start v ((dijkstra_priority_queue g start).1 v) := by
  have hinv0 : PQInv g start [(0, start)] []
      (fun v => if v = start then some 0 else none) := by
    refine ⟨?_, ?_, ?_, ?_, ?_, ?_, ?_⟩
    · intro v dv hdv
      have hdv' : (if v = start then some (0 : Int) else none) = some dv := hdv
      by_cases hv : v = start
      · rw [if_pos hv] at hdv'
        simp only [Option.some.injEq] at hdv'
        exact Or.inl ⟨hv, hdv'.symm⟩
      · rw [if_neg hv] at hdv'
        cases hdv'
    · intro e he
      rcases List.mem_singleton.mp he with rfl
      constructor
      · show oleD (if start = start then some 0 else none) (some 0)
        rw [if_pos rfl]
        exact le_refl (0 : Int)
      · exact Or.inl ⟨rfl, rfl⟩
    · intro u hu
      exact absurd hu (List.not_mem_nil u)
    · intro u hu
      exact absurd hu (List.not_mem_nil u)
    · intro v _ dv hdv
      have hdv' : (if v = start then some (0 : Int) else none) = some dv := hdv
      by_cases hv : v = start
      · rw [if_pos hv] at hdv'
        simp only [Option.some.injEq] at hdv'
        rw [hv, ← hdv']
        exact List.mem_singleton.mpr rfl
      · rw [if_neg hv] at hdv'
        cases hdv'
    · show oleD (if start = start then some 0 else none) (some 0)
      rw [if_pos rfl]
      exact le_refl (0 : Int)
    · exact List.pairwise_singleton _ _
  have hfuel : ([(0, start)] : List (Int × V)).length + pqPot g [] < pqFuel g := by
    have hall : (wVertices g).filter (fun u => decide (u ∉ ([] : List V))) =
        wVertices g :=
      List.filter_eq_self.mpr (fun a _ => by simp)
    have hsum : pqPot g [] ≤ totalAdj g := by
      unfold pqPot
      rw [hall]
      exact sum_adjW_le g (wVertices g) (wVertices_nodup g)
    unfold pqFuel
    simp only [List.length_singleton]
    omega
  obtain ⟨hreal, hbound⟩ := pqLoop_correct hg (pqFuel g) [(0, start)] []
    (fun v => if v = start then some 0 else none) (fun _ => none) hfuel hinv0
  intro v
  have hd : (dijkstra_priority_queue g start).1 =
      (pqLoop g (pqFuel g) [(0, start)] []
        (fun v => if v = start then some 0 else none, fun _ => none)).1 := rfl
  rw [hd]
  cases hdv : (pqLoop g (pqFuel g) [(0, start)] []
      (fun v => if v = start then some 0 else none, fun _ => none)).1 v with
  | none =>
    intro wt hw
    have := hbound v wt hw
    rw [hdv] at this
    exact this
  | some dv =>
    refine ⟨hreal v dv hdv, ?_⟩
    intro wt hw
    have := hbound v wt hw
    rw [hdv] at this
    exact this

end Algorithms

namespace Algorithms

variable {V : Type} [DecidableEq V]

/-- C1 (amended): on every weighted graph with non-negative edge weights
and every source, the array-scan `dijkstra` and the priority-queue
`dijkstra_priority_queue` return identical distance maps (the predecessor
maps can differ on equal-distance ties, see the counterexample). -/
theorem C1_theorem [LinearOrder V] (g : List (V × List (V × Int)))
    (start : V) (hg : NonnegW g) :
    ∀ v, (dijkstra g start).1 v = (dijkstra_priority_queue g start).1 v :=
  fun v => isSD_unique (dijkstra_correct hg v) (dijkstra_pq_correct hg v)

/-- C1 witness: the spec's example graph has non-negative weights and the
theorem applies to it with source `A` (renamed `0`). -/
theorem C1_witness :
    NonnegW dijkstraExampleGraph ∧
    ∀ v, (dijkstra dijkstraExampleGraph 0).1 v =
      (dijkstra_priority_queue dijkstraExampleGraph 0).1 v :=
  ⟨by unfold NonnegW; decide, C1_theorem dijkstraExampleGraph 0
    (by unfold NonnegW; decide)⟩

end Algorithms

namespace Algorithms

variable {V : Type} [DecidableEq V]

/-- The fresh neighbors actually marked by one BFS enqueue pass, in
processing order. -/
def freshList : List V → List V → List V
  | [], _ => []
  | n :: ns, vis =>
    if n ∈ vis then freshList ns vis else n :: freshList ns (vis ++ [n])

theorem freshList_mem {y : V} :
    ∀ {ns vis : List V}, y ∈ freshList ns vis ↔ (y ∈ ns ∧ y ∉ vis) := by
  intro ns
  induction ns with
  | nil => intro vis; simp [freshList]
  | cons n ns ih =>
    intro vis
    unfold freshList
    by_cases hn : n ∈ vis
    · rw [if_pos hn, ih]
      constructor
      · intro ⟨h1, h2⟩
        exact ⟨List.mem_cons_of_mem _ h1, h2⟩
      · intro ⟨h1, h2⟩
        rcases List.mem_cons.mp h1 with rfl | h1
        · exact absurd hn h2
        · exact ⟨h1, h2⟩
    · rw [if_neg hn]
      constructor
      · intro h
        rcases List.mem_cons.mp h with rfl | h
        · exact ⟨List.mem_cons_self _ _, hn⟩
        · obtain ⟨h1, h2⟩ := ih.mp h
          refine ⟨List.mem_cons_of_mem _ h1, fun hv => h2 ?_⟩
          exact List.mem_append.mpr (Or.inl hv)
      · intro ⟨h1, h2⟩
        rcases List.mem_cons.mp h1 with rfl | h1
        · exact List.mem_cons_self _ _
        · by_cases hyn : y = n
          · exact hyn ▸ List.mem_cons_self _ _
          · refine List.mem_cons_of_mem _ (ih.mpr ⟨h1, ?_⟩)
            intro hv
            rcases List.mem_append.mp hv with h | h
            · exact h2 h
            · exact hyn (List.mem_singleton.mp h)

theorem freshList_nodup : ∀ (ns vis : List V), (freshList ns vis).Nodup := by
  intro ns
  induction ns with
  | nil => intro vis; exact List.nodup_nil
  | cons n ns ih =>
    intro vis
    unfold freshList
    by_cases hn : n ∈ vis
    · rw [if_pos hn]
      exact ih vis
    · rw [if_neg hn]
      refine List.nodup_cons.mpr ⟨?_, ih (vis ++ [n])⟩
      intro h
      exact (freshList_mem.mp h).2 (List.mem_append.mpr (Or.inr (List.mem_singleton.mpr rfl)))

end Algorithms

namespace Algorithms

variable {V : Type} [DecidableEq V]

/-- One mark-and-enqueue step of `bfs_shortest_path` (named form of
`bfsSpEnq`'s lambda). -/
def spStep (c : V) (s : List V × List V × (V → Option V)) (n : V) :
    List V × List V × (V → Option V) :=
  if n ∈ s.1 then s
  else (s.1 ++ [n], s.2.1 ++ [n], fun v => if v = n then some c else s.2.2 v)

theorem bfsSpEnq_eq (c : V) (ns : List V)
    (s : List V × List V × (V → Option V)) :
    bfsSpEnq c ns s = ns.foldl (spStep c) s := rfl

/-- The structure of one `bfs_shortest_path` enqueue pass. -/
theorem bfsSpEnq_spec (c : V) :
    ∀ (ns vis rest : List V) (par : V → Option V),
    ∃ parF, bfsSpEnq c ns (vis, rest, par) =
      (vis ++ freshList ns vis, rest ++ freshList ns vis, parF) ∧
    (∀ y, y ∉ freshList ns vis → parF y = par y) ∧
    (∀ y ∈ freshList ns vis, parF y = some c) := by
  intro ns
  induction ns with
  | nil =>
    intro vis rest par
    refine ⟨par, by simp [bfsSpEnq, freshList], ?_, ?_⟩
    · intro y _; rfl
    · intro y hy; cases hy
  | cons n ns ih =>
    intro vis rest par
    rw [bfsSpEnq_eq, List.foldl_cons]
    by_cases hn : n ∈ vis
    · have hacc : spStep c (vis, rest, par) n = (vis, rest, par) := by
        simp only [spStep]
        rw [if_pos hn]
      have hfl : freshList (n :: ns) vis = freshList ns vis := by
        simp only [freshList]
        rw [if_pos hn]
      rw [hacc, hfl, ← bfsSpEnq_eq]
      exact ih vis rest par
    · have hacc : spStep c (vis, rest, par) n =
          (vis ++ [n], rest ++ [n],
            fun v => if v = n then some c else par v) := by
        simp only [spStep]
        rw [if_neg hn]
      have hfl : freshList (n :: ns) vis = n :: freshList ns (vis ++ [n]) := by
        simp only [freshList]
        rw [if_neg hn]
      have hnF : n ∉ freshList ns (vis ++ [n]) := by
        intro h
        exact (freshList_mem.mp h).2
          (List.mem_append.mpr (Or.inr (List.mem_singleton.mpr rfl)))
      obtain ⟨parF, h1, h2, h3⟩ := ih (vis ++ [n]) (rest ++ [n])
        (fun v => if v = n then some c else par v)
      rw [bfsSpEnq_eq] at h1
      rw [hacc, h1, hfl]
      refine ⟨parF, ?_, ?_, ?_⟩
      · simp [List.append_assoc]
      · intro y hy
        have hyn : y ≠ n := fun h => hy (h ▸ List.mem_cons_self _ _)
        have hyF : y ∉ freshList ns (vis ++ [n]) :=
          fun h => hy (List.mem_cons_of_mem _ h)
        rw [h2 y hyF, if_neg hyn]
      · intro y hy
        rcases List.mem_cons.mp hy with rfl | hy
        · rw [h2 y hnF, if_pos rfl]
        · exact h3 y hy

end Algorithms

namespace Algorithms

variable {V : Type} [DecidableEq V]

/-- One step of `bfs_distance`'s neighbor loop (named form of
`bfsDistEnq`'s lambda). -/
def dStep (target : V) (dd : Int) (acc : Sum Int (List V × List (V × Int)))
    (n : V) : Sum Int (List V × List (V × Int)) :=
  match acc with
  | Sum.inl r => Sum.inl r
  | Sum.inr s =>
    if n = target then Sum.inl (dd + 1)
    else if n ∈ s.1 then Sum.inr s
    else Sum.inr (s.1 ++ [n], s.2 ++ [(n, dd + 1)])

theorem bfsDistEnq_eq (target : V) (dd : Int) (ns : List V)
    (s : List V × List (V × Int)) :
    bfsDistEnq target dd ns s = ns.foldl (dStep target dd) (Sum.inr s) := rfl

theorem dStep_inl (target : V) (dd : Int) (r : Int) :
    ∀ ns : List V, ns.foldl (dStep target dd) (Sum.inl r) = Sum.inl r := by
  intro ns
  induction ns with
  | nil => rfl
  | cons n t ih => rw [List.foldl_cons]; exact ih

/-- `bfs_distance`'s enqueue pass when the target is not adjacent. -/
theorem bfsDistEnq_miss (target : V) (d : Int) :
    ∀ (ns vis : List V) (restD : List (V × Int)), target ∉ ns →
    bfsDistEnq target d ns (vis, restD) =
      Sum.inr (vis ++ freshList ns vis,
        restD ++ (freshList ns vis).map (fun n => (n, d + 1))) := by
  intro ns
  induction ns with
  | nil =>
    intro vis restD _
    simp [bfsDistEnq, freshList]
  | cons n ns ih =>
    intro vis restD htgt
    have hnt : n ≠ target := fun h => htgt (h ▸ List.mem_cons_self _ _)
    have htgt' : target ∉ ns := fun h => htgt (List.mem_cons_of_mem _ h)
    rw [bfsDistEnq_eq, List.foldl_cons]
    by_cases hn : n ∈ vis
    · have hacc : dStep target d (Sum.inr (vis, restD)) n =
          Sum.inr (vis, restD) := by
        simp only [dStep]
        rw [if_neg hnt, if_pos hn]
      have hfl : freshList (n :: ns) vis = freshList ns vis := by
        simp only [freshList]
        rw [if_pos hn]
      rw [hacc, hfl, ← bfsDistEnq_eq]
      exact ih vis restD htgt'
    · have hacc : dStep target d (Sum.inr (vis, restD)) n =
          Sum.inr (vis ++ [n], restD ++ [(n, d + 1)]) := by
        simp only [dStep]
        rw [if_neg hnt, if_neg hn]
      have hfl : freshList (n :: ns) vis = n :: freshList ns (vis ++ [n]) := by
        simp only [freshList]
        rw [if_neg hn]
      rw [hacc, ← bfsDistEnq_eq, ih (vis ++ [n]) (restD ++ [(n, d + 1)]) htgt',
        hfl]
      simp [List.append_assoc]

/-- `bfs_distance`'s enqueue pass returns early when the target is
adjacent. -/
theorem bfsDistEnq_hit (target : V) (d : Int) :
    ∀ (ns vis : List V) (restD : List (V × Int)), target ∈ ns →
    bfsDistEnq target d ns (vis, restD) = Sum.inl (d + 1) := by
  intro ns
  induction ns with
  | nil => intro vis restD h; exact absurd h (List.not_mem_nil target)
  | cons n ns ih =>
    intro vis restD htgt
    rw [bfsDistEnq_eq, List.foldl_cons]
    by_cases hnt : n = target
    · have hacc : dStep target d (Sum.inr (vis, restD)) n =
          Sum.inl (d + 1) := by
        simp only [dStep]
        rw [if_pos hnt]
      rw [hacc, dStep_inl]
    · have htgt' : target ∈ ns := by
        rcases List.mem_cons.mp htgt with h | h
        · exact absurd h.symm hnt
        · exact h
      by_cases hn : n ∈ vis
      · have hacc : dStep target d (Sum.inr (vis, restD)) n =
            Sum.inr (vis, restD) := by
          simp only [dStep]
          rw [if_neg hnt, if_pos hn]
        rw [hacc, ← bfsDistEnq_eq]
        exact ih vis restD htgt'
      · have hacc : dStep target d (Sum.inr (vis, restD)) n =
            Sum.inr (vis ++ [n], restD ++ [(n, d + 1)]) := by
          simp only [dStep]
          rw [if_neg hnt, if_neg hn]
        rw [hacc, ← bfsDistEnq_eq]
        exact ih (vis ++ [n]) (restD ++ [(n, d + 1)]) htgt'

/-- The full parent chain recorded by BFS: from the root (whose parent is
`None`) down to `v`. -/
inductive PChain (par : V → Option V) : V → List V → Prop
  | root {v : V} : par v = none → PChain par v [v]
  | step {v u : V} {L : List V} : par v = some u → PChain par u L →
      PChain par v (L ++ [v])

theorem pchain_length_pos {par : V → Option V} {v : V} {L : List V}
    (h : PChain par v L) : 1 ≤ L.length := by
  cases h with
  | root _ => exact le_refl 1
  | step _ _ => simp

theorem pchain_congr {par par' : V → Option V} :
    ∀ {v : V} {L : List V}, (∀ y ∈ L, par' y = par y) → PChain par v L →
    PChain par' v L := by
  intro v L hagree h
  induction h with
  | root hv =>
    refine PChain.root ?_
    rename_i v'
    rw [hagree v' (List.mem_singleton.mpr rfl)]
    exact hv
  | step hv hc ihc =>
    rename_i v' u L'
    refine PChain.step ?_ (ihc ?_)
    · rw [hagree v' (List.mem_append.mpr (Or.inr (List.mem_singleton.mpr rfl)))]
      exact hv
    · intro y hy
      exact hagree y (List.mem_append.mpr (Or.inl hy))

theorem parentWalk_of_chain {par : V → Option V} :
    ∀ {v : V} {L : List V}, PChain par v L → ∀ fuel, L.length ≤ fuel + 1 →
    parentWalk fuel par v = L := by
  intro v L h
  induction h with
  | root hv =>
    intro fuel _
    cases fuel with
    | zero => rfl
    | succ fuel =>
      show (match par _ with
            | none => [_]
            | some nxt => parentWalk fuel par nxt ++ [_]) = _
      rw [hv]
  | step hv hc ihc =>
    rename_i v' u L'
    intro fuel hlen
    cases fuel with
    | zero =>
      exfalso
      have := pchain_length_pos hc
      rw [List.length_append, List.length_singleton] at hlen
      omega
    | succ fuel =>
      show (match par v' with
            | none => [v']
            | some nxt => parentWalk fuel par nxt ++ [v']) = L' ++ [v']
      rw [hv]
      have hlen' : L'.length ≤ fuel + 1 := by
        rw [List.length_append, List.length_singleton] at hlen
        omega
      show parentWalk fuel par u ++ [v'] = L' ++ [v']
      rw [ihc fuel hlen']

/-- Distinct elements drawn from a list are no more numerous than it. -/
theorem nodup_length_le {L M : List V} (hnd : L.Nodup)
    (hsub : ∀ y ∈ L, y ∈ M) : L.length ≤ M.length := by
  have h1 : L.toFinset.card = L.length := List.toFinset_card_of_nodup hnd
  have h2 : L.toFinset ⊆ M.toFinset := by
    intro y hy
    exact List.mem_toFinset.mpr (hsub y (List.mem_toFinset.mp hy))
  have h3 : M.toFinset.card ≤ M.length := M.toFinset_card_le
  have h4 := Finset.card_le_card h2
  omega

/-- Marking a block of fresh vertices lowers the fresh count accordingly. -/
theorem countFresh_append_fresh {U : List V} :
    ∀ (F W : List V), F.Nodup → (∀ y ∈ F, y ∈ U ∧ y ∉ W) →
    countFresh U (W ++ F) + F.length ≤ countFresh U W := by
  intro F
  induction F with
  | nil =>
    intro W _ _
    rw [List.append_nil]
    simp
  | cons x F ih =>
    intro W hnd hF
    rw [List.nodup_cons] at hnd
    have hx := hF x (List.mem_cons_self _ _)
    have hstep : countFresh U (W ++ [x]) < countFresh U W := by
      refine countFresh_lt ?_ hx.1 hx.2
      intro y
      rw [List.mem_append, List.mem_singleton]
      constructor
      · intro h
        rcases h with h | h
        · exact Or.inr h
        · exact Or.inl h
      · intro h
        rcases h with h | h
        · exact Or.inr h
        · exact Or.inl h
    have hih := ih (W ++ [x]) hnd.2 ?_
    · have hsplit : W ++ x :: F = (W ++ [x]) ++ F := by simp
      rw [hsplit]
      simp only [List.length_cons]
      omega
    · intro y hy
      have hyF := hF y (List.mem_cons_of_mem _ hy)
      refine ⟨hyF.1, ?_⟩
      intro h
      rcases List.mem_append.mp h with h | h
      · exact hyF.2 h
      · exact hnd.1 ((List.mem_singleton.mp h) ▸ hy)

end Algorithms

namespace Algorithms

variable {V : Type} [DecidableEq V]

/-- Once the target has been discovered (parent chain `L` recorded and the
target enqueued), the `bfs_shortest_path` loop returns exactly `L`. -/
theorem bfsSpLoop_found {g : List (V × List V)} {en : V} {L : List V}
    (hL : L.length ≤ uFuel g + 1) :
    ∀ (fuel : Nat) (vis q : List V) (par : V → Option V),
    en ∈ q → q.length + countFresh (uVertices g) vis < fuel →
    PChain par en L → (∀ y ∈ L, y ∈ vis) →
    bfsSpLoop g en fuel vis q par = some L := by
  intro fuel
  induction fuel with
  | zero =>
    intro vis q par _ hm
    exact absurd hm (Nat.not_lt_zero _)
  | succ fuel ih =>
    intro vis q par henq hm hchain hLvis
    cases q with
    | nil => exact absurd henq (List.not_mem_nil en)
    | cons current rest =>
      show (if current = en then some (parentWalk (uFuel g) par current)
        else bfsSpLoop g en fuel
          (bfsSpEnq current (adjU g current) (vis, rest, par)).1
          (bfsSpEnq current (adjU g current) (vis, rest, par)).2.1
          (bfsSpEnq current (adjU g current) (vis, rest, par)).2.2) = some L
      by_cases hcur : current = en
      · rw [if_pos hcur, hcur]
        rw [parentWalk_of_chain hchain (uFuel g) hL]
      · rw [if_neg hcur]
        have henr : en ∈ rest := by
          rcases List.mem_cons.mp henq with h | h
          · exact absurd h.symm hcur
          · exact h
        obtain ⟨parF, heq, hoff, hon⟩ :=
          bfsSpEnq_spec current (adjU g current) vis rest par
        rw [heq]
        set F := freshList (adjU g current) vis with hF
        have hFprop : ∀ y ∈ F, y ∈ uVertices g ∧ y ∉ vis := by
          intro y hy
          obtain ⟨h1, h2⟩ := freshList_mem.mp hy
          exact ⟨nbr_mem_uVertices h1, h2⟩
        have hcount := countFresh_append_fresh F vis (freshList_nodup _ _) hFprop
        refine ih (vis ++ F) (rest ++ F) parF
          (List.mem_append.mpr (Or.inl henr)) ?_ ?_ ?_
        · simp only [List.length_append, List.length_cons] at hm ⊢
          omega
        · refine pchain_congr ?_ hchain
          intro y hy
          refine hoff y ?_
          intro hyF
          exact (hFprop y hyF).2 (hLvis y hy)
        · intro y hy
          exact List.mem_append.mpr (Or.inl (hLvis y hy))

end Algorithms

namespace Algorithms

variable {V : Type} [DecidableEq V]

/-- Joint simulation of the `bfs_shortest_path` and `bfs_distance` loops:
from corresponding states they either both report their no-path sentinel or
the returned path's edge count equals the returned distance. -/
theorem bfsJointLoop {g : List (V × List V)} {start en : V} :
    ∀ (fuel : Nat) (vis q : List V) (qD : List (V × Int)) (par : V → Option V),
    q = qD.map Prod.fst →
    en ∉ vis →
    (∀ y ∈ q, y ∈ vis) →
    (∀ y ∈ vis, y = start ∨ y ∈ uVertices g) →
    (∀ pr ∈ qD, 0 ≤ pr.2 ∧ ∃ L, PChain par pr.1 L ∧ L.Nodup ∧
      (∀ y ∈ L, y ∈ vis) ∧ (L.length : Int) = pr.2 + 1) →
    q.length + countFresh (uVertices g) vis < fuel →
    (bfsSpLoop g en fuel vis q par = none ∧
      bfsDistLoop g en fuel vis qD = -1) ∨
    (∃ L, bfsSpLoop g en fuel vis q par = some L ∧ 1 ≤ L.length ∧
      bfsDistLoop g en fuel vis qD = (L.length : Int) - 1) := by
  intro fuel
  induction fuel with
  | zero =>
    intro vis q qD par _ _ _ _ _ hm
    exact absurd hm (Nat.not_lt_zero _)
  | succ fuel ih =>
    intro vis q qD par hq hen hqvis hscope hqD hm
    cases qD with
    | nil =>
      have hq' : q = [] := by rw [hq]; rfl
      subst hq'
      exact Or.inl ⟨rfl, rfl⟩
    | cons pr restD =>
      rcases pr with ⟨v, d⟩
      have hq' : q = v :: restD.map Prod.fst := by rw [hq]; rfl
      subst hq'
      obtain ⟨hd0, Lv, hLv, hLvnd, hLvvis, hLvlen⟩ :=
        hqD (v, d) (List.mem_cons_self _ _)
      have hvvis : v ∈ vis := hqvis v (List.mem_cons_self _ _)
      have hvne : v ≠ en := fun h => hen (h ▸ hvvis)
      obtain ⟨parF, heq, hoff, hon⟩ :=
        bfsSpEnq_spec v (adjU g v) vis (restD.map Prod.fst) par
      set F := freshList (adjU g v) vis with hF
      have hFprop : ∀ y ∈ F, y ∈ uVertices g ∧ y ∉ vis := by
        intro y hy
        obtain ⟨h1, h2⟩ := freshList_mem.mp hy
        exact ⟨nbr_mem_uVertices h1, h2⟩
      have hFadj : ∀ y ∈ F, y ∈ adjU g v := fun y hy => (freshList_mem.mp hy).1
      have hcount := countFresh_append_fresh F vis (freshList_nodup _ _) hFprop
      have hspred : bfsSpLoop g en (fuel + 1) vis (v :: restD.map Prod.fst) par
          = bfsSpLoop g en fuel (vis ++ F) (restD.map Prod.fst ++ F) parF := by
        show (if v = en then some (parentWalk (uFuel g) par v)
          else bfsSpLoop g en fuel
            (bfsSpEnq v (adjU g v) (vis, restD.map Prod.fst, par)).1
            (bfsSpEnq v (adjU g v) (vis, restD.map Prod.fst, par)).2.1
            (bfsSpEnq v (adjU g v) (vis, restD.map Prod.fst, par)).2.2) = _
        rw [if_neg hvne, heq]
      by_cases hhit : en ∈ adjU g v
      · have henF : en ∈ F := freshList_mem.mpr ⟨hhit, hen⟩
        have hLen : PChain parF en (Lv ++ [en]) := by
          refine PChain.step (hon en henF) ?_
          refine pchain_congr ?_ hLv
          intro y hy
          refine hoff y ?_
          intro hyF
          exact (hFprop y hyF).2 (hLvvis y hy)
        have hLennd : (Lv ++ [en]).Nodup := by
          rw [List.nodup_append]
          refine ⟨hLvnd, List.nodup_singleton en, ?_⟩
          intro a ha hb
          rw [List.mem_singleton] at hb
          subst hb
          exact hen (hLvvis a ha)
        have hLenscope : ∀ y ∈ Lv ++ [en], y ∈ start :: uVertices g := by
          intro y hy
          rcases List.mem_append.mp hy with hy | hy
          · rcases hscope y (hLvvis y hy) with h | h
            · exact h ▸ List.mem_cons_self _ _
            · exact List.mem_cons_of_mem _ h
          · rw [List.mem_singleton] at hy
            rw [hy]
            exact List.mem_cons_of_mem _ (hFprop en henF).1
        have hLbound : (Lv ++ [en]).length ≤ uFuel g + 1 := by
          have := nodup_length_le hLennd hLenscope
          rw [List.length_cons] at this
          unfold uFuel
          omega
        have hsp : bfsSpLoop g en (fuel + 1) vis (v :: restD.map Prod.fst) par
            = some (Lv ++ [en]) := by
          rw [hspred]
          refine bfsSpLoop_found hLbound fuel (vis ++ F)
            (restD.map Prod.fst ++ F) parF
            (List.mem_append.mpr (Or.inr henF)) ?_ hLen ?_
          · simp only [List.length_append, List.length_cons] at hm ⊢
            omega
          · intro y hy
            rcases List.mem_append.mp hy with hy | hy
            · exact List.mem_append.mpr (Or.inl (hLvvis y hy))
            · rw [List.mem_singleton] at hy
              exact List.mem_append.mpr (Or.inr (hy ▸ henF))
        have hdist : bfsDistLoop g en (fuel + 1) vis ((v, d) :: restD)
            = d + 1 := by
          show (match bfsDistEnq en d (adjU g v) (vis, restD) with
            | Sum.inl r => r
            | Sum.inr s => bfsDistLoop g en fuel s.1 s.2) = d + 1
          rw [bfsDistEnq_hit en d (adjU g v) vis restD hhit]
        refine Or.inr ⟨Lv ++ [en], hsp, by simp, ?_⟩
        rw [hdist]
        rw [List.length_append, List.length_singleton]
        push_cast
        omega
      · have hdistred : bfsDistLoop g en (fuel + 1) vis ((v, d) :: restD)
            = bfsDistLoop g en fuel (vis ++ F)
              (restD ++ F.map (fun n => (n, d + 1))) := by
          show (match bfsDistEnq en d (adjU g v) (vis, restD) with
            | Sum.inl r => r
            | Sum.inr s => bfsDistLoop g en fuel s.1 s.2) = _
          rw [bfsDistEnq_miss en d (adjU g v) vis restD hhit]
        have hrec := ih (vis ++ F) (restD.map Prod.fst ++ F)
          (restD ++ F.map (fun n => (n, d + 1))) parF ?_ ?_ ?_ ?_ ?_ ?_
        · rw [hspred, hdistred]
          exact hrec
        · rw [List.map_append, List.map_map]
          have : (Prod.fst ∘ fun n => (n, d + 1)) = fun n : V => n := rfl
          rw [this, List.map_id']
        · intro h
          rcases List.mem_append.mp h with h | h
          · exact hen h
          · exact hhit (hFadj en h)
        · intro y hy
          rcases List.mem_append.mp hy with hy | hy
          · exact List.mem_append.mpr
              (Or.inl (hqvis y (List.mem_cons_of_mem _ hy)))
          · exact List.mem_append.mpr (Or.inr hy)
        · intro y hy
          rcases List.mem_append.mp hy with hy | hy
          · exact hscope y hy
          · exact Or.inr (hFprop y hy).1
        · intro pr hpr
          rcases List.mem_append.mp hpr with hpr | hpr
          · obtain ⟨h1, L, hL, hLnd, hLvis2, hLlen⟩ :=
              hqD pr (List.mem_cons_of_mem _ hpr)
            refine ⟨h1, L, ?_, hLnd, ?_, hLlen⟩
            · refine pchain_congr ?_ hL
              intro y hy
              refine hoff y ?_
              intro hyF
              exact (hFprop y hyF).2 (hLvis2 y hy)
            · intro y hy
              exact List.mem_append.mpr (Or.inl (hLvis2 y hy))
          · obtain ⟨n, hn, hpr'⟩ := List.mem_map.mp hpr
            subst hpr'
            refine ⟨by omega, Lv ++ [n], ?_, ?_, ?_, ?_⟩
            · refine PChain.step (hon n hn) ?_
              refine pchain_congr ?_ hLv
              intro y hy
              refine hoff y ?_
              intro hyF
              exact (hFprop y hyF).2 (hLvvis y hy)
            · rw [List.nodup_append]
              refine ⟨hLvnd, List.nodup_singleton n, ?_⟩
              intro a ha hb
              rw [List.mem_singleton] at hb
              subst hb
              exact (hFprop a hn).2 (hLvvis a ha)
            · intro y hy
              rcases List.mem_append.mp hy with hy | hy
              · exact List.mem_append.mpr (Or.inl (hLvvis y hy))
              · rw [List.mem_singleton] at hy
                exact List.mem_append.mpr (Or.inr (hy ▸ hn))
            · rw [List.length_append, List.length_singleton]
              push_cast
              omega
        · simp only [List.length_append, List.length_cons, List.length_map]
            at hm ⊢
          omega

end Algorithms

namespace Algorithms

variable {V : Type} [DecidableEq V]

/-- C7 (amended): on every graph and every `(start, end)` pair,
`bfs_shortest_path` and `bfs_distance` agree: they report their no-path
sentinels (`None` / `-1`) together, and when a path is returned its edge
count equals the returned distance.  (`bfs_bidirectional` does not agree in
general: its backward frontier follows forward edges, see the
counterexample.) -/
theorem C7_theorem (g : List (V × List V)) (s e : V) :
    (bfs_shortest_path g s e = none ↔ bfs_distance g s e = -1) ∧
    ∀ p, bfs_shortest_path g s e = some p →
      bfs_distance g s e = (p.length : Int) - 1 := by
  by_cases hse : s = e
  · have hsp : bfs_shortest_path g s e = some [s] := by
      unfold bfs_shortest_path
      rw [if_pos hse]
    have hdist : bfs_distance g s e = 0 := by
      unfold bfs_distance
      rw [if_pos hse]
    refine ⟨?_, ?_⟩
    · rw [hsp, hdist]
      constructor
      · intro h; cases h
      · intro h; cases h
    · intro p hp
      rw [hsp] at hp
      simp only [Option.some.injEq] at hp
      rw [hdist, ← hp]
      rfl
  · have hsp : bfs_shortest_path g s e =
        bfsSpLoop g e (uFuel g) [s] [s] (fun _ => none) := by
      unfold bfs_shortest_path
      rw [if_neg hse]
    have hdist : bfs_distance g s e =
        bfsDistLoop g e (uFuel g) [s] [(s, 0)] := by
      unfold bfs_distance
      rw [if_neg hse]
    have hjoint := @bfsJointLoop V _ g s e (uFuel g) [s] [s] [(s, 0)]
      (fun _ => none) rfl
      (fun h => hse (List.mem_singleton.mp h).symm)
      (fun y hy => hy)
      (fun y hy => Or.inl (List.mem_singleton.mp hy))
      ?_ ?_
    · rcases hjoint with ⟨h1, h2⟩ | ⟨L, h1, hlen, h2⟩
      · rw [hsp, hdist, h1, h2]
        refine ⟨⟨fun _ => rfl, fun _ => rfl⟩, ?_⟩
        intro p hp
        cases hp
      · rw [hsp, hdist, h1, h2]
        refine ⟨?_, ?_⟩
        · constructor
          · intro h; cases h
          · intro h
            exfalso
            omega
        · intro p hp
          simp only [Option.some.injEq] at hp
          rw [← hp]
    · intro pr hpr
      rw [List.mem_singleton] at hpr
      subst hpr
      refine ⟨le_refl 0, [s], PChain.root rfl, List.nodup_singleton s,
        fun y hy => hy, ?_⟩
      rfl
    · have := countFresh_le (uVertices g) [s]
      unfold uFuel
      simp only [List.length_singleton]
      omega

end Algorithms

namespace Algorithms

variable {V : Type} [DecidableEq V]

/-- One undirected step along an edge list of `(u, v, weight)` triples. -/
def estep (T : List (V × V × Int)) (a b : V) : Prop :=
  ∃ e ∈ T, (e.1 = a ∧ e.2.1 = b) ∨ (e.1 = b ∧ e.2.1 = a)

/-- Undirected connectivity over an edge list. -/
def EConn (T : List (V × V × Int)) : V → V → Prop :=
  Relation.ReflTransGen (estep T)

/-- One directed step along the graph's adjacency structure. -/
def adjStep (g : List (V × List (V × Int))) (a b : V) : Prop :=
  ∃ w, (b, w) ∈ adjW g a

/-- Reachability in the graph. -/
def GConn (g : List (V × List (V × Int))) : V → V → Prop :=
  Relation.ReflTransGen (adjStep g)

/-- Total weight of an edge list. -/
def twSum (T : List (V × V × Int)) : Int := (T.map (fun e => e.2.2)).sum

/-- Greedy independence: each edge joins endpoints not already connected by
the edges before it. -/
def Indep (L : List (V × V × Int)) : Prop :=
  ∀ L1 e L2, L = L1 ++ e :: L2 → ¬ EConn L1 e.1 e.2.1

/-- Number of union-find classes: distinct canonical roots over `dom`. -/
def nrootsD (dom : List V) (p : V → V) : Nat :=
  (dom.toFinset.image (rootOf dom p)).card

/-- A spanning tree of the graph: graph edges connecting the whole vertex
set, one fewer than the vertices. -/
def IsSpanTree (g : List (V × List (V × Int))) (T : List (V × V × Int)) : Prop :=
  (∀ e ∈ T, (e.2.1, e.2.2) ∈ adjW g e.1) ∧
  (∀ u ∈ wVertices g, ∀ v ∈ wVertices g, EConn T u v) ∧
  T.length + 1 = (wVertices g).length

theorem estep_symm {T : List (V × V × Int)} {a b : V} (h : estep T a b) :
    estep T b a := by
  obtain ⟨e, he, h⟩ := h
  exact ⟨e, he, h.symm⟩

theorem econn_symm {T : List (V × V × Int)} {a b : V} (h : EConn T a b) :
    EConn T b a := by
  induction h with
  | refl => exact Relation.ReflTransGen.refl
  | tail _ hstep ih =>
    exact Relation.ReflTransGen.trans
      (Relation.ReflTransGen.single (estep_symm hstep)) ih

theorem econn_mono {T T' : List (V × V × Int)} (hsub : ∀ e ∈ T, e ∈ T')
    {a b : V} (h : EConn T a b) : EConn T' a b := by
  induction h with
  | refl => exact Relation.ReflTransGen.refl
  | tail _ hstep ih =>
    obtain ⟨e, he, hor⟩ := hstep
    exact Relation.ReflTransGen.tail ih ⟨e, hsub e he, hor⟩

theorem econn_nil {a b : V} (h : EConn ([] : List (V × V × Int)) a b) :
    a = b := by
  induction h with
  | refl => rfl
  | tail _ hstep _ =>
    obtain ⟨e, he, _⟩ := hstep
    exact absurd he (List.not_mem_nil e)

theorem econn_edge {T : List (V × V × Int)} {e : V × V × Int} (he : e ∈ T) :
    EConn T e.1 e.2.1 :=
  Relation.ReflTransGen.single ⟨e, he, Or.inl ⟨rfl, rfl⟩⟩

/-- Adding one edge at the end merges exactly the two endpoint classes. -/
theorem econn_snoc {T : List (V × V × Int)} {e : V × V × Int} {x y : V} :
    EConn (T ++ [e]) x y ↔
    (EConn T x y ∨ (EConn T x e.1 ∧ EConn T e.2.1 y) ∨
      (EConn T x e.2.1 ∧ EConn T e.1 y)) := by
  constructor
  · intro h
    induction h with
    | refl => exact Or.inl Relation.ReflTransGen.refl
    | tail hxm hstep ih =>
      rename_i m w
      obtain ⟨f, hf, hor⟩ := hstep
      rcases List.mem_append.mp hf with hfT | hfe
      · have hstep' : estep T m w := ⟨f, hfT, hor⟩
        rcases ih with h1 | ⟨h1, h2⟩ | ⟨h1, h2⟩
        · exact Or.inl (Relation.ReflTransGen.tail h1 hstep')
        · exact Or.inr (Or.inl ⟨h1, Relation.ReflTransGen.tail h2 hstep'⟩)
        · exact Or.inr (Or.inr ⟨h1, Relation.ReflTransGen.tail h2 hstep'⟩)
      · rw [List.mem_singleton] at hfe
        subst hfe
        rcases hor with ⟨h1, h2⟩ | ⟨h1, h2⟩
        · subst h1; subst h2
          rcases ih with h1 | ⟨h1, _⟩ | ⟨h1, _⟩
          · exact Or.inr (Or.inl ⟨h1, Relation.ReflTransGen.refl⟩)
          · exact Or.inr (Or.inl ⟨h1, Relation.ReflTransGen.refl⟩)
          · exact Or.inl h1
        · subst h1; subst h2
          rcases ih with h1 | ⟨h1, _⟩ | ⟨h1, _⟩
          · exact Or.inr (Or.inr ⟨h1, Relation.ReflTransGen.refl⟩)
          · exact Or.inl h1
          · exact Or.inr (Or.inr ⟨h1, Relation.ReflTransGen.refl⟩)
  · intro h
    have hsub : ∀ f ∈ T, f ∈ T ++ [e] := fun f hf => List.mem_append.mpr (Or.inl hf)
    have hnew : EConn (T ++ [e]) e.1 e.2.1 :=
      econn_edge (List.mem_append.mpr (Or.inr (List.mem_singleton.mpr rfl)))
    rcases h with h1 | ⟨h1, h2⟩ | ⟨h1, h2⟩
    · exact econn_mono hsub h1
    · exact Relation.ReflTransGen.trans (econn_mono hsub h1)
        (Relation.ReflTransGen.trans hnew (econn_mono hsub h2))
    · exact Relation.ReflTransGen.trans (econn_mono hsub h1)
        (Relation.ReflTransGen.trans (econn_symm hnew) (econn_mono hsub h2))

theorem twSum_snoc (T : List (V × V × Int)) (e : V × V × Int) :
    twSum (T ++ [e]) = twSum T + e.2.2 := by
  unfold twSum
  rw [List.map_append, List.sum_append]
  simp

/-- A list made of a greedy prefix plus one edge joining fresh components
is again greedy. -/
theorem indep_snoc {L : List (V × V × Int)} {e : V × V × Int}
    (h : Indep L) (hnc : ¬ EConn L e.1 e.2.1) : Indep (L ++ [e]) := by
  intro L1 f L2 hsplit
  rcases List.eq_nil_or_concat L2 with rfl | ⟨L2', x, rfl⟩
  · have hsplit' : L ++ [e] = L1 ++ [f] := by simpa using hsplit
    obtain ⟨h1, h2⟩ := List.append_inj' hsplit' rfl
    have hfe : e = f := by simpa using h2
    rw [← h1, ← hfe]
    exact hnc
  · have hsplit' : L ++ [e] = (L1 ++ f :: L2') ++ [x] := by simp [hsplit]
    obtain ⟨h1, _⟩ := List.append_inj' hsplit' rfl
    exact h L1 f L2' h1

theorem indep_nil : Indep ([] : List (V × V × Int)) := by
  intro L1 e L2 h
  cases L1 with
  | nil => cases h
  | cons a t => cases h

/-- A sublist decomposes against a middle element of its super-list. -/
theorem sublist_split {e : V × V × Int} :
    ∀ {S1 S2 T : List (V × V × Int)}, List.Sublist (S1 ++ e :: S2) T →
    ∃ T1 T2, T = T1 ++ e :: T2 ∧ List.Sublist S1 T1 ∧ List.Sublist S2 T2 := by
  intro S1 S2 T
  induction T generalizing S1 with
  | nil =>
    intro h
    have := h.length_le
    simp at this
  | cons t T ih =>
    intro h
    cases S1 with
    | nil =>
      rw [List.nil_append] at h
      cases h with
      | cons _ h' =>
        obtain ⟨T1, T2, hT, _, hS2⟩ := @ih [] h'
        exact ⟨t :: T1, T2, by rw [hT]; rfl, List.nil_sublist _, hS2⟩
      | cons₂ _ h' =>
        exact ⟨[], T, rfl, List.Sublist.refl _, h'⟩
    | cons s S1' =>
      rw [List.cons_append] at h
      cases h with
      | cons _ h' =>
        obtain ⟨T1, T2, hT, hS1, hS2⟩ := @ih (s :: S1') h'
        exact ⟨t :: T1, T2, by rw [hT]; rfl, List.Sublist.cons _ hS1, hS2⟩
      | cons₂ _ h' =>
        obtain ⟨T1, T2, hT, hS1, hS2⟩ := @ih S1' h'
        exact ⟨t :: T1, T2, by rw [hT]; rfl, List.Sublist.cons₂ _ hS1, hS2⟩

theorem econn_sublist {S T : List (V × V × Int)} (h : List.Sublist S T) {a b : V}
    (hc : EConn S a b) : EConn T a b :=
  econn_mono (fun e he => h.mem he) hc

theorem indep_sublist {S T : List (V × V × Int)} (h : List.Sublist S T)
    (hT : Indep T) : Indep S := by
  intro S1 e S2 hsplit
  subst hsplit
  obtain ⟨T1, T2, hT12, hS1, _⟩ := sublist_split h
  intro hc
  exact hT T1 e T2 hT12 (econn_sublist hS1 hc)

end Algorithms

namespace Algorithms

variable {V : Type} [DecidableEq V]

theorem pIter_id (k : Nat) (v : V) : pIter (fun x => x) k v = v := by
  induction k with
  | zero => rfl
  | succ k ih => rw [pIter, ih]

theorem nroots_init (dom : List V) (hnd : dom.Nodup) :
    nrootsD dom (fun v => v) = dom.length := by
  unfold nrootsD
  have himg : dom.toFinset.image (rootOf dom (fun v => v)) = dom.toFinset := by
    ext y
    constructor
    · intro hy
      obtain ⟨x, hx, hxy⟩ := Finset.mem_image.mp hy
      rw [show rootOf dom (fun v => v) x = x from pIter_id _ _] at hxy
      rw [← hxy]
      exact hx
    · intro hy
      refine Finset.mem_image.mpr ⟨y, hy, ?_⟩
      exact pIter_id _ _
  rw [himg, List.toFinset_card_of_nodup hnd]

theorem nroots_eq_of_agree {dom : List V} {p p' : V → V}
    (h : ∀ x ∈ dom, rootOf dom p' x = rootOf dom p x) :
    nrootsD dom p' = nrootsD dom p := by
  unfold nrootsD
  congr 1
  refine Finset.image_congr ?_
  intro x hx
  exact h x (List.mem_toFinset.mp hx)

theorem nroots_link {dom : List V} {p p' : V → V} {rA rB : V}
    (ha : rA ∈ dom.toFinset.image (rootOf dom p))
    (hb : rB ∈ dom.toFinset.image (rootOf dom p)) (hne : rA ≠ rB)
    (hch : ∀ x ∈ dom, rootOf dom p' x =
      if rootOf dom p x = rA then rB else rootOf dom p x) :
    nrootsD dom p' + 1 = nrootsD dom p := by
  unfold nrootsD
  have himg : dom.toFinset.image (rootOf dom p') =
      (dom.toFinset.image (rootOf dom p)).erase rA := by
    ext y
    constructor
    · intro hy
      obtain ⟨x, hx, hxy⟩ := Finset.mem_image.mp hy
      rw [hch x (List.mem_toFinset.mp hx)] at hxy
      by_cases hc : rootOf dom p x = rA
      · rw [if_pos hc] at hxy
        subst hxy
        exact Finset.mem_erase.mpr ⟨Ne.symm hne, hb⟩
      · rw [if_neg hc] at hxy
        subst hxy
        exact Finset.mem_erase.mpr ⟨hc, Finset.mem_image.mpr ⟨x, hx, rfl⟩⟩
    · intro hy
      obtain ⟨hyne, hy'⟩ := Finset.mem_erase.mp hy
      obtain ⟨x, hx, hxy⟩ := Finset.mem_image.mp hy'
      refine Finset.mem_image.mpr ⟨x, hx, ?_⟩
      rw [hch x (List.mem_toFinset.mp hx)]
      have hne2 : rootOf dom p x ≠ rA := fun h => hyne (by rw [← hxy, h])
      rw [if_neg hne2]
      exact hxy
  rw [himg, Finset.card_erase_of_mem ha]
  have hpos : 0 < (dom.toFinset.image (rootOf dom p)).card :=
    Finset.card_pos.mpr ⟨rA, ha⟩
  omega

theorem nroots_le_of_refine {dom : List V} {pA pB : V → V}
    (hA : UFInv dom pA) (hB : UFInv dom pB)
    (href : ∀ x ∈ dom, ∀ y ∈ dom,
      rootOf dom pB x = rootOf dom pB y → rootOf dom pA x = rootOf dom pA y) :
    nrootsD dom pA ≤ nrootsD dom pB := by
  unfold nrootsD
  have hkey : ∀ x ∈ dom, rootOf dom pA (rootOf dom pB x) = rootOf dom pA x := by
    intro x hx
    have hmem : rootOf dom pB x ∈ dom := pIter_mem hB.1 hx _
    exact href (rootOf dom pB x) hmem x hx (rootOf_root hB.2 hx)
  have himg : dom.toFinset.image (rootOf dom pA) =
      (dom.toFinset.image (rootOf dom pB)).image (rootOf dom pA) := by
    rw [Finset.image_image]
    refine Finset.image_congr ?_
    intro x hx
    exact (hkey x (List.mem_toFinset.mp hx)).symm
  rw [himg]
  exact Finset.card_image_le

theorem nroots_one_of_conn {dom : List V} {p : V → V} (hne : dom ≠ [])
    (h : ∀ x ∈ dom, ∀ y ∈ dom, rootOf dom p x = rootOf dom p y) :
    nrootsD dom p = 1 := by
  obtain ⟨v0, hv0⟩ := List.exists_mem_of_ne_nil dom hne
  unfold nrootsD
  have himg : dom.toFinset.image (rootOf dom p) = {rootOf dom p v0} := by
    ext y
    constructor
    · intro hy
      obtain ⟨x, hx, hxy⟩ := Finset.mem_image.mp hy
      rw [Finset.mem_singleton, ← hxy]
      exact h x (List.mem_toFinset.mp hx) v0 hv0
    · intro hy
      rw [Finset.mem_singleton] at hy
      exact Finset.mem_image.mpr ⟨v0, List.mem_toFinset.mpr hv0, hy.symm⟩
  rw [himg, Finset.card_singleton]

theorem conn_of_nroots_one {dom : List V} {p : V → V}
    (h : nrootsD dom p = 1) :
    ∀ x ∈ dom, ∀ y ∈ dom, rootOf dom p x = rootOf dom p y := by
  intro x hx y hy
  have h1 : rootOf dom p x ∈ dom.toFinset.image (rootOf dom p) :=
    Finset.mem_image.mpr ⟨x, List.mem_toFinset.mpr hx, rfl⟩
  have h2 : rootOf dom p y ∈ dom.toFinset.image (rootOf dom p) :=
    Finset.mem_image.mpr ⟨y, List.mem_toFinset.mpr hy, rfl⟩
  exact Finset.card_le_one.mp (le_of_eq h) _ h1 _ h2

end Algorithms

namespace Algorithms

variable {V : Type} [DecidableEq V]

/-- Full root-map specification of `union`: well-formedness is preserved;
`False` is returned exactly when the canonical roots already agree, and then
every canonical root is unchanged; on `True`, the two classes are merged and
the new root map is the old one with one root redirected onto the other. -/
theorem ufUnion_full {dom : List V} {u : UF V} {a b : V} {fuel : Nat}
    (hnd : dom.Nodup) (hinv : UFInv dom u.parent) (ha : a ∈ dom)
    (hb : b ∈ dom) (hf : dom.length ≤ fuel) :
    UFInv dom (ufUnion fuel u a b).2.parent ∧
    ((ufUnion fuel u a b).1 = false ↔
      rootOf dom u.parent a = rootOf dom u.parent b) ∧
    ((ufUnion fuel u a b).1 = false →
      ∀ x ∈ dom, rootOf dom (ufUnion fuel u a b).2.parent x =
        rootOf dom u.parent x) ∧
    ((ufUnion fuel u a b).1 = true →
      ∃ rA rB, rA ≠ rB ∧
        ((rA = rootOf dom u.parent a ∧ rB = rootOf dom u.parent b) ∨
         (rA = rootOf dom u.parent b ∧ rB = rootOf dom u.parent a)) ∧
        ∀ x ∈ dom, rootOf dom (ufUnion fuel u a b).2.parent x =
          (if rootOf dom u.parent x = rA then rB
           else rootOf dom u.parent x)) := by
  classical
  obtain ⟨hfa1, hfa2, hfa3⟩ := ufFind_full (p := u.parent) hinv ha hf
  set p1 := (ufFind fuel u.parent a).2 with hp1
  obtain ⟨hfb1, hfb2, hfb3⟩ := ufFind_full (p := p1) hfa2 hb hf
  set p2 := (ufFind fuel p1 b).2 with hp2
  set r1 := (ufFind fuel u.parent a).1 with hr1
  set r2 := (ufFind fuel p1 b).1 with hr2
  have hr1v : r1 = rootOf dom u.parent a := hfa1
  have hr2v : r2 = rootOf dom u.parent b := by
    rw [hfb1]
    exact hfa3 b hb
  have hp2roots : ∀ x ∈ dom, rootOf dom p2 x = rootOf dom u.parent x := by
    intro x hx
    rw [hfb3 x hx, hfa3 x hx]
  have hroot2a : rootOf dom p2 a = r1 := by
    rw [hp2roots a ha, hr1v]
  have hroot2b : rootOf dom p2 b = r2 := by
    rw [hp2roots b hb, hr2v]
  have hr1fix : p2 r1 = r1 := by
    rw [← hroot2a]
    exact rootOf_fix hfb2.2 ha
  have hr2fix : p2 r2 = r2 := by
    rw [← hroot2b]
    exact rootOf_fix hfb2.2 hb
  have hr1mem : r1 ∈ dom := by
    rw [← hroot2a]
    exact pIter_mem hfb2.1 ha _
  have hr2mem : r2 ∈ dom := by
    rw [← hroot2b]
    exact pIter_mem hfb2.1 hb _
  by_cases heq : r1 = r2
  · have hval : ufUnion fuel u a b = (false, ⟨p2, u.rank⟩) := by
      simp only [ufUnion, ← hp1, ← hp2, ← hr1, ← hr2, if_pos heq]
    rw [hval]
    refine ⟨hfb2, ⟨fun _ => by rw [← hr1v, ← hr2v, heq], fun _ => rfl⟩,
      fun _ => hp2roots, fun h => absurd h (by simp)⟩
  · have hroots_ne : rootOf dom u.parent a ≠ rootOf dom u.parent b := by
      rw [← hr1v, ← hr2v]; exact heq
    have hlink := link_spec (p := p2) hnd hfb2.1 hfb2.2 hr1fix hr2fix heq hr2mem
    have hlink' := link_spec (p := p2) hnd hfb2.1 hfb2.2 hr2fix hr1fix
      (Ne.symm heq) hr1mem
    by_cases hrank : u.rank r1 < u.rank r2
    · have hval : ufUnion fuel u a b =
          (true, ⟨fun x => if x = r1 then r2 else p2 x, u.rank⟩) := by
        simp only [ufUnion, ← hp1, ← hp2, ← hr1, ← hr2, if_neg heq, if_pos hrank]
      rw [hval]
      obtain ⟨hinv', hroots'⟩ := hlink
      refine ⟨hinv', ⟨fun h => by simp at h, fun h => absurd h hroots_ne⟩,
        fun h => by simp at h, fun _ => ?_⟩
      refine ⟨r1, r2, heq, Or.inl ⟨hr1v, hr2v⟩, fun x hx => ?_⟩
      show rootOf dom (fun x => if x = r1 then r2 else p2 x) x =
        (if rootOf dom u.parent x = r1 then r2 else rootOf dom u.parent x)
      rw [hroots' x hx, hp2roots x hx]
    · by_cases hrank2 : u.rank r2 < u.rank r1
      · have hval : ufUnion fuel u a b =
            (true, ⟨fun x => if x = r2 then r1 else p2 x, u.rank⟩) := by
          simp only [ufUnion, ← hp1, ← hp2, ← hr1, ← hr2, if_neg heq,
            if_neg hrank, if_pos hrank2]
        rw [hval]
        obtain ⟨hinv', hroots'⟩ := hlink'
        refine ⟨hinv', ⟨fun h => by simp at h, fun h => absurd h hroots_ne⟩,
          fun h => by simp at h, fun _ => ?_⟩
        refine ⟨r2, r1, Ne.symm heq, Or.inr ⟨hr2v, hr1v⟩, fun x hx => ?_⟩
        show rootOf dom (fun x => if x = r2 then r1 else p2 x) x =
          (if rootOf dom u.parent x = r2 then r1 else rootOf dom u.parent x)
        rw [hroots' x hx, hp2roots x hx]
      · have hval : ufUnion fuel u a b =
            (true, ⟨fun x => if x = r2 then r1 else p2 x,
              fun x => if x = r1 then u.rank r1 + 1 else u.rank x⟩) := by
          simp only [ufUnion, ← hp1, ← hp2, ← hr1, ← hr2, if_neg heq,
            if_neg hrank, if_neg hrank2]
        rw [hval]
        obtain ⟨hinv', hroots'⟩ := hlink'
        refine ⟨hinv', ⟨fun h => by simp at h, fun h => absurd h hroots_ne⟩,
          fun h => by simp at h, fun _ => ?_⟩
        refine ⟨r2, r1, Ne.symm heq, Or.inr ⟨hr2v, hr1v⟩, fun x hx => ?_⟩
        show rootOf dom (fun x => if x = r2 then r1 else p2 x) x =
          (if rootOf dom u.parent x = r2 then r1 else rootOf dom u.parent x)
        rw [hroots' x hx, hp2roots x hx]

end Algorithms

namespace Algorithms

variable {V : Type} [DecidableEq V]

/-- Redirecting one value onto another identifies exactly the expected pairs. -/
theorem swap_eq_iff {rA rB rx ry : V} :
    ((if rx = rA then rB else rx) = (if ry = rA then rB else ry)) ↔
    (rx = ry ∨ (rx = rA ∧ ry = rB) ∨ (rx = rB ∧ ry = rA)) := by
  by_cases hx : rx = rA <;> by_cases hy : ry = rA
  · rw [if_pos hx, if_pos hy]
    simp [hx, hy]
  · rw [if_pos hx, if_neg hy]
    constructor
    · intro h
      exact Or.inr (Or.inl ⟨hx, h.symm⟩)
    · rintro (h | ⟨h1, h2⟩ | ⟨h1, h2⟩)
      · exact absurd (h ▸ hx) hy
      · exact h2.symm
      · exact absurd h2 hy
  · rw [if_neg hx, if_pos hy]
    constructor
    · intro h
      exact Or.inr (Or.inr ⟨h, hy⟩)
    · rintro (h | ⟨h1, h2⟩ | ⟨h1, h2⟩)
      · exact absurd (h.symm ▸ hy) hx
      · exact absurd h1 hx
      · exact h1
  · rw [if_neg hx, if_neg hy]
    constructor
    · intro h
      exact Or.inl h
    · rintro (h | ⟨h1, h2⟩ | ⟨h1, h2⟩)
      · exact h
      · exact absurd h1 hx
      · exact absurd h2 hy

/-- Appending an edge whose endpoints are already connected does not change
connectivity. -/
theorem econn_snoc_redundant {T : List (V × V × Int)} {e : V × V × Int}
    (hc : EConn T e.1 e.2.1) {x y : V} :
    EConn (T ++ [e]) x y ↔ EConn T x y := by
  rw [econn_snoc]
  constructor
  · rintro (h | ⟨h1, h2⟩ | ⟨h1, h2⟩)
    · exact h
    · exact Relation.ReflTransGen.trans h1 (Relation.ReflTransGen.trans hc h2)
    · exact Relation.ReflTransGen.trans h1
        (Relation.ReflTransGen.trans (econn_symm hc) h2)
  · exact Or.inl

/-- After a successful union of the endpoint classes of `e`, root equality
describes connectivity with `e` appended. -/
theorem step_equiv_accept {dom : List V} {p p' : V → V}
    {mst : List (V × V × Int)} {e : V × V × Int} {rA rB : V}
    (he1 : e.1 ∈ dom) (he2 : e.2.1 ∈ dom)
    (hequiv : ∀ x ∈ dom, ∀ y ∈ dom,
      (rootOf dom p x = rootOf dom p y ↔ EConn mst x y))
    (hAB : (rA = rootOf dom p e.1 ∧ rB = rootOf dom p e.2.1) ∨
           (rA = rootOf dom p e.2.1 ∧ rB = rootOf dom p e.1))
    (hch : ∀ x ∈ dom, rootOf dom p' x =
      (if rootOf dom p x = rA then rB else rootOf dom p x)) :
    ∀ x ∈ dom, ∀ y ∈ dom,
      (rootOf dom p' x = rootOf dom p' y ↔ EConn (mst ++ [e]) x y) := by
  intro x hx y hy
  rw [hch x hx, hch y hy, swap_eq_iff, econn_snoc]
  have h1 : (rootOf dom p x = rootOf dom p y) ↔ EConn mst x y :=
    hequiv x hx y hy
  have hxe1 : (rootOf dom p x = rootOf dom p e.1) ↔ EConn mst x e.1 :=
    hequiv x hx e.1 he1
  have hxe2 : (rootOf dom p x = rootOf dom p e.2.1) ↔ EConn mst x e.2.1 :=
    hequiv x hx e.2.1 he2
  have he1y : (rootOf dom p e.1 = rootOf dom p y) ↔ EConn mst e.1 y :=
    hequiv e.1 he1 y hy
  have he2y : (rootOf dom p e.2.1 = rootOf dom p y) ↔ EConn mst e.2.1 y :=
    hequiv e.2.1 he2 y hy
  rcases hAB with ⟨hA, hB⟩ | ⟨hA, hB⟩
  · subst hA; subst hB
    constructor
    · rintro (h | ⟨ha, hb⟩ | ⟨ha, hb⟩)
      · exact Or.inl (h1.mp h)
      · exact Or.inr (Or.inl ⟨hxe1.mp ha, he2y.mp (Eq.symm hb)⟩)
      · exact Or.inr (Or.inr ⟨hxe2.mp ha, he1y.mp (Eq.symm hb)⟩)
    · rintro (h | ⟨ha, hb⟩ | ⟨ha, hb⟩)
      · exact Or.inl (h1.mpr h)
      · exact Or.inr (Or.inl ⟨hxe1.mpr ha, Eq.symm (he2y.mpr hb)⟩)
      · exact Or.inr (Or.inr ⟨hxe2.mpr ha, Eq.symm (he1y.mpr hb)⟩)
  · subst hA; subst hB
    constructor
    · rintro (h | ⟨ha, hb⟩ | ⟨ha, hb⟩)
      · exact Or.inl (h1.mp h)
      · exact Or.inr (Or.inr ⟨hxe2.mp ha, he1y.mp (Eq.symm hb)⟩)
      · exact Or.inr (Or.inl ⟨hxe1.mp ha, he2y.mp (Eq.symm hb)⟩)
    · rintro (h | ⟨ha, hb⟩ | ⟨ha, hb⟩)
      · exact Or.inl (h1.mpr h)
      · exact Or.inr (Or.inr ⟨hxe1.mpr ha, Eq.symm (he2y.mpr hb)⟩)
      · exact Or.inr (Or.inl ⟨hxe2.mpr ha, Eq.symm (he1y.mpr hb)⟩)

end Algorithms

namespace Algorithms

variable {V : Type} [DecidableEq V]

/-- Replaying a list of edges through `union`, keeping only the structure. -/
def ufReplay (fuel : Nat) : List (V × V × Int) → UF V → UF V
  | [], u => u
  | e :: es, u => ufReplay fuel es (ufUnion fuel u e.1 e.2.1).2

/-- Replaying edges through `union` tracks connectivity exactly: the final
root map identifies two vertices exactly when the replayed edges (on top of
the already-encoded ones) connect them, each edge lowers the class count by
at most one, and the count drops by exactly the number of edges precisely
when every edge joined two previously separate classes. -/
theorem ufReplay_spec {dom : List V} (hnd : dom.Nodup) {fuel : Nat}
    (hf : dom.length ≤ fuel) :
    ∀ (X F : List (V × V × Int)) (u : UF V),
    UFInv dom u.parent →
    (∀ e ∈ X, e.1 ∈ dom ∧ e.2.1 ∈ dom) →
    (∀ x ∈ dom, ∀ y ∈ dom,
      (rootOf dom u.parent x = rootOf dom u.parent y ↔ EConn F x y)) →
    UFInv dom (ufReplay fuel X u).parent ∧
    (∀ x ∈ dom, ∀ y ∈ dom,
      (rootOf dom (ufReplay fuel X u).parent x =
        rootOf dom (ufReplay fuel X u).parent y ↔ EConn (F ++ X) x y)) ∧
    nrootsD dom u.parent ≤ nrootsD dom (ufReplay fuel X u).parent + X.length ∧
    (nrootsD dom u.parent =
        nrootsD dom (ufReplay fuel X u).parent + X.length →
      ∀ X1 e X2, X = X1 ++ e :: X2 → ¬ EConn (F ++ X1) e.1 e.2.1) ∧
    ((∀ X1 e X2, X = X1 ++ e :: X2 → ¬ EConn (F ++ X1) e.1 e.2.1) →
      nrootsD dom u.parent =
        nrootsD dom (ufReplay fuel X u).parent + X.length) := by
  intro X
  induction X with
  | nil =>
    intro F u hinv _ hequiv
    refine ⟨hinv, ?_, by simp [ufReplay], ?_, by simp [ufReplay]⟩
    · intro x hx y hy
      rw [List.append_nil]
      exact hequiv x hx y hy
    · intro _ X1 e X2 h
      exact absurd h.symm (by simp)
  | cons e X' ih =>
    intro F u hinv hends hequiv
    have he1 : e.1 ∈ dom := (hends e (List.mem_cons_self _ _)).1
    have he2 : e.2.1 ∈ dom := (hends e (List.mem_cons_self _ _)).2
    have hends' : ∀ f ∈ X', f.1 ∈ dom ∧ f.2.1 ∈ dom :=
      fun f hf' => hends f (List.mem_cons_of_mem _ hf')
    obtain ⟨hinv1, hiff, hfalse, htrue⟩ := ufUnion_full hnd hinv he1 he2 hf
    have hshow : ufReplay fuel (e :: X') u =
        ufReplay fuel X' (ufUnion fuel u e.1 e.2.1).2 := rfl
    rw [hshow]
    have hassoc : (F ++ [e]) ++ X' = F ++ e :: X' := by simp
    rcases hflag : (ufUnion fuel u e.1 e.2.1).1 with _ | _
    · -- the edge joined two already-identified classes
      have hpres := hfalse hflag
      have hconnF : EConn F e.1 e.2.1 :=
        (hequiv e.1 he1 e.2.1 he2).mp (hiff.mp hflag)
      have hequiv1 : ∀ x ∈ dom, ∀ y ∈ dom,
          (rootOf dom (ufUnion fuel u e.1 e.2.1).2.parent x =
            rootOf dom (ufUnion fuel u e.1 e.2.1).2.parent y ↔
            EConn (F ++ [e]) x y) := by
        intro x hx y hy
        rw [hpres x hx, hpres y hy, econn_snoc_redundant hconnF]
        exact hequiv x hx y hy
      obtain ⟨ha, hb, hc, _, _⟩ :=
        ih (F ++ [e]) (ufUnion fuel u e.1 e.2.1).2 hinv1 hends' hequiv1
      have hnr : nrootsD dom (ufUnion fuel u e.1 e.2.1).2.parent =
          nrootsD dom u.parent := nroots_eq_of_agree hpres
      refine ⟨ha, ?_, ?_, ?_, ?_⟩
      · intro x hx y hy
        rw [← hassoc]
        exact hb x hx y hy
      · rw [← hnr]
        simp only [List.length_cons]
        omega
      · intro heqn X1 f X2 _
        exfalso
        simp only [List.length_cons] at heqn
        omega
      · intro hsp
        exfalso
        have := hsp [] e X' rfl
        rw [List.append_nil] at this
        exact this hconnF
    · -- a genuine merge of two classes
      obtain ⟨rA, rB, hne, hAB, hch⟩ := htrue hflag
      have hequiv1 := step_equiv_accept he1 he2 hequiv hAB hch
      have hAmem : rA ∈ dom.toFinset.image (rootOf dom u.parent) := by
        rcases hAB with ⟨hA, _⟩ | ⟨hA, _⟩
        · exact Finset.mem_image.mpr ⟨e.1, List.mem_toFinset.mpr he1, hA.symm⟩
        · exact Finset.mem_image.mpr ⟨e.2.1, List.mem_toFinset.mpr he2, hA.symm⟩
      have hBmem : rB ∈ dom.toFinset.image (rootOf dom u.parent) := by
        rcases hAB with ⟨_, hB⟩ | ⟨_, hB⟩
        · exact Finset.mem_image.mpr ⟨e.2.1, List.mem_toFinset.mpr he2, hB.symm⟩
        · exact Finset.mem_image.mpr ⟨e.1, List.mem_toFinset.mpr he1, hB.symm⟩
      have hlink : nrootsD dom (ufUnion fuel u e.1 e.2.1).2.parent + 1 =
          nrootsD dom u.parent := nroots_link hAmem hBmem hne hch
      have hrne : rootOf dom u.parent e.1 ≠ rootOf dom u.parent e.2.1 := by
        intro h
        have := hiff.mpr h
        rw [hflag] at this
        cases this
      have hnc : ¬ EConn F e.1 e.2.1 := fun h =>
        hrne ((hequiv e.1 he1 e.2.1 he2).mpr h)
      obtain ⟨ha, hb, hc, hd, he'⟩ :=
        ih (F ++ [e]) (ufUnion fuel u e.1 e.2.1).2 hinv1 hends' hequiv1
      refine ⟨ha, ?_, ?_, ?_, ?_⟩
      · intro x hx y hy
        rw [← hassoc]
        exact hb x hx y hy
      · simp only [List.length_cons]
        omega
      · intro heqn X1 f X2 hsplit
        cases X1 with
        | nil =>
          rw [List.nil_append] at hsplit
          injection hsplit with hfe _
          rw [List.append_nil, ← hfe]
          exact hnc
        | cons e' X1' =>
          rw [List.cons_append] at hsplit
          injection hsplit with hee' hX'
          have heq1 : nrootsD dom (ufUnion fuel u e.1 e.2.1).2.parent =
              nrootsD dom
                (ufReplay fuel X' (ufUnion fuel u e.1 e.2.1).2).parent +
                X'.length := by
            simp only [List.length_cons] at heqn
            omega
          have hrest := hd heq1 X1' f X2 hX'
          have h2 : (F ++ [e]) ++ X1' = F ++ e :: X1' := by simp
          rw [h2] at hrest
          rw [← hee']
          exact hrest
      · intro hsp
        have hsp' : ∀ X1 f X2, X' = X1 ++ f :: X2 →
            ¬ EConn ((F ++ [e]) ++ X1) f.1 f.2.1 := by
          intro X1 f X2 hX'
          have h2 : (F ++ [e]) ++ X1 = F ++ e :: X1 := by simp
          rw [h2]
          exact hsp (e :: X1) f X2 (by rw [hX']; rfl)
        have := he' hsp'
        simp only [List.length_cons]
        omega

end Algorithms

namespace Algorithms

variable {V : Type} [DecidableEq V]

/-- Non-decreasing weights along an edge list. -/
def WSorted (l : List (V × V × Int)) : Prop :=
  List.Pairwise (fun a b => a.2.2 ≤ b.2.2) l

theorem sortedInsertW_perm (e : V × V × Int) :
    ∀ l : List (V × V × Int), List.Perm (sortedInsertW e l) (e :: l) := by
  intro l
  induction l with
  | nil => exact List.Perm.refl _
  | cons x xs ih =>
    rw [sortedInsertW]
    by_cases h : e.2.2 < x.2.2
    · rw [if_pos h]
    · rw [if_neg h]
      exact List.Perm.trans (List.Perm.cons x ih) (List.Perm.swap e x xs)

theorem mem_sortedInsertW {e f : V × V × Int} {l : List (V × V × Int)} :
    f ∈ sortedInsertW e l ↔ f = e ∨ f ∈ l := by
  rw [(sortedInsertW_perm e l).mem_iff, List.mem_cons]

theorem sortedInsertW_sorted {e : V × V × Int} :
    ∀ {l : List (V × V × Int)}, WSorted l → WSorted (sortedInsertW e l) := by
  intro l
  induction l with
  | nil =>
    intro _
    exact List.pairwise_singleton _ _
  | cons x xs ih =>
    intro hs
    unfold WSorted at hs ⊢
    rw [List.pairwise_cons] at hs
    rw [sortedInsertW]
    by_cases h : e.2.2 < x.2.2
    · rw [if_pos h]
      refine List.Pairwise.cons ?_ (List.Pairwise.cons hs.1 hs.2)
      intro b hb
      rcases List.mem_cons.mp hb with rfl | hb'
      · exact le_of_lt h
      · exact le_trans (le_of_lt h) (hs.1 b hb')
    · rw [if_neg h]
      refine List.Pairwise.cons ?_ (ih hs.2)
      intro b hb
      rcases mem_sortedInsertW.mp hb with rfl | hb'
      · exact le_of_not_lt h
      · exact hs.1 b hb'

theorem sortByWeight_perm (l : List (V × V × Int)) :
    List.Perm (sortByWeight l) l := by
  unfold sortByWeight
  suffices h : ∀ (l acc : List (V × V × Int)),
      List.Perm (l.foldl (fun acc e => sortedInsertW e acc) acc) (l ++ acc) by
    have := h l []
    rw [List.append_nil] at this
    exact this
  intro l
  induction l with
  | nil => intro acc; exact List.Perm.refl _
  | cons e l' ih =>
    intro acc
    rw [List.foldl_cons]
    refine List.Perm.trans (ih (sortedInsertW e acc)) ?_
    refine List.Perm.trans (List.Perm.append_left l' (sortedInsertW_perm e acc)) ?_
    rw [List.cons_append]
    exact List.perm_middle

theorem sortByWeight_sorted (l : List (V × V × Int)) :
    WSorted (sortByWeight l) := by
  unfold sortByWeight
  suffices h : ∀ (l acc : List (V × V × Int)), WSorted acc →
      WSorted (l.foldl (fun acc e => sortedInsertW e acc) acc) from
    h l [] List.Pairwise.nil
  intro l
  induction l with
  | nil => intro acc h; exact h
  | cons e l' ih =>
    intro acc h
    rw [List.foldl_cons]
    exact ih _ (sortedInsertW_sorted h)

end Algorithms

namespace Algorithms

variable {V : Type} [DecidableEq V]

theorem kc_snd_inner (v : V) :
    ∀ (ns : List (V × Int)) (acc : List (V × V × Int) × List V),
    (ns.foldl (fun acc q =>
        ((if (q.1, v, q.2) ∈ acc.1 then acc.1 else acc.1 ++ [(v, q.1, q.2)]),
         insertNew acc.2 q.1)) acc).2 =
      ns.foldl (fun a q => insertNew a q.1) acc.2 := by
  intro ns
  induction ns with
  | nil => intro acc; rfl
  | cons q ns' ih =>
    intro acc
    rw [List.foldl_cons, List.foldl_cons]
    exact ih _

/-- The vertex set accumulated by the edge-collection pass is exactly the
usual key-plus-neighbour vertex list. -/
theorem kruskalCollect_snd (g : List (V × List (V × Int))) :
    (kruskalCollect g).2 = wVertices g := by
  unfold kruskalCollect wVertices
  suffices h : ∀ (l : List (V × List (V × Int)))
      (acc : List (V × V × Int) × List V),
      (l.foldl (fun acc p => p.2.foldl (fun acc q =>
          ((if (q.1, p.1, q.2) ∈ acc.1 then acc.1
            else acc.1 ++ [(p.1, q.1, q.2)]),
           insertNew acc.2 q.1)) acc) acc).2 =
        l.foldl (fun a p => p.2.foldl (fun a q => insertNew a q.1) a) acc.2 by
    exact h g _
  intro l
  induction l with
  | nil => intro acc; rfl
  | cons p l' ih =>
    intro acc
    rw [List.foldl_cons, List.foldl_cons, ih, kc_snd_inner p.1 p.2 acc]

theorem kc_inner_valid {g : List (V × List (V × Int))} {v : V} :
    ∀ (ns : List (V × Int)) (acc : List (V × V × Int) × List V),
    (∀ q ∈ ns, q ∈ adjW g v) →
    (∀ e ∈ acc.1, (e.2.1, e.2.2) ∈ adjW g e.1) →
    ∀ e ∈ (ns.foldl (fun acc q =>
        ((if (q.1, v, q.2) ∈ acc.1 then acc.1 else acc.1 ++ [(v, q.1, q.2)]),
         insertNew acc.2 q.1)) acc).1,
      (e.2.1, e.2.2) ∈ adjW g e.1 := by
  intro ns
  induction ns with
  | nil => intro acc _ hP; exact hP
  | cons q ns' ih =>
    intro acc hsub hP
    rw [List.foldl_cons]
    refine ih _ (fun q' hq' => hsub q' (List.mem_cons_of_mem _ hq')) ?_
    intro e he
    by_cases hc : (q.1, v, q.2) ∈ acc.1
    · rw [if_pos hc] at he
      exact hP e he
    · rw [if_neg hc] at he
      rcases List.mem_append.mp he with he' | he'
      · exact hP e he'
      · have : e = (v, q.1, q.2) := List.mem_singleton.mp he'
        rw [this]
        simpa using hsub q (List.mem_cons_self _ _)

/-- Every collected edge is an edge of the graph. -/
theorem kruskalCollect_valid {g : List (V × List (V × Int))}
    (hnd : (g.map Prod.fst).Nodup) :
    ∀ e ∈ (kruskalCollect g).1, (e.2.1, e.2.2) ∈ adjW g e.1 := by
  have houter : ∀ (l : List (V × List (V × Int))),
      (∀ p ∈ l, p ∈ g) →
      ∀ (acc : List (V × V × Int) × List V),
      (∀ e ∈ acc.1, (e.2.1, e.2.2) ∈ adjW g e.1) →
      ∀ e ∈ (l.foldl (fun acc p => p.2.foldl (fun acc q =>
          ((if (q.1, p.1, q.2) ∈ acc.1 then acc.1
            else acc.1 ++ [(p.1, q.1, q.2)]),
           insertNew acc.2 q.1)) acc) acc).1,
        (e.2.1, e.2.2) ∈ adjW g e.1 := by
    intro l
    induction l with
    | nil => intro _ acc hP; exact hP
    | cons p l' ih =>
      intro hl acc hP
      rw [List.foldl_cons]
      refine ih (fun p' hp' => hl p' (List.mem_cons_of_mem _ hp')) _ ?_
      have hpg : p ∈ g := hl p (List.mem_cons_self _ _)
      have hlook : g.lookup p.1 = some p.2 := lookup_of_keys_nodup hnd hpg
      have hsub : ∀ q ∈ p.2, q ∈ adjW g p.1 := by
        intro q hq
        unfold adjW
        rw [hlook]
        exact hq
      exact kc_inner_valid p.2 acc hsub hP
  intro e he
  unfold kruskalCollect at he
  exact houter g (fun _ hp => hp) _ (fun e' h => absurd h (List.not_mem_nil e'))
    e he

theorem kc_inner_mono {v : V} {x : V × V × Int} :
    ∀ (ns : List (V × Int)) (acc : List (V × V × Int) × List V),
    x ∈ acc.1 →
    x ∈ (ns.foldl (fun acc q =>
        ((if (q.1, v, q.2) ∈ acc.1 then acc.1 else acc.1 ++ [(v, q.1, q.2)]),
         insertNew acc.2 q.1)) acc).1 := by
  intro ns
  induction ns with
  | nil => intro acc h; exact h
  | cons q ns' ih =>
    intro acc h
    rw [List.foldl_cons]
    refine ih _ ?_
    by_cases hc : (q.1, v, q.2) ∈ acc.1
    · rw [if_pos hc]; exact h
    · rw [if_neg hc]; exact List.mem_append.mpr (Or.inl h)

theorem kc_outer_mono {x : V × V × Int} :
    ∀ (l : List (V × List (V × Int))) (acc : List (V × V × Int) × List V),
    x ∈ acc.1 →
    x ∈ (l.foldl (fun acc p => p.2.foldl (fun acc q =>
        ((if (q.1, p.1, q.2) ∈ acc.1 then acc.1
          else acc.1 ++ [(p.1, q.1, q.2)]),
         insertNew acc.2 q.1)) acc) acc).1 := by
  intro l
  induction l with
  | nil => intro acc h; exact h
  | cons p l' ih =>
    intro acc h
    rw [List.foldl_cons]
    exact ih _ (kc_inner_mono p.2 acc h)

theorem kc_inner_cover {v : V} :
    ∀ (ns : List (V × Int)) (acc : List (V × V × Int) × List V),
    ∀ q ∈ ns,
    (v, q.1, q.2) ∈ (ns.foldl (fun acc q =>
        ((if (q.1, v, q.2) ∈ acc.1 then acc.1 else acc.1 ++ [(v, q.1, q.2)]),
         insertNew acc.2 q.1)) acc).1 ∨
    (q.1, v, q.2) ∈ (ns.foldl (fun acc q =>
        ((if (q.1, v, q.2) ∈ acc.1 then acc.1 else acc.1 ++ [(v, q.1, q.2)]),
         insertNew acc.2 q.1)) acc).1 := by
  intro ns
  induction ns with
  | nil => intro acc q hq; cases hq
  | cons q' ns' ih =>
    intro acc q hq
    rw [List.foldl_cons]
    rcases List.mem_cons.mp hq with rfl | hq'
    · by_cases hc : (q.1, v, q.2) ∈ acc.1
      · refine Or.inr (kc_inner_mono ns' _ ?_)
        show (q.1, v, q.2) ∈ (if (q.1, v, q.2) ∈ acc.1 then acc.1
          else acc.1 ++ [(v, q.1, q.2)])
        rw [if_pos hc]
        exact hc
      · refine Or.inl (kc_inner_mono ns' _ ?_)
        show (v, q.1, q.2) ∈ (if (q.1, v, q.2) ∈ acc.1 then acc.1
          else acc.1 ++ [(v, q.1, q.2)])
        rw [if_neg hc]
        exact List.mem_append.mpr (Or.inr (List.mem_singleton.mpr rfl))
    · exact ih _ q hq'

theorem kc_outer_cover :
    ∀ (l : List (V × List (V × Int))) (acc : List (V × V × Int) × List V),
    ∀ p ∈ l, ∀ q ∈ p.2,
    (p.1, q.1, q.2) ∈ (l.foldl (fun acc p => p.2.foldl (fun acc q =>
        ((if (q.1, p.1, q.2) ∈ acc.1 then acc.1
          else acc.1 ++ [(p.1, q.1, q.2)]),
         insertNew acc.2 q.1)) acc) acc).1 ∨
    (q.1, p.1, q.2) ∈ (l.foldl (fun acc p => p.2.foldl (fun acc q =>
        ((if (q.1, p.1, q.2) ∈ acc.1 then acc.1
          else acc.1 ++ [(p.1, q.1, q.2)]),
         insertNew acc.2 q.1)) acc) acc).1 := by
  intro l
  induction l with
  | nil => intro acc p hp; cases hp
  | cons p' l' ih =>
    intro acc p hp q hq
    rw [List.foldl_cons]
    rcases List.mem_cons.mp hp with rfl | hp'
    · rcases kc_inner_cover p.2 acc q hq with h | h
      · exact Or.inl (kc_outer_mono l' _ h)
      · exact Or.inr (kc_outer_mono l' _ h)
    · exact ih _ p hp' q hq

/-- Every directed adjacency of the graph appears in the collected edge
pool, in one of its two orientations. -/
theorem kruskalCollect_cover {g : List (V × List (V × Int))} {a b : V}
    {w : Int} (h : (b, w) ∈ adjW g a) :
    (a, b, w) ∈ (kruskalCollect g).1 ∨ (b, a, w) ∈ (kruskalCollect g).1 := by
  unfold adjW at h
  cases hl : g.lookup a with
  | none => rw [hl] at h; cases h
  | some ns =>
    rw [hl] at h
    simp only [Option.getD_some] at h
    have hpg : (a, ns) ∈ g := lookup_mem_pairs hl
    unfold kruskalCollect
    have := kc_outer_cover g
      ([], g.foldl (fun acc p => insertNew acc p.1) []) (a, ns) hpg (b, w) h
    simpa using this

theorem kruskalCollect_ends {g : List (V × List (V × Int))}
    (hnd : (g.map Prod.fst).Nodup) :
    ∀ e ∈ (kruskalCollect g).1, e.1 ∈ wVertices g ∧ e.2.1 ∈ wVertices g := by
  intro e he
  have hval := kruskalCollect_valid hnd e he
  refine ⟨?_, nbr_mem_wVertices hval⟩
  have hne : adjW g e.1 ≠ [] := by
    intro h
    rw [h] at hval
    cases hval
  exact key_mem_wVertices (adjW_ne_nil_key hne)

end Algorithms

namespace Algorithms

variable {V : Type} [DecidableEq V]

theorem kruskalLoop_cons (nv fuel : Nat) (e : V × V × Int)
    (es : List (V × V × Int)) (u : UF V) (mst : List (V × V × Int))
    (tw : Int) :
    kruskalLoop nv fuel (e :: es) u mst tw =
      (if (ufUnion fuel u e.1 e.2.1).1 then
        (if (mst ++ [e]).length = nv - 1 then (mst ++ [e], tw + e.2.2)
         else kruskalLoop nv fuel es (ufUnion fuel u e.1 e.2.1).2
           (mst ++ [e]) (tw + e.2.2))
      else kruskalLoop nv fuel es (ufUnion fuel u e.1 e.2.1).2 mst tw) := rfl

/-- Master invariant lemma for the accept/reject loop of `kruskal_mst`:
the accepted edges extend `mst` by a sublist of the pool, the running total
is their weight sum, they stay greedily independent, root equality of the
union-find tracks their connectivity with the class count complementing
their number, the loop stops with `|dom| - 1` edges unless it ran out of
pool edges having connected both endpoints of every pool edge, and the
endpoints of every pool edge end up connected using only accepted edges no
heavier than it. -/
theorem kruskalLoop_spec {dom : List V} (hnd : dom.Nodup) {fuel : Nat}
    (hf : dom.length ≤ fuel) :
    ∀ (es mst : List (V × V × Int)) (u : UF V) (tw : Int),
    UFInv dom u.parent →
    (∀ e ∈ es, e.1 ∈ dom ∧ e.2.1 ∈ dom) →
    (∀ x ∈ dom, ∀ y ∈ dom,
      (rootOf dom u.parent x = rootOf dom u.parent y ↔ EConn mst x y)) →
    tw = twSum mst →
    mst.length + nrootsD dom u.parent = dom.length →
    Indep mst →
    WSorted es →
    (∀ a ∈ mst, ∀ b ∈ es, a.2.2 ≤ b.2.2) →
    (∃ S, List.Sublist S es ∧
      (kruskalLoop dom.length fuel es u mst tw).1 = mst ++ S) ∧
    (kruskalLoop dom.length fuel es u mst tw).2 =
      twSum (kruskalLoop dom.length fuel es u mst tw).1 ∧
    Indep (kruskalLoop dom.length fuel es u mst tw).1 ∧
    (∃ p' : V → V, UFInv dom p' ∧
      (∀ x ∈ dom, ∀ y ∈ dom, (rootOf dom p' x = rootOf dom p' y ↔
        EConn (kruskalLoop dom.length fuel es u mst tw).1 x y)) ∧
      (kruskalLoop dom.length fuel es u mst tw).1.length +
        nrootsD dom p' = dom.length) ∧
    ((kruskalLoop dom.length fuel es u mst tw).1.length + 1 = dom.length ∨
      ∀ f ∈ es, EConn (kruskalLoop dom.length fuel es u mst tw).1 f.1 f.2.1) ∧
    (∀ f ∈ es, EConn
      ((kruskalLoop dom.length fuel es u mst tw).1.filter
        (fun x => decide (x.2.2 ≤ f.2.2))) f.1 f.2.1) := by
  intro es
  induction es with
  | nil =>
    intro mst u tw hinv _ hequiv htw hcount hind _ _
    exact ⟨⟨[], List.nil_sublist _, (List.append_nil mst).symm⟩, htw, hind,
      ⟨u.parent, hinv, hequiv, hcount⟩,
      Or.inr (fun f hf' => absurd hf' (List.not_mem_nil f)),
      fun f hf' => absurd hf' (List.not_mem_nil f)⟩
  | cons e es' ih =>
    intro mst u tw hinv hends hequiv htw hcount hind hsort hwt
    have he1 : e.1 ∈ dom := (hends e (List.mem_cons_self _ _)).1
    have he2 : e.2.1 ∈ dom := (hends e (List.mem_cons_self _ _)).2
    have hends' : ∀ f ∈ es', f.1 ∈ dom ∧ f.2.1 ∈ dom :=
      fun f hf' => hends f (List.mem_cons_of_mem _ hf')
    have hsp := List.pairwise_cons.mp hsort
    have hsort' : WSorted es' := hsp.2
    have hewt : ∀ b ∈ es', e.2.2 ≤ b.2.2 := hsp.1
    obtain ⟨hinv1, hiff, hfalse, htrue⟩ := ufUnion_full hnd hinv he1 he2 hf
    rw [kruskalLoop_cons]
    rcases hflag : (ufUnion fuel u e.1 e.2.1).1 with _ | _
    · -- the edge is rejected: its endpoints were already connected
      rw [if_neg Bool.false_ne_true]
      have hpres := hfalse hflag
      have hconnm : EConn mst e.1 e.2.1 :=
        (hequiv e.1 he1 e.2.1 he2).mp (hiff.mp hflag)
      have hequiv1 : ∀ x ∈ dom, ∀ y ∈ dom,
          (rootOf dom (ufUnion fuel u e.1 e.2.1).2.parent x =
            rootOf dom (ufUnion fuel u e.1 e.2.1).2.parent y ↔
            EConn mst x y) := by
        intro x hx y hy
        rw [hpres x hx, hpres y hy]
        exact hequiv x hx y hy
      have hnr : nrootsD dom (ufUnion fuel u e.1 e.2.1).2.parent =
          nrootsD dom u.parent := nroots_eq_of_agree hpres
      have hcount1 : mst.length +
          nrootsD dom (ufUnion fuel u e.1 e.2.1).2.parent = dom.length := by
        rw [hnr]
        exact hcount
      have hwt' : ∀ a ∈ mst, ∀ b ∈ es', a.2.2 ≤ b.2.2 :=
        fun a ha b hb => hwt a ha b (List.mem_cons_of_mem _ hb)
      obtain ⟨⟨S, hS, hres⟩, htw2, hind2, hp2, hdich2, hthr2⟩ :=
        ih mst (ufUnion fuel u e.1 e.2.1).2 tw hinv1 hends' hequiv1 htw
          hcount1 hind hsort' hwt'
      refine ⟨⟨S, List.Sublist.cons e hS, hres⟩, htw2, hind2, hp2, ?_, ?_⟩
      · rcases hdich2 with h | h
        · exact Or.inl h
        · refine Or.inr ?_
          intro f hf'
          rcases List.mem_cons.mp hf' with rfl | hf''
          · refine econn_mono ?_ hconnm
            intro x hx
            rw [hres]
            exact List.mem_append.mpr (Or.inl hx)
          · exact h f hf''
      · intro f hf'
        rcases List.mem_cons.mp hf' with rfl | hf''
        · refine econn_mono ?_ hconnm
          intro x hx
          rw [List.mem_filter, hres]
          exact ⟨List.mem_append.mpr (Or.inl hx),
            decide_eq_true (hwt x hx f (List.mem_cons_self _ _))⟩
        · exact hthr2 f hf''
    · -- the edge is accepted: two classes merge
      rw [if_pos rfl]
      obtain ⟨rA, rB, hne, hAB, hch⟩ := htrue hflag
      have hrne : rootOf dom u.parent e.1 ≠ rootOf dom u.parent e.2.1 := by
        intro h
        have := hiff.mpr h
        rw [hflag] at this
        cases this
      have hnc : ¬ EConn mst e.1 e.2.1 := fun h =>
        hrne ((hequiv e.1 he1 e.2.1 he2).mpr h)
      have hequiv1 := step_equiv_accept he1 he2 hequiv hAB hch
      have hAmem : rA ∈ dom.toFinset.image (rootOf dom u.parent) := by
        rcases hAB with ⟨hA, _⟩ | ⟨hA, _⟩
        · exact Finset.mem_image.mpr ⟨e.1, List.mem_toFinset.mpr he1, hA.symm⟩
        · exact Finset.mem_image.mpr ⟨e.2.1, List.mem_toFinset.mpr he2, hA.symm⟩
      have hBmem : rB ∈ dom.toFinset.image (rootOf dom u.parent) := by
        rcases hAB with ⟨_, hB⟩ | ⟨_, hB⟩
        · exact Finset.mem_image.mpr ⟨e.2.1, List.mem_toFinset.mpr he2, hB.symm⟩
        · exact Finset.mem_image.mpr ⟨e.1, List.mem_toFinset.mpr he1, hB.symm⟩
      have hlink : nrootsD dom (ufUnion fuel u e.1 e.2.1).2.parent + 1 =
          nrootsD dom u.parent := nroots_link hAmem hBmem hne hch
      have hlen1 : (mst ++ [e]).length = mst.length + 1 := by
        rw [List.length_append, List.length_singleton]
      have hcount1 : (mst ++ [e]).length +
          nrootsD dom (ufUnion fuel u e.1 e.2.1).2.parent = dom.length := by
        omega
      have hind1 : Indep (mst ++ [e]) := indep_snoc hind hnc
      have htw1 : tw + e.2.2 = twSum (mst ++ [e]) := by
        rw [twSum_snoc, htw]
      have hwt1 : ∀ a ∈ mst ++ [e], ∀ b ∈ es', a.2.2 ≤ b.2.2 := by
        intro a ha b hb
        rcases List.mem_append.mp ha with ha' | ha'
        · exact hwt a ha' b (List.mem_cons_of_mem _ hb)
        · rw [List.mem_singleton.mp ha']
          exact hewt b hb
      by_cases hbreak : (mst ++ [e]).length = dom.length - 1
      · rw [if_pos hbreak]
        have hnv : (mst ++ [e]).length + 1 = dom.length := by omega
        have hnr1 : nrootsD dom (ufUnion fuel u e.1 e.2.1).2.parent = 1 := by
          omega
        have hallconn : ∀ x ∈ dom, ∀ y ∈ dom, EConn (mst ++ [e]) x y := by
          intro x hx y hy
          exact (hequiv1 x hx y hy).mp (conn_of_nroots_one hnr1 x hx y hy)
        refine ⟨⟨[e], List.Sublist.cons₂ e (List.nil_sublist es'), rfl⟩,
          htw1, hind1,
          ⟨(ufUnion fuel u e.1 e.2.1).2.parent, hinv1, hequiv1, hcount1⟩,
          Or.inl hnv, ?_⟩
        intro f hf'
        rcases List.mem_cons.mp hf' with rfl | hf''
        · refine Relation.ReflTransGen.single ⟨f, ?_, Or.inl ⟨rfl, rfl⟩⟩
          rw [List.mem_filter]
          exact ⟨List.mem_append.mpr (Or.inr (List.mem_singleton.mpr rfl)),
            decide_eq_true (le_refl _)⟩
        · have hfil : (mst ++ [e]).filter
              (fun x => decide (x.2.2 ≤ f.2.2)) = mst ++ [e] := by
            rw [List.filter_eq_self]
            intro a ha
            refine decide_eq_true ?_
            rcases List.mem_append.mp ha with ha' | ha'
            · exact le_trans (hwt a ha' e (List.mem_cons_self _ _))
                (hewt f hf'')
            · rw [List.mem_singleton.mp ha']
              exact hewt f hf''
          rw [hfil]
          exact hallconn f.1 (hends' f hf'').1 f.2.1 (hends' f hf'').2
      · rw [if_neg hbreak]
        obtain ⟨⟨S, hS, hres⟩, htw2, hind2, hp2, hdich2, hthr2⟩ :=
          ih (mst ++ [e]) (ufUnion fuel u e.1 e.2.1).2 (tw + e.2.2) hinv1
            hends' hequiv1 htw1 hcount1 hind1 hsort' hwt1
        refine ⟨⟨e :: S, List.Sublist.cons₂ e hS, ?_⟩, htw2, hind2, hp2,
          ?_, ?_⟩
        · rw [hres]
          simp
        · rcases hdich2 with h | h
          · exact Or.inl h
          · refine Or.inr ?_
            intro f hf'
            rcases List.mem_cons.mp hf' with rfl | hf''
            · refine Relation.ReflTransGen.single ⟨f, ?_, Or.inl ⟨rfl, rfl⟩⟩
              rw [hres]
              exact List.mem_append.mpr (Or.inl (List.mem_append.mpr
                (Or.inr (List.mem_singleton.mpr rfl))))
            · exact h f hf''
        · intro f hf'
          rcases List.mem_cons.mp hf' with rfl | hf''
          · refine Relation.ReflTransGen.single ⟨f, ?_, Or.inl ⟨rfl, rfl⟩⟩
            rw [List.mem_filter, hres]
            exact ⟨List.mem_append.mpr (Or.inl (List.mem_append.mpr
              (Or.inr (List.mem_singleton.mpr rfl)))),
              decide_eq_true (le_refl _)⟩
          · exact hthr2 f hf''

end Algorithms

namespace Algorithms

theorem sorted_dominance :
    ∀ (A B : List Int), List.Pairwise (· ≤ ·) A → List.Pairwise (· ≤ ·) B →
    A.length = B.length →
    (∀ w : Int, (B.filter (fun x => decide (x ≤ w))).length ≤
      (A.filter (fun x => decide (x ≤ w))).length) →
    List.Forall₂ (· ≤ ·) A B := by
  intro A
  induction A with
  | nil =>
    intro B _ _ hlen _
    rw [List.length_nil] at hlen
    rw [List.eq_nil_of_length_eq_zero hlen.symm]
    exact List.Forall₂.nil
  | cons a A' ih =>
    intro B hA hB hlen hdom
    cases B with
    | nil => simp at hlen
    | cons b B' =>
      have hAc := List.pairwise_cons.mp hA
      have hBc := List.pairwise_cons.mp hB
      have hab : a ≤ b := by
        have h1 := hdom b
        have hbmem : b ∈ (b :: B').filter (fun x => decide (x ≤ b)) := by
          rw [List.mem_filter]
          exact ⟨List.mem_cons_self _ _, decide_eq_true (le_refl b)⟩
        have hpos : 0 < ((b :: B').filter (fun x => decide (x ≤ b))).length :=
          List.length_pos.mpr (List.ne_nil_of_mem hbmem)
        have hpos2 : 0 <
            ((a :: A').filter (fun x => decide (x ≤ b))).length :=
          lt_of_lt_of_le hpos h1
        obtain ⟨x, hxmem⟩ := List.exists_mem_of_length_pos hpos2
        rw [List.mem_filter] at hxmem
        have hxb : x ≤ b := of_decide_eq_true hxmem.2
        rcases List.mem_cons.mp hxmem.1 with rfl | hx'
        · exact hxb
        · exact le_trans (hAc.1 x hx') hxb
      have hdom' : ∀ w : Int,
          (B'.filter (fun x => decide (x ≤ w))).length ≤
          (A'.filter (fun x => decide (x ≤ w))).length := by
        intro w
        by_cases hw : b ≤ w
        · have haw : a ≤ w := le_trans hab hw
          have h1 := hdom w
          rw [List.filter_cons_of_pos (p := fun x => decide (x ≤ w))
              (decide_eq_true hw),
            List.filter_cons_of_pos (p := fun x => decide (x ≤ w))
              (decide_eq_true haw)] at h1
          simpa using h1
        · have hBempty : B'.filter (fun x => decide (x ≤ w)) = [] := by
            rw [List.filter_eq_nil_iff]
            intro x hx h
            exact hw (le_trans (hBc.1 x hx) (of_decide_eq_true h))
          rw [hBempty]
          simp
      exact List.Forall₂.cons hab
        (ih B' hAc.2 hBc.2 (by simpa using hlen) hdom')

theorem forall2_sum_le {A B : List Int}
    (h : List.Forall₂ (· ≤ ·) A B) : A.sum ≤ B.sum := by
  induction h with
  | nil => exact le_refl _
  | cons hab _ ih => simpa using add_le_add hab ih

/-- If, at every threshold, one list has at least as many small elements as
the other (and they have the same length), its sum is no larger. -/
theorem sum_dominance {A B : List Int} (hlen : A.length = B.length)
    (hdom : ∀ w : Int, (B.filter (fun x => decide (x ≤ w))).length ≤
      (A.filter (fun x => decide (x ≤ w))).length) :
    A.sum ≤ B.sum := by
  have hpA : List.Perm (List.insertionSort (· ≤ ·) A) A :=
    List.perm_insertionSort _ A
  have hpB : List.Perm (List.insertionSort (· ≤ ·) B) B :=
    List.perm_insertionSort _ B
  have hsA : List.Pairwise (· ≤ ·) (List.insertionSort (· ≤ ·) A) :=
    List.sorted_insertionSort _ A
  have hsB : List.Pairwise (· ≤ ·) (List.insertionSort (· ≤ ·) B) :=
    List.sorted_insertionSort _ B
  have hlen' : (List.insertionSort (· ≤ ·) A).length =
      (List.insertionSort (· ≤ ·) B).length := by
    rw [hpA.length_eq, hpB.length_eq, hlen]
  have hdom' : ∀ w : Int,
      ((List.insertionSort (· ≤ ·) B).filter
        (fun x => decide (x ≤ w))).length ≤
      ((List.insertionSort (· ≤ ·) A).filter
        (fun x => decide (x ≤ w))).length := by
    intro w
    rw [(hpB.filter _).length_eq, (hpA.filter _).length_eq]
    exact hdom w
  have h := forall2_sum_le (sorted_dominance _ _ hsA hsB hlen' hdom')
  rw [hpA.sum_eq, hpB.sum_eq] at h
  exact h

end Algorithms

namespace Algorithms

variable {V : Type} [DecidableEq V]

theorem ufInv_id (dom : List V) : UFInv dom (fun v : V => v) := by
  constructor
  · intro v hv
    exact hv
  · intro v _
    rfl

theorem id_equiv_nil (dom : List V) :
    ∀ x ∈ dom, ∀ y ∈ dom,
    (rootOf dom (fun v : V => v) x = rootOf dom (fun v : V => v) y ↔
      EConn ([] : List (V × V × Int)) x y) := by
  intro x _ y _
  rw [show rootOf dom (fun v : V => v) x = x from pIter_id _ _,
    show rootOf dom (fun v : V => v) y = y from pIter_id _ _]
  constructor
  · intro h
    subst h
    exact Relation.ReflTransGen.refl
  · exact econn_nil

/-- Any edge list connecting all of `dom` with one fewer edge than `dom`
has vertices is greedily independent (a tree). -/
theorem replay_tree {dom : List V} (hnd : dom.Nodup) {fuel : Nat}
    (hf : dom.length ≤ fuel) {T : List (V × V × Int)}
    (hends : ∀ e ∈ T, e.1 ∈ dom ∧ e.2.1 ∈ dom)
    (hconn : ∀ x ∈ dom, ∀ y ∈ dom, EConn T x y)
    (hlen : T.length + 1 = dom.length) :
    Indep T := by
  obtain ⟨hinv', hequiv', hle, heqsp, _⟩ :=
    ufReplay_spec hnd hf T [] ⟨fun v => v, fun _ => 0⟩ (ufInv_id dom)
      hends (id_equiv_nil dom)
  have hne : dom ≠ [] := by
    intro h
    rw [h] at hlen
    simp at hlen
  have hnr1 : nrootsD dom
      (ufReplay fuel T ⟨fun v => v, fun _ => 0⟩).parent = 1 := by
    refine nroots_one_of_conn hne ?_
    intro x hx y hy
    exact (hequiv' x hx y hy).mpr (hconn x hx y hy)
  have hid : ((⟨fun v => v, fun _ => 0⟩ : UF V)).parent =
      (fun v : V => v) := rfl
  rw [hid, nroots_init dom hnd] at hle heqsp
  have heq : dom.length = nrootsD dom
      (ufReplay fuel T ⟨fun v => v, fun _ => 0⟩).parent + T.length := by
    omega
  exact fun L1 e L2 hsplit => heqsp heq L1 e L2 hsplit

/-- A greedily independent edge list over `dom` has a root map whose class
count complements its length. -/
theorem indep_count {dom : List V} (hnd : dom.Nodup) {fuel : Nat}
    (hf : dom.length ≤ fuel) {X : List (V × V × Int)}
    (hends : ∀ e ∈ X, e.1 ∈ dom ∧ e.2.1 ∈ dom) (hind : Indep X) :
    ∃ p : V → V, UFInv dom p ∧
      (∀ x ∈ dom, ∀ y ∈ dom,
        (rootOf dom p x = rootOf dom p y ↔ EConn X x y)) ∧
      nrootsD dom p + X.length = dom.length := by
  obtain ⟨hinv', hequiv', _, _, hsp⟩ :=
    ufReplay_spec hnd hf X [] ⟨fun v => v, fun _ => 0⟩ (ufInv_id dom)
      hends (id_equiv_nil dom)
  refine ⟨(ufReplay fuel X ⟨fun v => v, fun _ => 0⟩).parent, hinv',
    fun x hx y hy => hequiv' x hx y hy, ?_⟩
  have hid : ((⟨fun v => v, fun _ => 0⟩ : UF V)).parent =
      (fun v : V => v) := rfl
  have := hsp (fun X1 e X2 h => hind X1 e X2 h)
  rw [hid, nroots_init dom hnd] at this
  omega

/-- Exchange bound: if every edge of the independent list `X` has its
endpoints connected by the independent list `Y`, then `X` has no more
edges than `Y`. -/
theorem indep_card_le {dom : List V} (hnd : dom.Nodup) {fuel : Nat}
    (hf : dom.length ≤ fuel) {X Y : List (V × V × Int)}
    (hendsX : ∀ e ∈ X, e.1 ∈ dom ∧ e.2.1 ∈ dom)
    (hendsY : ∀ e ∈ Y, e.1 ∈ dom ∧ e.2.1 ∈ dom)
    (hindX : Indep X) (hindY : Indep Y)
    (href : ∀ e ∈ X, EConn Y e.1 e.2.1) :
    X.length ≤ Y.length := by
  obtain ⟨pX, hinvX, heqX, hcX⟩ := indep_count hnd hf hendsX hindX
  obtain ⟨pY, hinvY, heqY, hcY⟩ := indep_count hnd hf hendsY hindY
  have hlift : ∀ {x y : V}, EConn X x y → EConn Y x y := by
    intro x y h
    induction h with
    | refl => exact Relation.ReflTransGen.refl
    | tail _ hstep ih =>
      obtain ⟨e, he, hor⟩ := hstep
      rcases hor with ⟨h1, h2⟩ | ⟨h1, h2⟩
      · exact Relation.ReflTransGen.trans ih (h1 ▸ h2 ▸ href e he)
      · exact Relation.ReflTransGen.trans ih
          (econn_symm (h1 ▸ h2 ▸ href e he))
  have hroots : nrootsD dom pY ≤ nrootsD dom pX := by
    refine nroots_le_of_refine hinvY hinvX ?_
    intro x hx y hy h
    exact (heqY x hx y hy).mpr (hlift ((heqX x hx y hy).mp h))
  omega

end Algorithms

namespace Algorithms

variable {V : Type} [DecidableEq V]

/-- C2: on a connected undirected weighted graph (every edge recorded in
both directions with the same weight, at least one vertex), `kruskal_mst`
returns exactly `|V| - 1` edges, reports as total weight exactly the sum of
the weights of the returned edges, and that total weight is minimal among
all spanning trees of the graph. -/
theorem C2_theorem (g : List (V × List (V × Int)))
    (hnd : (g.map Prod.fst).Nodup)
    (hundir : ∀ a b : V, ∀ w : Int, (b, w) ∈ adjW g a → (a, w) ∈ adjW g b)
    (hne : g ≠ [])
    (hconn : ∀ x ∈ wVertices g, ∀ y ∈ wVertices g, GConn g x y) :
    (kruskal_mst g).1.length + 1 = (wVertices g).length ∧
    (kruskal_mst g).2 = twSum (kruskal_mst g).1 ∧
    ∀ T, IsSpanTree g T → twSum (kruskal_mst g).1 ≤ twSum T := by
  classical
  set dom := wVertices g with hdom
  have hdnd : dom.Nodup := wVertices_nodup g
  have hsnd : (kruskalCollect g).2 = dom := by
    rw [hdom]
    exact kruskalCollect_snd g
  have hkm : kruskal_mst g =
      kruskalLoop (kruskalCollect g).2.length ((kruskalCollect g).2.length + 1)
        (sortByWeight (kruskalCollect g).1)
        ⟨fun v => v, fun _ => 0⟩ [] 0 := rfl
  rw [hsnd] at hkm
  have hperm : List.Perm (sortByWeight (kruskalCollect g).1)
      (kruskalCollect g).1 := sortByWeight_perm _
  have hends : ∀ e ∈ sortByWeight (kruskalCollect g).1,
      e.1 ∈ dom ∧ e.2.1 ∈ dom := by
    intro e he
    have := kruskalCollect_ends hnd e (hperm.subset he)
    rw [← hdom] at this
    exact this
  have hcount0 : ([] : List (V × V × Int)).length +
      nrootsD dom (⟨fun v => v, fun _ => 0⟩ : UF V).parent = dom.length := by
    have h := nroots_init dom hdnd
    simp only [List.length_nil, Nat.zero_add]
    exact h
  obtain ⟨⟨S, hS, hres⟩, htw2, hind2, ⟨p', hinv', hequiv', hcount'⟩,
      hdich, hthr⟩ :=
    kruskalLoop_spec hdnd (Nat.le_add_right dom.length 1)
      (sortByWeight (kruskalCollect g).1) [] ⟨fun v => v, fun _ => 0⟩ 0
      (ufInv_id dom) hends (id_equiv_nil dom) rfl hcount0 indep_nil
      (sortByWeight_sorted _) (fun a ha => absurd ha (List.not_mem_nil a))
  rw [← hkm] at hres htw2 hind2 hequiv' hcount' hdich hthr
  rw [List.nil_append] at hres
  have hFends : ∀ e ∈ (kruskal_mst g).1, e.1 ∈ dom ∧ e.2.1 ∈ dom := by
    intro e he
    rw [hres] at he
    exact hends e (hS.mem he)
  have hlen : (kruskal_mst g).1.length + 1 = dom.length := by
    rcases hdich with h | h
    · exact h
    · have hstep : ∀ a b : V, adjStep g a b → EConn (kruskal_mst g).1 a b := by
        intro a b hab
        obtain ⟨w, hw⟩ := hab
        rcases kruskalCollect_cover hw with hcov | hcov
        · exact h _ (hperm.mem_iff.mpr hcov)
        · exact econn_symm (h _ (hperm.mem_iff.mpr hcov))
      have hlift : ∀ {x y : V}, GConn g x y → EConn (kruskal_mst g).1 x y := by
        intro x y hxy
        induction hxy with
        | refl => exact Relation.ReflTransGen.refl
        | tail _ hstep2 ih =>
          exact Relation.ReflTransGen.trans ih (hstep _ _ hstep2)
      have hdomne : dom ≠ [] := by
        obtain ⟨p, g', hg⟩ := List.exists_cons_of_ne_nil hne
        have hp : p.1 ∈ dom := by
          rw [hdom]
          refine key_mem_wVertices ?_
          rw [hg]
          simp
        exact List.ne_nil_of_mem hp
      have hnr1 : nrootsD dom p' = 1 :=
        nroots_one_of_conn hdomne (fun x hx y hy =>
          (hequiv' x hx y hy).mpr (hlift (hconn x hx y hy)))
      omega
  refine ⟨hlen, htw2, ?_⟩
  intro T hT
  unfold IsSpanTree at hT
  obtain ⟨hTval, hTconn, hTlen⟩ := hT
  have hTends : ∀ e ∈ T, e.1 ∈ dom ∧ e.2.1 ∈ dom := by
    intro e he
    have hval := hTval e he
    constructor
    · rw [hdom]
      refine key_mem_wVertices (adjW_ne_nil_key ?_)
      intro hnil
      rw [hnil] at hval
      cases hval
    · rw [hdom]
      exact nbr_mem_wVertices hval
  have hTind : Indep T :=
    replay_tree hdnd (Nat.le_add_right dom.length 1) hTends hTconn hTlen
  have hthresh : ∀ w : Int,
      (T.filter (fun e => decide (e.2.2 ≤ w))).length ≤
      ((kruskal_mst g).1.filter (fun e => decide (e.2.2 ≤ w))).length := by
    intro w
    refine indep_card_le hdnd (Nat.le_add_right dom.length 1) ?_ ?_ ?_ ?_ ?_
    · exact fun e he => hTends e (List.mem_filter.mp he).1
    · exact fun e he => hFends e (List.mem_filter.mp he).1
    · exact indep_sublist (List.filter_sublist _) hTind
    · exact indep_sublist (List.filter_sublist _) hind2
    · intro e he
      rw [List.mem_filter] at he
      have hew : e.2.2 ≤ w := of_decide_eq_true he.2
      have hval := hTval e he.1
      rcases kruskalCollect_cover hval with hcov | hcov
      · have h6 := hthr _ (hperm.mem_iff.mpr hcov)
        refine econn_mono ?_ h6
        intro x hx
        rw [List.mem_filter] at hx ⊢
        exact ⟨hx.1, decide_eq_true
          (le_trans (of_decide_eq_true hx.2) hew)⟩
      · have h6 := hthr _ (hperm.mem_iff.mpr hcov)
        refine econn_symm (econn_mono ?_ h6)
        intro x hx
        rw [List.mem_filter] at hx ⊢
        exact ⟨hx.1, decide_eq_true
          (le_trans (of_decide_eq_true hx.2) hew)⟩
  have hmap : ∀ (L : List (V × V × Int)) (w : Int),
      (L.map (fun e => e.2.2)).filter (fun x => decide (x ≤ w)) =
      (L.filter (fun e => decide (e.2.2 ≤ w))).map (fun e => e.2.2) := by
    intro L w
    rw [List.filter_map]
    rfl
  have hlen2 : ((kruskal_mst g).1.map (fun e => e.2.2)).length =
      (T.map (fun e => e.2.2)).length := by
    rw [List.length_map, List.length_map]
    rw [← hdom] at hTlen
    omega
  have hdom2 : ∀ w : Int,
      ((T.map (fun e => e.2.2)).filter (fun x => decide (x ≤ w))).length ≤
      (((kruskal_mst g).1.map (fun e => e.2.2)).filter
        (fun x => decide (x ≤ w))).length := by
    intro w
    rw [hmap T w, hmap (kruskal_mst g).1 w, List.length_map, List.length_map]
    exact hthresh w
  exact sum_dominance hlen2 hdom2

end Algorithms

namespace Algorithms

/-- A tiny connected undirected weighted graph: a single edge of weight 5
recorded in both directions. -/
def kruskalWitnessGraph : List (Nat × List (Nat × Int)) :=
  [(0, [(1, 5)]), (1, [(0, 5)])]

/-- Witness for C2: the two-vertex graph with one undirected edge satisfies
every hypothesis, and the theorem applies to it. -/
theorem C2_witness :
    ((kruskalWitnessGraph.map Prod.fst).Nodup) ∧
    (∀ a b : Nat, ∀ w : Int, (b, w) ∈ adjW kruskalWitnessGraph a →
      (a, w) ∈ adjW kruskalWitnessGraph b) ∧
    kruskalWitnessGraph ≠ [] ∧
    (∀ x ∈ wVertices kruskalWitnessGraph,
      ∀ y ∈ wVertices kruskalWitnessGraph, GConn kruskalWitnessGraph x y) ∧
    ((kruskal_mst kruskalWitnessGraph).1.length + 1 =
        (wVertices kruskalWitnessGraph).length ∧
      (kruskal_mst kruskalWitnessGraph).2 =
        twSum (kruskal_mst kruskalWitnessGraph).1 ∧
      ∀ T, IsSpanTree kruskalWitnessGraph T →
        twSum (kruskal_mst kruskalWitnessGraph).1 ≤ twSum T) := by
  have hnd : (kruskalWitnessGraph.map Prod.fst).Nodup := by decide
  have hundir : ∀ a b : Nat, ∀ w : Int,
      (b, w) ∈ adjW kruskalWitnessGraph a →
      (a, w) ∈ adjW kruskalWitnessGraph b := by
    intro a b w h
    have hmem : a ∈ wVertices kruskalWitnessGraph := by
      by_contra hcon
      rw [adjW_nil_of_not_mem hcon] at h
      cases h
    have hwv : wVertices kruskalWitnessGraph = [0, 1] := rfl
    rw [hwv] at hmem
    have hav : a = 0 ∨ a = 1 := by simpa using hmem
    rcases hav with rfl | rfl
    · have h0 : adjW kruskalWitnessGraph 0 = [(1, 5)] := rfl
      rw [h0] at h
      have h' := List.mem_singleton.mp h
      injection h' with hb hw
      subst hb
      subst hw
      decide
    · have h1 : adjW kruskalWitnessGraph 1 = [(0, 5)] := rfl
      rw [h1] at h
      have h' := List.mem_singleton.mp h
      injection h' with hb hw
      subst hb
      subst hw
      decide
  have hne : kruskalWitnessGraph ≠ [] := by decide
  have hconn : ∀ x ∈ wVertices kruskalWitnessGraph,
      ∀ y ∈ wVertices kruskalWitnessGraph, GConn kruskalWitnessGraph x y := by
    have hwv : wVertices kruskalWitnessGraph = [0, 1] := rfl
    have h01 : GConn kruskalWitnessGraph 0 1 :=
      Relation.ReflTransGen.single ⟨5, by decide⟩
    have h10 : GConn kruskalWitnessGraph 1 0 :=
      Relation.ReflTransGen.single ⟨5, by decide⟩
    intro x hx y hy
    rw [hwv] at hx hy
    have hx' : x = 0 ∨ x = 1 := by simpa using hx
    have hy' : y = 0 ∨ y = 1 := by simpa using hy
    rcases hx' with rfl | rfl <;> rcases hy' with rfl | rfl
    · exact Relation.ReflTransGen.refl
    · exact h01
    · exact h10
    · exact Relation.ReflTransGen.refl
  exact ⟨hnd, hundir, hne, hconn,
    C2_theorem kruskalWitnessGraph hnd hundir hne hconn⟩

end Algorithms
